import Mathlib

/-!
Verification development for the Steam library reconciliation subsystem of
`lutris/util/steam.py`: the VDF text codec (`vdf_parse` / `to_vdf`), the
app-manifest model (`AppManifest`, `APP_STATE_FLAGS`, state-flag decoding),
the catalog synchronisation pass (`sync_with_lutris`, `mark_as_installed`,
`mark_as_uninstalled`) and the filesystem watch handler (`SteamWatchHandler`).

Python strings are embedded as `List Char`; files are raw character lists cut
into lines the way `file.readline()` cuts them (each line keeps its trailing
newline, the final line may lack one).  Machine-level collaborators that are
not part of the repository sources (the `pga` catalog store, `slugify`,
`make_game_config_id`) are modelled from the specification and marked as such
in their doc comments.
-/

deriving instance DecidableEq for Except

namespace Steam

/-! ## Python string primitives -/

/-- Whitespace characters stripped by Python's `str.strip()`:
space, tab, newline, carriage return, vertical tab, form feed. -/
def isPySpace (c : Char) : Bool :=
  c = ' ' || c = '\t' || c = '\n' || c = '\r' || c = '\x0b' || c = '\x0c'

/-- Drop the longest suffix of characters satisfying `p` (the right half of
Python's `str.strip()`). -/
def dropTrailWhile (p : Char → Bool) : List Char → List Char
  | [] => []
  | c :: rest =>
      match dropTrailWhile p rest with
      | [] => if p c then [] else [c]
      | r :: rs => c :: r :: rs

/-- Python's `str.strip()` with no argument. -/
def pyStrip (s : List Char) : List Char :=
  dropTrailWhile isPySpace (s.dropWhile isPySpace)

/-- Python's `str.split(sep)` for a one-character separator: every occurrence
of the separator cuts, empty segments are kept. -/
def pySplitChar (sep : Char) : List Char → List (List Char)
  | [] => [[]]
  | c :: rest =>
      if c = sep then [] :: pySplitChar sep rest
      else
        match pySplitChar sep rest with
        | [] => [[c]]
        | r :: rs => (c :: r) :: rs

/-- Cut a raw file text into the lines `file.readline()` would return: each
line keeps its trailing newline, a final unterminated line is returned bare,
and end of file is the end of the list. -/
def linesOf : List Char → List (List Char)
  | [] => []
  | c :: rest =>
      if c = '\n' then ['\n'] :: linesOf rest
      else
        match linesOf rest with
        | [] => [[c]]
        | l :: ls => (c :: l) :: ls

/-- First maximal run of decimal digits in a string: the first group that
`re.findall(r'(\d+)', s)` returns (empty when the string has no digit). -/
def firstDigitRun (s : List Char) : List Char :=
  (s.dropWhile (fun c => !c.isDigit)).takeWhile Char.isDigit

/-- Value of a string of decimal digits (the `int()` of a digit run). -/
def digitsToNat (s : List Char) : Nat :=
  s.foldl (fun acc c => acc * 10 + (c.toNat - '0'.toNat)) 0

/-- Python `int(s)` on an arbitrary string: optional surrounding whitespace,
optional sign, then at least one digit; anything else raises `ValueError`
(modelled as `none`). -/
def pyIntOfString (s : List Char) : Option Int :=
  let t := pyStrip s
  match t with
  | '-' :: ds => if ds ≠ [] ∧ ds.all Char.isDigit then some (-(digitsToNat ds : Int)) else none
  | '+' :: ds => if ds ≠ [] ∧ ds.all Char.isDigit then some (digitsToNat ds : Int) else none
  | ds => if ds ≠ [] ∧ ds.all Char.isDigit then some (digitsToNat ds : Int) else none

/-! ## The VDF document type

A parsed VDF document is an insertion-ordered mapping from string keys to
either string values or nested mappings, exactly what `vdf_parse` builds in a
Python `dict`.  The entry list is fused into the inductive so that all
recursion is structural. -/

/-- Ordered VDF mapping: `nil` is the empty dict; `strE k v rest` and
`nodeE k d rest` are a string entry and a nested-mapping entry followed by
the remaining entries. -/
inductive Vdf where
  | nil : Vdf
  | strE : List Char → List Char → Vdf → Vdf
  | nodeE : List Char → Vdf → Vdf → Vdf
deriving DecidableEq, Repr

/-- A value stored in a VDF mapping: a string or a nested mapping. -/
abbrev VdfVal := List Char ⊕ Vdf

/-- Python dict assignment `config[k] = v`: overwrite the first entry with key
`k` in place, or append a new entry at the end. -/
def dictSet : Vdf → List Char → VdfVal → Vdf
  | Vdf.nil, k, Sum.inl s => Vdf.strE k s Vdf.nil
  | Vdf.nil, k, Sum.inr d => Vdf.nodeE k d Vdf.nil
  | Vdf.strE k' v' rest, k, v =>
      if k' = k then
        match v with
        | Sum.inl s => Vdf.strE k s rest
        | Sum.inr d => Vdf.nodeE k d rest
      else Vdf.strE k' v' (dictSet rest k v)
  | Vdf.nodeE k' d' rest, k, v =>
      if k' = k then
        match v with
        | Sum.inl s => Vdf.strE k s rest
        | Sum.inr d => Vdf.nodeE k d rest
      else Vdf.nodeE k' d' (dictSet rest k v)

/-- Python dict lookup `d.get(k)`. -/
def dictGet : Vdf → List Char → Option VdfVal
  | Vdf.nil, _ => none
  | Vdf.strE k' v rest, k => if k' = k then some (Sum.inl v) else dictGet rest k
  | Vdf.nodeE k' d rest, k => if k' = k then some (Sum.inr d) else dictGet rest k

/-- Key membership in a VDF mapping (top level only). -/
def keyMem (d : Vdf) (k : List Char) : Bool :=
  (dictGet d k).isSome

/-! ## The VDF codec (`vdf_parse`, `to_vdf`) -/

/-- One step bound of `vdf_parse`'s line loop, fuel-indexed so that all
recursion is structural.  Mirrors the source exactly: an empty read (EOF) or
a line stripping to a single closing brace returns to the caller; a line
splitting on double quotes into exactly 3 segments opens a nested mapping
(the following line, expected to be the opening brace, is consumed and
discarded unconditionally); a line with at least 4 segments stores segment 3
at key segment 1; any other line raises `IndexError`, which the source
catches, logs and ignores.  Returns the built mapping and the unconsumed
lines. -/
def vdfParseF : Nat → List (List Char) → Vdf → Vdf × List (List Char)
  | 0, lines, config => (config, lines)
  | _ + 1, [], config => (config, [])
  | fuel + 1, line :: rest, config =>
      if line = [] ∨ pyStrip line = ['}'] then (config, rest)
      else if (pySplitChar '"' (pyStrip line)).length = 3 then
        vdfParseF fuel (vdfParseF fuel (rest.drop 1) Vdf.nil).2
          (dictSet config ((pySplitChar '"' (pyStrip line)).getD 1 [])
            (Sum.inr (vdfParseF fuel (rest.drop 1) Vdf.nil).1))
      else if 4 ≤ (pySplitChar '"' (pyStrip line)).length then
        vdfParseF fuel rest
          (dictSet config ((pySplitChar '"' (pyStrip line)).getD 1 [])
            (Sum.inl ((pySplitChar '"' (pyStrip line)).getD 3 [])))
      else vdfParseF fuel rest config

/-- `vdf_parse(steam_config_file, config)`: parse the file's lines into
`config`.  The fuel `lines.length + 1` is enough for the whole loop, since
every iteration consumes at least one line. -/
def vdf_parse (lines : List (List Char)) (config : Vdf) : Vdf :=
  (vdfParseF (lines.length + 1) lines config).1

/-- `to_vdf(dict_data, level)`: serialise a mapping, `level` tab characters of
indentation prefixed to each structural line. -/
def to_vdf (level : Nat) : Vdf → List Char
  | Vdf.nil => []
  | Vdf.strE k v rest =>
      List.replicate level '\t' ++ ('"' :: k) ++ ('"' :: '\t' :: '\t' :: '"' :: v)
        ++ ['"', '\n'] ++ to_vdf level rest
  | Vdf.nodeE k m rest =>
      List.replicate level '\t' ++ ('"' :: k) ++ ['"', '\n']
        ++ List.replicate level '\t' ++ ['{', '\n']
        ++ to_vdf (level + 1) m
        ++ List.replicate level '\t' ++ ['}', '\n'] ++ to_vdf level rest

/-! ## State flags (`APP_STATE_FLAGS`, `AppManifest.states`) -/

/-- The ordered flag-name table of the source. -/
def APP_STATE_FLAGS : List String :=
  ["Invalid", "Uninstalled", "Update Required", "Fully Installed", "Encrypted",
   "Locked", "Files Missing", "AppRunning", "Files Corrupt", "Update Running",
   "Update Paused", "Update Started", "Uninstalling", "Backup Running",
   "Reconfiguring", "Validating", "Adding Files", "Preallocating",
   "Downloading", "Staging", "Committing", "Update Stopping"]

/-- Fueled worker for `bitsLE`; `n` itself is always enough fuel. -/
def bitsLEAux : Nat → Nat → List Bool
  | 0, _ => []
  | _, 0 => []
  | fuel + 1, n + 1 => ((n + 1) % 2 = 1) :: bitsLEAux fuel ((n + 1) / 2)

/-- Binary digits of `n`, least significant first (`bin(n)` read back to
front, without the `0b` prefix; empty for `0`). -/
def bitsLE (n : Nat) : List Bool :=
  bitsLEAux n n

/-- Decoding loop of `AppManifest.states` on a nonnegative flag value: for
each set bit at position `i`, the flag name at enumeration index `i + 1` is
active.  (`bin(int(x))[:1:-1]` yields the digits least-significant first; for
`0` the single digit `'0'` yields no flag, like the empty list here.  For a
negative value the slice ends with the extra characters `b` and the digits of
the absolute value, of which only the `'1'` digits append flags, so a
negative value decodes like its absolute value; `statesOfInt` accounts for
that.) -/
def appStates (flags : Nat) : List String :=
  ((bitsLE flags).zip (List.range (bitsLE flags).length)).foldr
    (fun bi acc => if bi.1 then (APP_STATE_FLAGS.getD (bi.2 + 1) "") :: acc else acc) []

/-- Decoding of `AppManifest.states` on an arbitrary `int` value. -/
def statesOfInt (flags : Int) : List String :=
  appStates flags.natAbs

/-! ## `get_default_acf` -/

/-- Shorthand for embedding string literals. -/
def cs (s : String) : List Char := s.toList

/-- `get_default_acf(appid, name)`: the manifest skeleton written for a fresh
install request, with the literal `StateFlags` value `"1026"`. -/
def get_default_acf (appid name : List Char) : Vdf :=
  Vdf.nodeE (cs "AppState")
    (Vdf.strE (cs "appID") appid
      (Vdf.strE (cs "Universe") (cs "1")
        (Vdf.strE (cs "StateFlags") (cs "1026")
          (Vdf.strE (cs "installdir") name
            (Vdf.nodeE (cs "UserConfig")
              (Vdf.strE (cs "name") name
                (Vdf.strE (cs "gameid") appid Vdf.nil))
              Vdf.nil)))))
    Vdf.nil

/-! ## Python exceptions

Exceptions the modelled code can raise.  `attributeError` is what accessing a
never-assigned attribute (or calling `.get` on a string) raises;
`valueError` comes from `int()` on a non-numeric string and from
`AppManifest.get_platform`; `typeError` from `int()` on a dict and from
passing a non-string where one is required; `indexError` from out-of-range
list subscripts; `ioError` from failing to open a file; `assertionError`
from a failing `assert`. -/

inductive PyErr where
  | attributeError : PyErr
  | valueError : PyErr
  | typeError : PyErr
  | indexError : PyErr
  | ioError : PyErr
  | assertionError : PyErr
deriving DecidableEq, Repr

/-- Truthiness of a VDF value under Python: the empty string and the empty
dict are falsy, everything else is truthy. -/
def truthyVal : VdfVal → Bool
  | Sum.inl s => s ≠ []
  | Sum.inr d => d ≠ Vdf.nil

/-! ## `AppManifest` derived properties

`AppManifest.__init__` assigns `self.appmanifest_data` only when the manifest
file exists, so the backing data of a manifest model is an `Option Vdf`:
`none` means the attribute was never assigned and any property access raises
`AttributeError`.

The property `app_state` returns `self.appmanifest_data.get('AppState') or
{}`.  When the stored value is a non-empty string the property itself returns
that string, and the `AttributeError` is raised one step later by the
`.get(...)` call of whichever consumer (`states`, `name`, `user_config`)
touched it; every consumer calls `.get` immediately, so the error is modelled
at the `app_state` access itself, which is observably the same. -/

/-- Evaluate `self.app_state` (and the `.get` of its consumer): `AppState`
missing or falsy yields the empty dict, a non-empty string value raises
`AttributeError` at the consumer's `.get`, a dict value is returned. -/
def appStateExc (data : Option Vdf) : Except PyErr Vdf :=
  match data with
  | none => .error .attributeError
  | some d =>
      match dictGet d (cs "AppState") with
      | none => .ok Vdf.nil
      | some (Sum.inl s) => if s = [] then .ok Vdf.nil else .error .attributeError
      | some (Sum.inr m) => .ok m

/-- Evaluate `self.user_config` given the evaluated `app_state` dict. -/
def userConfigExc (ast : Vdf) : Except PyErr Vdf :=
  match dictGet ast (cs "UserConfig") with
  | none => .ok Vdf.nil
  | some (Sum.inl s) => if s = [] then .ok Vdf.nil else .error .attributeError
  | some (Sum.inr m) => .ok m

/-- Evaluate `self.states`: read `StateFlags` (default `0`), convert with
`int()` (`ValueError` on a non-numeric string, `TypeError` on a dict), then
walk the bits low-to-high appending `APP_STATE_FLAGS[i + 1]` for each set bit
`i`; a set bit at position 21 or higher subscripts past the end of the table
and raises `IndexError`, which happens exactly when the absolute value is at
least `2 ^ 21`. -/
def statesExc (data : Option Vdf) : Except PyErr (List String) :=
  appStateExc data >>= fun ast =>
    match dictGet ast (cs "StateFlags") with
    | none => .ok (statesOfInt 0)
    | some (Sum.inr _) => .error .typeError
    | some (Sum.inl s) =>
        match pyIntOfString s with
        | none => .error .valueError
        | some i => if i.natAbs < 2 ^ 21 then .ok (statesOfInt i) else .error .indexError

/-- Evaluate `self.is_installed()`. -/
def isInstalledExc (data : Option Vdf) : Except PyErr Bool :=
  statesExc data >>= fun sts => .ok (sts.contains "Fully Installed")

/-- Evaluate `self.name`: the app-state `name` field when truthy, else the
user-config `name` field (returned even when falsy or absent). -/
def nameExc (data : Option Vdf) : Except PyErr (Option VdfVal) :=
  appStateExc data >>= fun ast =>
    match dictGet ast (cs "name") with
    | some v =>
        if truthyVal v then .ok (some v)
        else userConfigExc ast >>= fun uc => .ok (dictGet uc (cs "name"))
    | none => userConfigExc ast >>= fun uc => .ok (dictGet uc (cs "name"))

/-- Evaluate `self.installdir`. -/
def installdirExc (data : Option Vdf) : Except PyErr (Option VdfVal) :=
  appStateExc data >>= fun ast => .ok (dictGet ast (cs "installdir"))

/-- Modelled from the spec: `slugify` (from `lutris.util.strings`, whose
source is not in the repository).  Per the specification a slug is a
lowercase transliteration of the name that collapses runs of
non-alphanumeric characters to a single hyphen and strips leading and
trailing hyphens. -/
def slugify (s : List Char) : List Char :=
  List.intercalate ['-']
    (((splitNonAlnum (s.map Char.toLower))).filter (fun r => r ≠ []))
where
  splitNonAlnum : List Char → List (List Char)
    | [] => [[]]
    | c :: rest =>
        if c.isAlphanum then
          match splitNonAlnum rest with
          | [] => [[c]]
          | r :: rs => (c :: r) :: rs
        else [] :: splitNonAlnum rest

/-- Evaluate `self.slug`, i.e. `slugify(self.name)`.  Modelled from the spec:
`slugify` is specified on name strings; a name that is absent or a nested
mapping is outside its domain and is modelled as a `TypeError`. -/
def slugExc (data : Option Vdf) : Except PyErr (List Char) :=
  nameExc data >>= fun nm =>
    match nm with
    | some (Sum.inl s) => .ok (slugify s)
    | _ => .error .typeError

/-! ## Filesystem model and `AppManifest.__init__` /
`get_appmanifest_from_appid` -/

/-- Filesystem as the manifest module sees it: a list of existing directory
paths and an association of file paths to contents; a file whose content is
`.error` exists but cannot be opened (`IOError` on `open`). -/
structure ManiFS where
  dirs : List String
  files : List (String × Except Unit (List Char))
deriving Repr

/-- `os.path.exists`. -/
def fsExists (fs : ManiFS) (p : String) : Bool :=
  fs.dirs.contains p || (fs.files.lookup p).isSome

/-- `os.path.join(p, f)` for a relative final component. -/
def pathJoin (p f : String) : String :=
  if p = "" then f
  else if p.toList.getLast? = some '/' then p ++ f
  else p ++ "/" ++ f

/-- `os.path.split(p)` (posix): cut at the last slash; the head keeps no
trailing slashes unless it consists only of slashes. -/
def pySplitPath (p : String) : String × String :=
  let l := p.toList
  let tl := (l.reverse.takeWhile (fun c => c ≠ '/')).reverse
  let hd := l.take (l.length - tl.length)
  let hd' := if hd ≠ [] ∧ ¬ hd.all (fun c => c = '/') then
      dropTrailWhile (fun c => c = '/') hd
    else hd
  (String.mk hd', String.mk tl)

/-- The model of one constructed `AppManifest`. -/
structure AppManifest where
  steamapps_path : String
  steamid : List Char
  appmanifest_data : Option Vdf
deriving DecidableEq, Repr

/-- `AppManifest.__init__(appmanifest_path)`: split the path, extract the
first digit run of the filename (`IndexError` when there is none), then read
and parse the file when it exists; when it does not exist, no backing data is
assigned.  A path that exists but cannot be opened as a readable file raises
at `open`. -/
def appManifestInit (fs : ManiFS) (appmanifest_path : String) : Except PyErr AppManifest :=
  let dir := (pySplitPath appmanifest_path).1
  let filename := (pySplitPath appmanifest_path).2
  let sid := firstDigitRun filename.toList
  if sid = [] then .error .indexError
  else if fsExists fs appmanifest_path then
    match fs.files.lookup appmanifest_path with
    | some (.ok content) => .ok ⟨dir, sid, some (vdf_parse (linesOf content) Vdf.nil)⟩
    | _ => .error .ioError
  else .ok ⟨dir, sid, none⟩

/-- `get_appmanifest_from_appid(steamapps_path, appid)`. -/
def get_appmanifest_from_appid (fs : ManiFS) (steamapps_path appid : String) :
    Except PyErr (Option AppManifest) :=
  if steamapps_path = "" then .error .valueError
  else if ¬ fsExists fs steamapps_path then .error .ioError
  else if appid = "" then .error .valueError
  else
    let amPath := pathJoin steamapps_path ("appmanifest_" ++ appid ++ ".acf")
    if ¬ fsExists fs amPath then .ok none
    else (appManifestInit fs amPath).map some

/-! ## `SteamWatchHandler` -/

/-- Result of `SteamWatchHandler.process_event(event_type, path)`: `some`
carries the arguments passed to the caller-supplied callback, `none` means
the event was discarded without invoking it. -/
def processEvent (event_type : String) (path : String) : Option (String × String) :=
  if (cs ".acf").isSuffixOf path.toList then some (event_type, path) else none

/-- `process_IN_MODIFY`. -/
def processInModify (path : String) : Option (String × String) :=
  processEvent "MODIFY" path

/-- `process_IN_CREATE`. -/
def processInCreate (path : String) : Option (String × String) :=
  processEvent "CREATE" path

/-- `process_IN_DELETE`. -/
def processInDelete (path : String) : Option (String × String) :=
  processEvent "DELETE" path

/-! ## Python `str` of a nonnegative int -/

/-- Fueled worker for `natRepr`; `n + 1` is always enough fuel. -/
def natReprAux : Nat → Nat → List Char
  | 0, _ => []
  | fuel + 1, n =>
      if n < 10 then [Char.ofNat (48 + n)]
      else natReprAux fuel (n / 10) ++ [Char.ofNat (48 + n % 10)]

/-- Decimal digits of `n`, most significant first: Python `str(n)` for a
nonnegative integer. -/
def natRepr (n : Nat) : List Char := natReprAux (n + 1) n

/-- Python `str(n)` as a `String`. -/
def natReprStr (n : Nat) : String := String.mk (natRepr n)

/-! ## The catalog and the synchronisation pass

The catalog store `pga`, the configuration-id helper and `slugify` are not
part of the repository sources; they are modelled from the specification
(§3 CatalogEntry, §6 Catalog/Configuration-store interfaces) and carry
`Modelled from the spec:` doc comments. -/

/-- One catalog row (spec §3 `CatalogEntry`: `id`, `steamId`, `name`, `slug`,
`runner`, `installed`, `configPath`). -/
structure Game where
  id : Nat
  name : String
  slug : String
  runner : String
  steamid : Option Nat
  installed : Bool
  configpath : String
deriving DecidableEq, Repr

/-- The catalog: a list of rows in storage order. -/
abbrev Catalog := List Game

/-- Platform partition of the library roots. -/
inductive Platform where
  | linux : Platform
  | windows : Platform
deriving DecidableEq, Repr

/-- One steamapps library root: its path and the filenames in it
(`os.listdir`). -/
structure SteamRoot where
  path : String
  files : List String
deriving DecidableEq, Repr

/-- The filesystem as the sync pass sees it: the linux and windows library
roots (what `get_steamapps_paths()` resolves, in that iteration order) and
the file contents; a file mapped to `.error` exists but raises on `open`. -/
structure SteamFS where
  linuxRoots : List SteamRoot
  windowsRoots : List SteamRoot
  contents : List (String × Except Unit (List Char))
deriving Repr

/-- The regex `^appmanifest_\d+.acf$` of `get_appmanifests` (note the
unescaped dot: any single character other than a newline may stand between
the digit run and `acf`).  With backtracking the pattern matches exactly the
strings `appmanifest_` ++ digits ++ one non-newline character ++ `acf` with
at least one digit. -/
def matchesAppmanifestRe (f : String) : Bool :=
  let l := f.toList
  (cs "appmanifest_").isPrefixOf l &&
    (let r := l.drop 12
     decide (5 ≤ r.length) && (r.take (r.length - 4)).all Char.isDigit
       && decide (r.getD (r.length - 4) ' ' ≠ '\n')
       && decide (r.drop (r.length - 3) = cs "acf"))

/-- The id a filename yields: `re.findall(r'(\d+)', f)[0]`, the first maximal
digit run, as a string. -/
def sidOfFile (f : String) : String := String.mk (firstDigitRun f.toList)

/-- One manifest-file occurrence during root enumeration. -/
structure Ev where
  platform : Platform
  rootPath : String
  file : String
deriving DecidableEq, Repr

/-- The id string of an event's filename. -/
def sidOf (e : Ev) : String := sidOfFile e.file

/-- The numeric id of an event's filename (`int` of the digit run). -/
def numOf (e : Ev) : Nat := digitsToNat (firstDigitRun e.file.toList)

/-- Manifest files of one root, in listing order. -/
def rootEvents (p : Platform) (r : SteamRoot) : List Ev :=
  (r.files.filter matchesAppmanifestRe).map (fun f => ⟨p, r.path, f⟩)

/-- All manifest-file occurrences of a pass: linux roots first, then windows
roots, mirroring the insertion order of `get_steamapps_paths()`'s dict. -/
def eventsOf (fs : SteamFS) : List Ev :=
  (fs.linuxRoots.map (rootEvents Platform.linux)).flatten
    ++ (fs.windowsRoots.map (rootEvents Platform.windows)).flatten

/-- Modelled from the spec: `pga.get_steam_games()` — fetch all catalog
entries whose source is Steam, i.e. the entries carrying a Steam id. -/
def steamGames (cat : Catalog) : Catalog :=
  cat.filter (fun g => g.steamid.isSome)

/-- The id strings of a snapshot
(`set(str(game['steamid']) for game in steam_games)`). -/
def idsOf (snapshot : Catalog) : List String :=
  snapshot.filterMap (fun g => g.steamid.map natReprStr)

/-- Modelled from the spec: `make_game_config_id(slug)` is the configuration
store's `getOrCreateConfigId(slug)` — a configuration id derived from the
slug, the same id being reused whenever one for that slug already exists
(hence a pure function of the slug). -/
def make_game_config_id (slug : String) : String := slug ++ "-config"

/-- Largest row id plus one: the id the store gives a newly created row. -/
def freshId (cat : Catalog) : Nat :=
  (cat.map Game.id).foldr max 0 + 1

/-- Worker of `upsertInstalled`: update the first row with the given Steam
id in place, or append `newRow`. -/
def upsertGo (n : Nat) (name slug runner configpath : String) (newRow : Game) :
    Catalog → Catalog
  | [] => [newRow]
  | g :: rest =>
      if g.steamid = some n then
        { g with name := name, slug := slug, runner := runner,
                 steamid := some n, installed := true, configpath := configpath } :: rest
      else g :: upsertGo n name slug runner configpath newRow rest

/-- Modelled from the spec: the catalog's `upsert` for `mark_as_installed`'s
id-less call — fetch the existing entry for this Steam id
(`findBySteamId`) and write the fields back, or create a fresh row
(§5: request-and-verify upsert; §4.4 step 3: an upsert, not a
duplicate-create). -/
def upsertInstalled (cat : Catalog) (n : Nat) (name slug runner configpath : String) :
    Catalog :=
  upsertGo n name slug runner configpath
    ⟨freshId cat, name, slug, runner, some n, true, configpath⟩ cat

/-- The `game_info` dict `mark_as_installed` receives: either the two-key
dict `{'name': ..., 'slug': ...}` built for a new install (no
`config_path` key) or a full catalog row, whose keys are the storage
columns, among which `config_path` does not occur either — so
`game_info.get('config_path')` is absent in both shapes reaching the sync
pass. -/
structure GameInfo where
  name : String
  slug : String
  config_path : Option String
deriving DecidableEq, Repr

/-- `mark_as_installed(steamid, runner_name, game_info)`: assert the name and
slug are truthy (`AssertionError` otherwise, before any catalog mutation),
derive the configuration id, and upsert the row as installed.  The catalog
write of the paired `LutrisConfig` save touches only the configuration
store, not the catalog, and is not modelled. -/
def mark_as_installed (cat : Catalog) (sid : List Char) (runner_name : String)
    (game_info : GameInfo) : Except PyErr Catalog :=
  if game_info.name = "" ∨ game_info.slug = "" then .error .assertionError
  else
    let config_id := game_info.config_path.getD (make_game_config_id game_info.slug)
    .ok (upsertInstalled cat (digitsToNat sid) game_info.name game_info.slug
          runner_name config_id)

/-- Update the first row with the given row id to `runner := ""`,
`installed := false`; create such a row when the id is absent (spec §5:
fetch existing entry by id — or create if absent — then write back; the
absent case is unreachable from the pass, which only passes snapshot row
ids). -/
def updateUninstalledById : Catalog → Nat → Catalog
  | [], gid => [⟨gid, "", "", "", none, false, ""⟩]
  | g :: rest, gid =>
      if g.id = gid then { g with runner := "", installed := false } :: rest
      else g :: updateUninstalledById rest gid

/-- `mark_as_uninstalled(game_info)`: upsert by the row's id with
`runner=''` and `installed=0` (the `id`/`name` key asserts hold structurally
for a catalog row). -/
def mark_as_uninstalled (cat : Catalog) (game : Game) : Catalog :=
  updateUninstalledById cat game.id

/-- `AppManifest(path)` as the sync pass constructs it inside its
`try`/`except`: `.error` when construction raises (no digit run in the
filename, or the file exists but `open` fails) — caught by the pass;
`.ok none` when the listed file no longer exists, so the backing-data
attribute is never assigned; `.ok (some d)` with the parsed data
otherwise. -/
def readManifestForSync (fs : SteamFS) (rootPath file : String) :
    Except Unit (Option Vdf) :=
  let p := pathJoin rootPath file
  if firstDigitRun (pySplitPath p).2.toList = [] then .error ()
  else
    match fs.contents.lookup p with
    | some (.ok content) => .ok (some (vdf_parse (linesOf content) Vdf.nil))
    | some (.error _) => .error ()
    | none => .ok none

/-- `AppManifest.get_runner_name()`: resolve the platform of the manifest's
directory against the freshly resolved root lists; a directory in neither
list raises `ValueError` (uncaught in the pass). -/
def getRunnerName (fs : SteamFS) (manifestPath : String) : Except PyErr String :=
  let dir := (pySplitPath manifestPath).1
  if (fs.linuxRoots.map SteamRoot.path).contains dir then .ok "steam"
  else if (fs.windowsRoots.map SteamRoot.path).contains dir then .ok "winesteam"
  else .error .valueError

/-- Build the `game_info` dict of the new-install branch:
`{'name': appmanifest.name, 'slug': appmanifest.slug}`.  The slug
computation applies `slugify` to the name; per the spec `slugify` is defined
on name strings, so an absent or non-string name is modelled as a
`TypeError` at that point. -/
def newGameInfo (data : Option Vdf) : Except PyErr GameInfo :=
  nameExc data >>= fun nm =>
    match nm with
    | some (Sum.inl s) => .ok ⟨String.mk s, String.mk (slugify s), none⟩
    | _ => .error .typeError

/-- Insert a string into a membership set modelled as a list. -/
def insertStr (s : String) (l : List String) : List String :=
  if l.contains s then l else l ++ [s]

/-- The mutable state of one pass: the live catalog, the seen-id set, and
the number of catalog writes so far that changed the stored state. -/
structure SyncSt where
  cat : Catalog
  seen : List String
  muts : Nat
deriving Repr

/-- Count a write: one more mutation when the written catalog differs from
the previous one. -/
def countWrite (cat cat' : Catalog) (muts : Nat) : Nat :=
  if cat' = cat then muts else muts + 1

/-- Catalog-and-mutation-count effect of `sync_with_lutris`'s manifest loop
body for one file.  `snapshot` and `ids` are the pass-initial
`steam_games_in_lutris` and `steamids_in_lutris`. -/
def stepFileCat (fs : SteamFS) (snapshot : Catalog) (ids : List String)
    (cat : Catalog) (muts : Nat) (e : Ev) : Except PyErr (Catalog × Nat) :=
  if ¬ ids.contains (sidOf e) ∧ e.platform = Platform.linux then
    match readManifestForSync fs e.rootPath e.file with
    | .error _ => .ok (cat, muts)
    | .ok data =>
        isInstalledExc data >>= fun inst =>
        if inst then
          newGameInfo data >>= fun info =>
          mark_as_installed cat (firstDigitRun e.file.toList) "steam" info >>= fun cat' =>
          .ok (cat', countWrite cat cat' muts)
        else .ok (cat, muts)
  else
    match snapshot.find? (fun g => (g.steamid.map natReprStr = some (sidOf e)) && !g.installed) with
    | none => .ok (cat, muts)
    | some g =>
        match readManifestForSync fs e.rootPath e.file with
        | .error _ => .ok (cat, muts)
        | .ok data =>
            isInstalledExc data >>= fun inst =>
            if inst then
              getRunnerName fs (pathJoin e.rootPath e.file) >>= fun runner =>
              mark_as_installed cat (firstDigitRun e.file.toList) runner
                  ⟨g.name, g.slug, none⟩ >>= fun cat' =>
              .ok (cat', countWrite cat cat' muts)
            else .ok (cat, muts)

/-- The body of `sync_with_lutris`'s manifest loop for one file: the id from
the filename joins the seen set, and the catalog effect is
`stepFileCat` (the loop body never reads the seen set). -/
def stepFile (fs : SteamFS) (snapshot : Catalog) (ids : List String)
    (st : SyncSt) (e : Ev) : Except PyErr SyncSt :=
  stepFileCat fs snapshot ids st.cat st.muts e >>= fun cm =>
  .ok ⟨cm.1, insertStr (sidOf e) st.seen, cm.2⟩

/-- Run `stepFile` over the enumerated manifest files; an uncaught exception
aborts the whole pass. -/
def foldSteps (fs : SteamFS) (snapshot : Catalog) (ids : List String) :
    SyncSt → List Ev → Except PyErr SyncSt
  | st, [] => .ok st
  | st, e :: evs =>
      stepFile fs snapshot ids st e >>= fun st' => foldSteps fs snapshot ids st' evs

/-- Keep the first occurrence of each string: a deterministic stand-in for
Python's set iteration order over `unavailable_ids` (the final catalog state
does not depend on the order — distinct ids mark disjoint rows). -/
def dedupFirstAux (acc : List String) : List String → List String
  | [] => []
  | x :: rest =>
      if acc.contains x then dedupFirstAux acc rest
      else x :: dedupFirstAux (x :: acc) rest

/-- First-occurrence deduplication. -/
def dedupFirst (l : List String) : List String := dedupFirstAux [] l

/-- Inner loop of the uninstall-detection step for one unavailable id: walk
the snapshot and mark every matching row that was installed under a
Steam-family runner. -/
def step4ForId (snapshot : Catalog) (uid : String) (acc : Catalog × Nat) :
    Catalog × Nat :=
  snapshot.foldl
    (fun acc g =>
      if (g.steamid.map natReprStr = some uid) && g.installed
          && (g.runner = "steam" || g.runner = "winesteam") then
        let cat' := mark_as_uninstalled acc.1 g
        (cat', countWrite acc.1 cat' acc.2)
      else acc)
    acc

/-- The uninstall-detection step: for every id known to the catalog but seen
in no manifest filename, mark the matching installed Steam-family rows
uninstalled. -/
def step4 (snapshot : Catalog) (ids seen : List String) (cat : Catalog) (muts : Nat) :
    Catalog × Nat :=
  ((dedupFirst ids).filter (fun i => ¬ seen.contains i)).foldl
    (fun acc uid => step4ForId snapshot uid acc) (cat, muts)

/-- `sync_with_lutris()`: snapshot the Steam-sourced catalog rows, walk all
manifest files of all roots, then mark disappeared games uninstalled.
Returns the final catalog and the number of state-changing writes, or the
uncaught exception that aborted the pass. -/
def sync_with_lutris (fs : SteamFS) (cat : Catalog) : Except PyErr (Catalog × Nat) :=
  let snapshot := steamGames cat
  let ids := idsOf snapshot
  foldSteps fs snapshot ids ⟨cat, [], 0⟩ (eventsOf fs) >>= fun st =>
  .ok (step4 snapshot ids st.seen st.cat st.muts)

/-- First row with the given row id. -/
def findById (cat : Catalog) (gid : Nat) : Option Game :=
  cat.find? (fun g => g.id = gid)

/-! ## Concrete sync scenarios -/

/-- Manifest text marked fully installed but lacking the `name` field. -/
def acfNoName : List Char :=
  cs "\"AppState\"\n\x7b\n\t\"StateFlags\"\t\t\"4\"\n\x7d\n"

/-- Well-formed manifest text: fully installed, name `Good Game`. -/
def acfGoodGame : List Char :=
  cs "\"AppState\"\n\x7b\n\t\"name\"\t\t\"Good Game\"\n\t\"StateFlags\"\t\t\"4\"\n\x7d\n"

/-- One linux root holding a field-deficient manifest followed by a
well-formed one. -/
def fsC8 : SteamFS := ⟨[⟨"/L", ["appmanifest_1.acf", "appmanifest_2.acf"]⟩], [],
  [("/L/appmanifest_1.acf", .ok acfNoName), ("/L/appmanifest_2.acf", .ok acfGoodGame)]⟩

/-- The same library with only the well-formed manifest. -/
def fsC8b : SteamFS := ⟨[⟨"/L", ["appmanifest_2.acf"]⟩], [],
  [("/L/appmanifest_2.acf", .ok acfGoodGame)]⟩

/-- One linux root whose single manifest file raises on `open`. -/
def fsC8w : SteamFS := ⟨[⟨"/L", ["appmanifest_9.acf"]⟩], [],
  [("/L/appmanifest_9.acf", .error ())]⟩

/-- A catalog holding one installed Steam row for id 9. -/
def catC8w : Catalog := [⟨1, "G", "g", "steam", some 9, true, "cfg"⟩]

/-- The single manifest event of `fsC8w`. -/
def evC8w : Ev := ⟨Platform.linux, "/L", "appmanifest_9.acf"⟩

/-- One linux root holding a single fully-installed, well-formed manifest
for Steam id 77. -/
def fsC5 : SteamFS := ⟨[⟨"/L", ["appmanifest_77.acf"]⟩], [],
  [("/L/appmanifest_77.acf", .ok acfGoodGame)]⟩

/-- The single manifest event of `fsC5`. -/
def evC5 : Ev := ⟨Platform.linux, "/L", "appmanifest_77.acf"⟩

/-- The state invariant one pass maintains on the live catalog: duplicate-free
Steam ids and row ids, the initial row ids all still present, every surviving
row id still carrying its initial Steam id, every row whose Steam id string
was unknown to the pass-initial snapshot installed, and every freshly created
row carrying a Steam id seen in some enumerated filename.  `cat` is the
pass-initial catalog, `ids1` the snapshot id strings, `sevs` the id strings
of all enumerated manifest filenames. -/
def SyncInv (cat : Catalog) (ids1 sevs : List String) (c : Catalog) : Prop :=
  (c.filterMap Game.steamid).Nodup
  ∧ (c.map Game.id).Nodup
  ∧ (∀ i ∈ cat.map Game.id, i ∈ c.map Game.id)
  ∧ (∀ r ∈ c, ∀ r0 ∈ cat, r.id = r0.id → r.steamid = r0.steamid)
  ∧ (∀ r ∈ c, ∀ m, r.steamid = some m → ids1.contains (natReprStr m) = false →
      r.installed = true)
  ∧ (∀ r ∈ c, r.id ∉ cat.map Game.id →
      ∃ m, r.steamid = some m ∧ sevs.contains (natReprStr m) = true)

/-- One linux root whose manifest carries a leading-zero filename
`appmanifest_007.acf` for Steam id 7. -/
def fsC4 : SteamFS := ⟨[⟨"/L", ["appmanifest_007.acf"]⟩], [],
  [("/L/appmanifest_007.acf", .ok acfGoodGame)]⟩

/-- A catalog holding one installed Steam row for id 7. -/
def catC4 : Catalog := [⟨1, "G", "g", "steam", some 7, true, "cfg"⟩]

/-- The catalog `sync_with_lutris fsC4 catC4` produces. -/
def catC4a : Catalog := [⟨1, "Good Game", "good-game", "", some 7, false, "good-game-config"⟩]

/-- The catalog a second pass over `fsC4` produces from `catC4a`. -/
def catC4b : Catalog := [⟨1, "Good Game", "good-game", "steam", some 7, true, "good-game-config"⟩]

/-! ## Round-trip machinery for the VDF codec

`to_vdf` emits, per entry, the lines below; `dictLines` lists them and
`to_vdf_eq_join` identifies the emitted text with their concatenation. -/

/-- Indentation of a structural line. -/
def tabs (l : Nat) : List Char := List.replicate l '\t'

/-- Serialised scalar entry line. -/
def leafLine (l : Nat) (k v : List Char) : List Char :=
  tabs l ++ '"' :: k ++ '"' :: '\t' :: '\t' :: '"' :: v ++ ['"', '\n']

/-- Serialised nested-entry header line. -/
def headLine (l : Nat) (k : List Char) : List Char :=
  tabs l ++ '"' :: k ++ ['"', '\n']

/-- Serialised opening-brace line. -/
def openLine (l : Nat) : List Char := tabs l ++ ['{', '\n']

/-- Serialised closing-brace line. -/
def closeLine (l : Nat) : List Char := tabs l ++ ['}', '\n']

/-- The lines `to_vdf` emits for a mapping, in order. -/
def dictLines (l : Nat) : Vdf → List (List Char)
  | Vdf.nil => []
  | Vdf.strE k v rest => leafLine l k v :: dictLines l rest
  | Vdf.nodeE k m rest =>
      headLine l k :: openLine l :: (dictLines (l + 1) m ++ closeLine l :: dictLines l rest)

/-- Key and string-value wellformedness for the round-trip: no double quote
and no newline. -/
def noQN (s : List Char) : Bool :=
  s.all (fun c => c ≠ '"' && c ≠ '\n')

/-- A mapping built from the supported construct set with round-trippable
strings: string keys and leaf values free of quotes and newlines, keys unique
at each level (the spec's `VdfNode` invariant). -/
def goodVdf : Vdf → Bool
  | Vdf.nil => true
  | Vdf.strE k v rest => noQN k && noQN v && !keyMem rest k && goodVdf rest
  | Vdf.nodeE k m rest => noQN k && !keyMem rest k && goodVdf m && goodVdf rest

/-- Entry-by-entry assignment of a whole mapping into a config dict, the way
the parser rebuilds it: nested values are themselves rebuilt from scratch. -/
def pushAll : Vdf → Vdf → Vdf
  | c, Vdf.nil => c
  | c, Vdf.strE k v rest => pushAll (dictSet c k (Sum.inl v)) rest
  | c, Vdf.nodeE k m rest => pushAll (dictSet c k (Sum.inr (pushAll Vdf.nil m))) rest

/-- Concatenation of two mappings' entry lists. -/
def vdfAppend : Vdf → Vdf → Vdf
  | Vdf.nil, d => d
  | Vdf.strE k v rest, d => Vdf.strE k v (vdfAppend rest d)
  | Vdf.nodeE k m rest, d => Vdf.nodeE k m (vdfAppend rest d)

/-! ## Derived syntactic forms and invariants used by the proofs -/

/-- Stripped form of a scalar entry line. -/
def leafBody (k v : List Char) : List Char :=
  '"' :: k ++ '"' :: '\t' :: '\t' :: '"' :: v ++ ['"']

/-- Stripped form of a nested-entry header line. -/
def headBody (k : List Char) : List Char :=
  '"' :: k ++ ['"']

/-- Every key of `d` is absent from `c`. -/
def keysFresh (c : Vdf) : Vdf → Bool
  | Vdf.nil => true
  | Vdf.strE k _ rest => !keyMem c k && keysFresh c rest
  | Vdf.nodeE k _ rest => !keyMem c k && keysFresh c rest

/-- The post-state of the disappearance write for one row id: the first row
with that id is stored with no runner and not installed. -/
def Uninst (gid : Nat) (cat : Catalog) : Prop :=
  ∃ r, findById cat gid = some r ∧ r.runner = "" ∧ r.installed = false

/-- A filename of the literal form `appmanifest_<digits>.acf` (at least one
digit, a real dot). -/
def literalManifestName (f : String) : Bool :=
  let l := f.toList
  (cs "appmanifest_").isPrefixOf l &&
    (let r := l.drop 12
     decide (5 ≤ r.length) && (r.take (r.length - 4)).all Char.isDigit
       && decide (r.drop (r.length - 4) = cs ".acf"))

/-- Library root for the C6 counterexample: the single file
`appmanifest_9zacf`, which matches the source's regex (its unescaped dot
accepts the `z`) although it is not of the literal form
`appmanifest_<digits>.acf`. -/
def fsRegexDot : SteamFS := ⟨[⟨"/L", ["appmanifest_9zacf"]⟩], [], []⟩

/-- Catalog for the C6 counterexample: one installed Steam-family entry with
steam id 9. -/
def catRegexDot : Catalog := [⟨1, "G", "g", "steam", some 9, true, "cfg"⟩]

/-- The row stored first under a given row id is installed. -/
def InstalledAt (gid : Nat) (c : Catalog) : Prop :=
  ∃ r, findById c gid = some r ∧ r.installed = true

/-- One serialised key-value line at nesting level 0. -/
def kvLine (p : List Char × List Char) : List Char := leafLine 0 p.1 p.2

/-- The flat mapping holding the listed key-value pairs in order. -/
def flatVdf : List (List Char × List Char) → Vdf
  | [] => Vdf.nil
  | p :: r => Vdf.strE p.1 p.2 (flatVdf r)

/-- A malformed line for the parser's tolerance path: a real line (not the
empty end-of-stream read), not a closing brace, and with a quote-split of at
most two segments, so it matches neither the nested-start shape (3 segments)
nor the key-value shape (at least 4 segments); the source's subscript
`line_elements[3]` raises `IndexError`, which is caught, logged and
ignored. -/
def badLine (b : List Char) : Prop :=
  b ≠ [] ∧ pyStrip b ≠ ['}'] ∧ (pySplitChar '"' (pyStrip b)).length ≤ 2

theorem to_vdf_eq_join (l : Nat) (d : Vdf) : to_vdf l d = (dictLines l d).flatten := by
  induction d generalizing l with
  | nil => rfl
  | strE k v rest ih =>
      simp [to_vdf, dictLines, leafLine, tabs, ih]
  | nodeE k m rest ihm ihr =>
      simp [to_vdf, dictLines, headLine, openLine, closeLine, tabs, ihm, ihr]

theorem pySplitChar_of_not_mem {sep : Char} {s : List Char} (h : sep ∉ s) :
    pySplitChar sep s = [s] := by
  induction s with
  | nil => rfl
  | cons c rest ih =>
      have hc : c ≠ sep := fun hcs => h (hcs ▸ List.mem_cons_self c rest)
      have hrest : sep ∉ rest := fun hm => h (List.mem_cons_of_mem c hm)
      simp [pySplitChar, hc, ih hrest]

theorem pySplitChar_append_sep {sep : Char} {a b : List Char} (h : sep ∉ a) :
    pySplitChar sep (a ++ sep :: b) = a :: pySplitChar sep b := by
  induction a with
  | nil => simp [pySplitChar]
  | cons c rest ih =>
      have hc : c ≠ sep := fun hcs => h (hcs ▸ List.mem_cons_self c rest)
      have hrest : sep ∉ rest := fun hm => h (List.mem_cons_of_mem c hm)
      simp only [List.cons_append, pySplitChar, if_neg hc, List.append_eq, ih hrest]

theorem dropWhile_replicate {p : Char → Bool} {c : Char} (hp : p c = true)
    (l : Nat) (s : List Char) :
    (List.replicate l c ++ s).dropWhile p = s.dropWhile p := by
  induction l with
  | zero => rfl
  | succ n ih => simp [List.replicate_succ, List.dropWhile_cons, hp, ih]

theorem dropTrailWhile_append_last (p : Char → Bool) (l : List Char) (c : Char) :
    dropTrailWhile p (l ++ [c]) = if p c then dropTrailWhile p l else l ++ [c] := by
  induction l with
  | nil => cases hp : p c <;> simp [dropTrailWhile, hp]
  | cons x rest ih =>
      cases hp : p c
      · rw [if_neg (by simp [hp])] at ih ⊢
        simp only [List.cons_append, dropTrailWhile, List.append_eq, ih]
        cases rest <;> rfl
      · rw [if_pos (by simp [hp])] at ih ⊢
        simp only [List.cons_append, dropTrailWhile, List.append_eq, ih]

theorem noQN_quote {s : List Char} (h : noQN s = true) : '"' ∉ s := by
  intro hm
  simp only [noQN, List.all_eq_true] at h
  have := h _ hm
  simp at this

theorem noQN_newline {s : List Char} (h : noQN s = true) : '\n' ∉ s := by
  intro hm
  simp only [noQN, List.all_eq_true] at h
  have := h _ hm
  simp at this

theorem dropWhile_quote (mid : List Char) :
    ('"' :: mid).dropWhile isPySpace = '"' :: mid := by
  rw [List.dropWhile_cons, if_neg (by decide)]

theorem dropTrail_quote_nl (a : List Char) :
    dropTrailWhile isPySpace ((a ++ ['"']) ++ ['\n']) = a ++ ['"'] := by
  rw [dropTrailWhile_append_last, if_pos (by decide), dropTrailWhile_append_last,
    if_neg (by decide)]

theorem pyStrip_quote_body (l : Nat) (mid : List Char) :
    pyStrip (tabs l ++ (('"' :: mid) ++ ['"']) ++ ['\n']) = ('"' :: mid) ++ ['"'] := by
  unfold pyStrip tabs
  rw [List.append_assoc, dropWhile_replicate (by decide)]
  rw [show ((('"' :: mid) ++ ['"']) ++ ['\n']).dropWhile isPySpace
      = (('"' :: mid) ++ ['"']) ++ ['\n'] from dropWhile_quote _]
  exact dropTrail_quote_nl _

theorem pyStrip_leafLine (l : Nat) (k v : List Char) :
    pyStrip (leafLine l k v) = leafBody k v := by
  have hshape : leafLine l k v
      = tabs l ++ (('"' :: (k ++ '"' :: '\t' :: '\t' :: '"' :: v)) ++ ['"']) ++ ['\n'] := by
    simp [leafLine, tabs]
  have hbody : leafBody k v = ('"' :: (k ++ '"' :: '\t' :: '\t' :: '"' :: v)) ++ ['"'] := by
    simp [leafBody]
  rw [hshape, hbody, pyStrip_quote_body]

theorem pyStrip_headLine (l : Nat) (k : List Char) :
    pyStrip (headLine l k) = headBody k := by
  have hshape : headLine l k = tabs l ++ (('"' :: k) ++ ['"']) ++ ['\n'] := by
    simp [headLine, tabs]
  have hbody : headBody k = ('"' :: k) ++ ['"'] := by simp [headBody]
  rw [hshape, hbody, pyStrip_quote_body]

theorem pyStrip_closeLine (l : Nat) :
    pyStrip (closeLine l) = ['}'] := by
  unfold pyStrip closeLine tabs
  rw [dropWhile_replicate (by decide)]
  rw [show (['}', '\n'] : List Char).dropWhile isPySpace = ['}', '\n'] from by
    rw [List.dropWhile_cons, if_neg (by decide)]]
  rfl

theorem split_headBody {k : List Char} (hk : '"' ∉ k) :
    pySplitChar '"' (headBody k) = [[], k, []] := by
  have h1 : headBody k = ([] : List Char) ++ '"' :: (k ++ '"' :: []) := by simp [headBody]
  rw [h1, pySplitChar_append_sep (by simp), pySplitChar_append_sep hk]
  rfl

theorem split_leafBody {k v : List Char} (hk : '"' ∉ k) (hv : '"' ∉ v) :
    pySplitChar '"' (leafBody k v) = [[], k, ['\t', '\t'], v, []] := by
  have h1 : leafBody k v
      = ([] : List Char) ++ '"' :: (k ++ '"' :: (['\t', '\t'] ++ '"' :: (v ++ '"' :: []))) := by
    simp [leafBody]
  rw [h1, pySplitChar_append_sep (by simp), pySplitChar_append_sep hk,
    pySplitChar_append_sep (by decide), pySplitChar_append_sep hv]
  rfl

theorem linesOf_append_newline {init : List Char} (h : '\n' ∉ init) (s : List Char) :
    linesOf ((init ++ ['\n']) ++ s) = (init ++ ['\n']) :: linesOf s := by
  induction init with
  | nil => simp [linesOf]
  | cons c rest ih =>
      have hc : ¬ (c = '\n') := fun hcs => h (hcs ▸ List.mem_cons_self c rest)
      have h' : '\n' ∉ rest := fun hm => h (List.mem_cons_of_mem c hm)
      simp only [List.cons_append, linesOf, if_neg hc, List.append_eq, ih h']

theorem linesOf_leafLine {k v : List Char} (hk : '\n' ∉ k) (hv : '\n' ∉ v)
    (l : Nat) (s : List Char) :
    linesOf (leafLine l k v ++ s) = leafLine l k v :: linesOf s := by
  have hshape : leafLine l k v
      = (tabs l ++ '"' :: k ++ '"' :: '\t' :: '\t' :: '"' :: v ++ ['"']) ++ ['\n'] := by
    simp [leafLine]
  have hnn : '\n' ∉ tabs l ++ '"' :: k ++ '"' :: '\t' :: '\t' :: '"' :: v ++ ['"'] := by
    simp [tabs, List.mem_replicate, hk, hv]
  rw [hshape, linesOf_append_newline hnn]

theorem linesOf_headLine {k : List Char} (hk : '\n' ∉ k) (l : Nat) (s : List Char) :
    linesOf (headLine l k ++ s) = headLine l k :: linesOf s := by
  have hshape : headLine l k = (tabs l ++ '"' :: k ++ ['"']) ++ ['\n'] := by
    simp [headLine]
  have hnn : '\n' ∉ tabs l ++ '"' :: k ++ ['"'] := by
    simp [tabs, List.mem_replicate, hk]
  rw [hshape, linesOf_append_newline hnn]

theorem linesOf_openLine (l : Nat) (s : List Char) :
    linesOf (openLine l ++ s) = openLine l :: linesOf s := by
  have hshape : openLine l = (tabs l ++ ['{']) ++ ['\n'] := by simp [openLine]
  have hnn : '\n' ∉ tabs l ++ ['{'] := by simp [tabs, List.mem_replicate]
  rw [hshape, linesOf_append_newline hnn]

theorem linesOf_closeLine (l : Nat) (s : List Char) :
    linesOf (closeLine l ++ s) = closeLine l :: linesOf s := by
  have hshape : closeLine l = (tabs l ++ ['}']) ++ ['\n'] := by simp [closeLine]
  have hnn : '\n' ∉ tabs l ++ ['}'] := by simp [tabs, List.mem_replicate]
  rw [hshape, linesOf_append_newline hnn]

theorem goodVdf_strE {k v : List Char} {rest : Vdf} (h : goodVdf (Vdf.strE k v rest) = true) :
    noQN k = true ∧ noQN v = true ∧ keyMem rest k = false ∧ goodVdf rest = true := by
  simp only [goodVdf, Bool.and_eq_true, Bool.not_eq_true'] at h
  exact ⟨h.1.1.1, h.1.1.2, h.1.2, h.2⟩

theorem goodVdf_nodeE {k : List Char} {m rest : Vdf} (h : goodVdf (Vdf.nodeE k m rest) = true) :
    noQN k = true ∧ keyMem rest k = false ∧ goodVdf m = true ∧ goodVdf rest = true := by
  simp only [goodVdf, Bool.and_eq_true, Bool.not_eq_true'] at h
  exact ⟨h.1.1.1, h.1.1.2, h.1.2, h.2⟩

theorem linesOf_flatten_dictLines (d : Vdf) :
    ∀ (l : Nat) (s : List Char), goodVdf d = true →
    linesOf ((dictLines l d).flatten ++ s) = dictLines l d ++ linesOf s := by
  induction d with
  | nil => intro l s _; simp [dictLines]
  | strE k v rest ih =>
      intro l s hg
      obtain ⟨h1, h2, _, h4⟩ := goodVdf_strE hg
      simp only [dictLines, List.flatten_cons, List.append_assoc]
      rw [linesOf_leafLine (noQN_newline h1) (noQN_newline h2), ih _ _ h4]
      simp
  | nodeE k m rest ihm ihr =>
      intro l s hg
      obtain ⟨h1, _, h3, h4⟩ := goodVdf_nodeE hg
      simp only [dictLines, List.flatten_cons, List.flatten_append, List.append_assoc]
      rw [linesOf_headLine (noQN_newline h1), linesOf_openLine]
      rw [ihm _ _ h3, linesOf_closeLine, ihr _ _ h4]
      simp

theorem vdfParseF_rest_le :
    ∀ (fuel : Nat) (lines : List (List Char)) (c : Vdf),
    (vdfParseF fuel lines c).2.length ≤ lines.length := by
  intro fuel
  induction fuel with
  | zero => intro lines c; simp [vdfParseF]
  | succ f ih =>
      intro lines c
      cases lines with
      | nil => simp [vdfParseF]
      | cons line rest =>
          simp only [vdfParseF]
          split
          · simp
          · split
            · calc (vdfParseF f (vdfParseF f (rest.drop 1) Vdf.nil).2 _).2.length
                  ≤ (vdfParseF f (rest.drop 1) Vdf.nil).2.length := ih _ _
                _ ≤ (rest.drop 1).length := ih _ _
                _ ≤ (line :: rest).length := by simp; omega
            · split
              · exact le_trans (ih _ _) (by simp)
              · exact le_trans (ih _ _) (by simp)

theorem vdfParseF_mono :
    ∀ (n : Nat) (lines : List (List Char)), lines.length ≤ n →
    ∀ (f1 f2 : Nat) (c : Vdf), lines.length < f1 → lines.length < f2 →
    vdfParseF f1 lines c = vdfParseF f2 lines c := by
  intro n
  induction n with
  | zero =>
      intro lines hlen f1 f2 c h1 h2
      have hnil : lines = [] := List.eq_nil_of_length_eq_zero (Nat.le_zero.mp hlen)
      subst hnil
      obtain ⟨a, rfl⟩ : ∃ a, f1 = a + 1 := ⟨f1 - 1, by omega⟩
      obtain ⟨b, rfl⟩ : ∃ b, f2 = b + 1 := ⟨f2 - 1, by omega⟩
      rfl
  | succ n ih =>
      intro lines hlen f1 f2 c h1 h2
      obtain ⟨a, rfl⟩ : ∃ a, f1 = a + 1 := ⟨f1 - 1, by omega⟩
      obtain ⟨b, rfl⟩ : ∃ b, f2 = b + 1 := ⟨f2 - 1, by omega⟩
      cases lines with
      | nil => rfl
      | cons line rest =>
          have hrest : rest.length ≤ n := by simp at hlen; omega
          have hra : rest.length < a := by simp at h1; omega
          have hrb : rest.length < b := by simp at h2; omega
          have hdrop : (rest.drop 1).length ≤ n := by
            simp only [List.length_drop]; omega
          have hdra : (rest.drop 1).length < a := by
            simp only [List.length_drop]; omega
          have hdrb : (rest.drop 1).length < b := by
            simp only [List.length_drop]; omega
          simp only [vdfParseF]
          split
          · rfl
          · split
            · have e1 : vdfParseF a (rest.drop 1) Vdf.nil = vdfParseF b (rest.drop 1) Vdf.nil :=
                ih _ hdrop _ _ _ hdra hdrb
              rw [e1]
              have hp2 : (vdfParseF b (rest.drop 1) Vdf.nil).2.length ≤ (rest.drop 1).length :=
                vdfParseF_rest_le _ _ _
              exact ih _ (le_trans hp2 hdrop) _ _ _
                (lt_of_le_of_lt hp2 hdra) (lt_of_le_of_lt hp2 hdrb)
            · split
              · exact ih _ hrest _ _ _ hra hrb
              · exact ih _ hrest _ _ _ hra hrb

theorem leafLine_ne_nil (l : Nat) (k v : List Char) : leafLine l k v ≠ [] := by
  simp [leafLine, tabs]

theorem headLine_ne_nil (l : Nat) (k : List Char) : headLine l k ≠ [] := by
  simp [headLine, tabs]

theorem vdfParseF_dictLines (d : Vdf) :
    ∀ (l : Nat) (c : Vdf) (t : List (List Char)) (fuel g : Nat),
    goodVdf d = true →
    (dictLines l d).length + t.length < fuel → t.length < g →
    vdfParseF fuel (dictLines l d ++ t) c = vdfParseF g t (pushAll c d) := by
  induction d with
  | nil =>
      intro l c t fuel g _ hf hgt
      simp only [dictLines, List.nil_append, pushAll]
      exact vdfParseF_mono t.length t le_rfl fuel g c (by simp [dictLines] at hf; omega) hgt
  | strE k v rest ih =>
      intro l c t fuel g hg hf hgt
      obtain ⟨h1, h2, _, h4⟩ := goodVdf_strE hg
      obtain ⟨f, rfl⟩ : ∃ f, fuel = f + 1 := ⟨fuel - 1, by omega⟩
      simp only [dictLines, List.cons_append, vdfParseF]
      rw [pyStrip_leafLine, split_leafBody (noQN_quote h1) (noQN_quote h2)]
      rw [if_neg ?hc1, if_neg (by simp), if_pos (by simp)]
      case hc1 =>
        rintro (h | h)
        · exact leafLine_ne_nil l k v h
        · simp [leafBody] at h
      show vdfParseF f (dictLines l rest ++ t) (dictSet c k (Sum.inl v))
          = vdfParseF g t (pushAll c (Vdf.strE k v rest))
      rw [show pushAll c (Vdf.strE k v rest) = pushAll (dictSet c k (Sum.inl v)) rest from rfl]
      exact ih l _ t f g h4 (by simp [dictLines] at hf ⊢; omega) hgt
  | nodeE k m rest ihm ihr =>
      intro l c t fuel g hg hf hgt
      obtain ⟨h1, _, h3, h4⟩ := goodVdf_nodeE hg
      obtain ⟨f, rfl⟩ : ∃ f, fuel = f + 1 := ⟨fuel - 1, by omega⟩
      simp only [dictLines, List.length_cons, List.length_append] at hf
      simp only [dictLines, List.cons_append, vdfParseF]
      rw [pyStrip_headLine, split_headBody (noQN_quote h1)]
      rw [if_neg ?hc2, if_pos (by simp)]
      case hc2 =>
        rintro (h | h)
        · exact headLine_ne_nil l k h
        · simp [headBody] at h
      simp only [List.append_eq, List.getD_cons_succ, List.getD_cons_zero,
        List.drop_succ_cons, List.drop_zero, List.cons_append, List.append_assoc]
      have e1 : vdfParseF f (dictLines (l + 1) m ++ (closeLine l :: (dictLines l rest ++ t)))
            Vdf.nil
          = vdfParseF ((dictLines l rest ++ t).length + 1 + 1)
              (closeLine l :: (dictLines l rest ++ t)) (pushAll Vdf.nil m) :=
        ihm (l + 1) Vdf.nil _ f _ h3
          (by simp only [List.length_cons, List.length_append]; omega)
          (by simp only [List.length_cons]; omega)
      have e2 : vdfParseF ((dictLines l rest ++ t).length + 1 + 1)
            (closeLine l :: (dictLines l rest ++ t)) (pushAll Vdf.nil m)
          = (pushAll Vdf.nil m, dictLines l rest ++ t) := by
        simp only [vdfParseF]
        rw [if_pos (Or.inr (pyStrip_closeLine l))]
      rw [e1, e2]
      show vdfParseF f (dictLines l rest ++ t) (dictSet c k (Sum.inr (pushAll Vdf.nil m)))
          = vdfParseF g t (pushAll c (Vdf.nodeE k m rest))
      rw [show pushAll c (Vdf.nodeE k m rest)
          = pushAll (dictSet c k (Sum.inr (pushAll Vdf.nil m))) rest from rfl]
      exact ihr l _ t f g h4 (by omega) hgt

theorem vdfAppend_nil (c : Vdf) : vdfAppend c Vdf.nil = c := by
  induction c with
  | nil => rfl
  | strE k v rest ih => simp [vdfAppend, ih]
  | nodeE k m rest ihm ihr => simp [vdfAppend, ihr]

theorem vdfAppend_assoc (a b c : Vdf) :
    vdfAppend (vdfAppend a b) c = vdfAppend a (vdfAppend b c) := by
  induction a with
  | nil => rfl
  | strE k v rest ih => simp [vdfAppend, ih]
  | nodeE k m rest ihm ihr => simp [vdfAppend, ihr]

theorem keyMem_vdfAppend (a b : Vdf) (k : List Char) :
    keyMem (vdfAppend a b) k = (keyMem a k || keyMem b k) := by
  induction a with
  | nil => simp [vdfAppend, keyMem, dictGet]
  | strE k' v rest ih =>
      by_cases h : k' = k
      · simp [vdfAppend, keyMem, dictGet, h]
      · simp only [vdfAppend, keyMem, dictGet, if_neg h]
        exact ih
  | nodeE k' m rest ihm ihr =>
      by_cases h : k' = k
      · simp [vdfAppend, keyMem, dictGet, h]
      · simp only [vdfAppend, keyMem, dictGet, if_neg h]
        exact ihr

theorem keyMem_strE_false {k' k : List Char} {v : List Char} {r : Vdf}
    (h : keyMem (Vdf.strE k' v r) k = false) : k' ≠ k ∧ keyMem r k = false := by
  by_cases hk : k' = k
  · simp [keyMem, dictGet, hk] at h
  · simp only [keyMem, dictGet, if_neg hk] at h
    exact ⟨hk, h⟩

theorem keyMem_nodeE_false {k' k : List Char} {m r : Vdf}
    (h : keyMem (Vdf.nodeE k' m r) k = false) : k' ≠ k ∧ keyMem r k = false := by
  by_cases hk : k' = k
  · simp [keyMem, dictGet, hk] at h
  · simp only [keyMem, dictGet, if_neg hk] at h
    exact ⟨hk, h⟩

theorem dictSet_str_fresh {c : Vdf} {k : List Char} (h : keyMem c k = false) (s : List Char) :
    dictSet c k (Sum.inl s) = vdfAppend c (Vdf.strE k s Vdf.nil) := by
  induction c with
  | nil => rfl
  | strE k' v rest ih =>
      obtain ⟨hne, hr⟩ := keyMem_strE_false h
      simp [dictSet, vdfAppend, if_neg hne, ih hr]
  | nodeE k' m rest ihm ihr =>
      obtain ⟨hne, hr⟩ := keyMem_nodeE_false h
      simp [dictSet, vdfAppend, if_neg hne, ihr hr]

theorem dictSet_node_fresh {c : Vdf} {k : List Char} (h : keyMem c k = false) (m : Vdf) :
    dictSet c k (Sum.inr m) = vdfAppend c (Vdf.nodeE k m Vdf.nil) := by
  induction c with
  | nil => rfl
  | strE k' v rest ih =>
      obtain ⟨hne, hr⟩ := keyMem_strE_false h
      simp [dictSet, vdfAppend, if_neg hne, ih hr]
  | nodeE k' m' rest ihm ihr =>
      obtain ⟨hne, hr⟩ := keyMem_nodeE_false h
      simp [dictSet, vdfAppend, if_neg hne, ihr hr]

theorem keysFresh_nil (d : Vdf) : keysFresh Vdf.nil d = true := by
  induction d with
  | nil => rfl
  | strE k v rest ih => simp [keysFresh, keyMem, dictGet, ih]
  | nodeE k m rest ihm ihr => simp [keysFresh, keyMem, dictGet, ihr]

theorem keysFresh_vdfAppend {a b d : Vdf} (ha : keysFresh a d = true)
    (hb : keysFresh b d = true) : keysFresh (vdfAppend a b) d = true := by
  induction d with
  | nil => rfl
  | strE k v rest ih =>
      simp only [keysFresh, Bool.and_eq_true, Bool.not_eq_true'] at ha hb ⊢
      exact ⟨by rw [keyMem_vdfAppend, ha.1, hb.1]; rfl, ih ha.2 hb.2⟩
  | nodeE k m rest ihm ihr =>
      simp only [keysFresh, Bool.and_eq_true, Bool.not_eq_true'] at ha hb ⊢
      exact ⟨by rw [keyMem_vdfAppend, ha.1, hb.1]; rfl, ihr ha.2 hb.2⟩

theorem keysFresh_single_str {k : List Char} {d : Vdf} (h : keyMem d k = false)
    (v : List Char) : keysFresh (Vdf.strE k v Vdf.nil) d = true := by
  induction d with
  | nil => rfl
  | strE k2 v2 rest ih =>
      obtain ⟨hne, hr⟩ := keyMem_strE_false h
      simp only [keysFresh, Bool.and_eq_true, Bool.not_eq_true']
      refine ⟨?_, ih hr⟩
      have hne' : ¬ k = k2 := fun hh => hne hh.symm
      simp [keyMem, dictGet, hne']
  | nodeE k2 m rest ihm ihr =>
      obtain ⟨hne, hr⟩ := keyMem_nodeE_false h
      simp only [keysFresh, Bool.and_eq_true, Bool.not_eq_true']
      refine ⟨?_, ihr hr⟩
      have hne' : ¬ k = k2 := fun hh => hne hh.symm
      simp [keyMem, dictGet, hne']

theorem keysFresh_single_node {k : List Char} {d : Vdf} (h : keyMem d k = false)
    (m : Vdf) : keysFresh (Vdf.nodeE k m Vdf.nil) d = true := by
  induction d with
  | nil => rfl
  | strE k2 v2 rest ih =>
      obtain ⟨hne, hr⟩ := keyMem_strE_false h
      simp only [keysFresh, Bool.and_eq_true, Bool.not_eq_true']
      refine ⟨?_, ih hr⟩
      have hne' : ¬ k = k2 := fun hh => hne hh.symm
      simp [keyMem, dictGet, hne']
  | nodeE k2 m2 rest ihm ihr =>
      obtain ⟨hne, hr⟩ := keyMem_nodeE_false h
      simp only [keysFresh, Bool.and_eq_true, Bool.not_eq_true']
      refine ⟨?_, ihr hr⟩
      have hne' : ¬ k = k2 := fun hh => hne hh.symm
      simp [keyMem, dictGet, hne']

theorem pushAll_eq_append (d : Vdf) :
    ∀ c : Vdf, goodVdf d = true → keysFresh c d = true → pushAll c d = vdfAppend c d := by
  induction d with
  | nil => intro c _ _; rw [pushAll, vdfAppend_nil]
  | strE k v rest ih =>
      intro c hg hkf
      obtain ⟨h1, h2, h3, h4⟩ := goodVdf_strE hg
      simp only [keysFresh, Bool.and_eq_true, Bool.not_eq_true'] at hkf
      rw [show pushAll c (Vdf.strE k v rest) = pushAll (dictSet c k (Sum.inl v)) rest from rfl]
      rw [dictSet_str_fresh hkf.1]
      rw [ih _ h4 (keysFresh_vdfAppend hkf.2 (keysFresh_single_str h3 v))]
      rw [vdfAppend_assoc]
      rfl
  | nodeE k m rest ihm ihr =>
      intro c hg hkf
      obtain ⟨h1, h3, hm, h4⟩ := goodVdf_nodeE hg
      simp only [keysFresh, Bool.and_eq_true, Bool.not_eq_true'] at hkf
      have hinner : pushAll Vdf.nil m = m := by
        rw [ihm Vdf.nil hm (keysFresh_nil m)]
        rfl
      rw [show pushAll c (Vdf.nodeE k m rest)
          = pushAll (dictSet c k (Sum.inr (pushAll Vdf.nil m))) rest from rfl]
      rw [hinner, dictSet_node_fresh hkf.1]
      rw [ihr _ h4 (keysFresh_vdfAppend hkf.2 (keysFresh_single_node h3 m))]
      rw [vdfAppend_assoc]
      rfl

theorem pushAll_nil_of_good {d : Vdf} (hg : goodVdf d = true) : pushAll Vdf.nil d = d := by
  rw [pushAll_eq_append d Vdf.nil hg (keysFresh_nil d)]
  rfl

/-! ## Generic fold helpers -/

theorem foldl_preserve {α β : Type _} (f : β → α → β) (P : β → Prop)
    (hstep : ∀ b y, P b → P (f b y)) :
    ∀ (l : List α) (acc : β), P acc → P (l.foldl f acc) := by
  intro l
  induction l with
  | nil => intro acc h; exact h
  | cons y l ih => intro acc h; exact ih _ (hstep _ _ h)

theorem foldl_reach {α β : Type _} (f : β → α → β) (P : β → Prop) (x : α)
    (hx : ∀ b, P (f b x)) (hstep : ∀ b y, P b → P (f b y)) :
    ∀ (l : List α) (acc : β), x ∈ l → P (l.foldl f acc) := by
  intro l
  induction l with
  | nil => intro acc h; cases h
  | cons y l ih =>
      intro acc hmem
      rcases List.mem_cons.mp hmem with h | h
      · subst h
        exact foldl_preserve f P hstep l _ (hx acc)
      · exact ih _ h

/-! ## Effect of `mark_as_uninstalled` on the catalog -/

theorem updateUninstalled_findById_self (cat : Catalog) (gid : Nat) :
    ∃ r, findById (updateUninstalledById cat gid) gid = some r
      ∧ r.runner = "" ∧ r.installed = false := by
  induction cat with
  | nil =>
      refine ⟨⟨gid, "", "", "", none, false, ""⟩, ?_, rfl, rfl⟩
      simp [updateUninstalledById, findById]
  | cons g rest ih =>
      by_cases h : g.id = gid
      · refine ⟨{ g with runner := "", installed := false }, ?_, rfl, rfl⟩
        simp [updateUninstalledById, h, findById]
      · obtain ⟨r, hr, h1, h2⟩ := ih
        refine ⟨r, ?_, h1, h2⟩
        simp only [updateUninstalledById, if_neg h, findById, List.find?]
        rw [decide_eq_false h]
        exact hr

theorem updateUninstalled_findById_other (cat : Catalog) (gid gid' : Nat)
    (hne : gid' ≠ gid) :
    findById (updateUninstalledById cat gid) gid' = findById cat gid' := by
  induction cat with
  | nil =>
      have hne' : ¬ gid = gid' := fun hh => hne hh.symm
      simp [updateUninstalledById, findById, hne']
  | cons g rest ih =>
      by_cases h : g.id = gid
      · have hgne : ¬ (g.id = gid') := fun hh => hne (hh ▸ h ▸ rfl)
        simp only [updateUninstalledById, if_pos h, findById, List.find?]
        rw [decide_eq_false hgne]
      · simp only [updateUninstalledById, if_neg h, findById, List.find?]
        by_cases h2 : g.id = gid'
        · rw [decide_eq_true h2]
        · rw [decide_eq_false h2]
          exact ih

theorem Uninst_updateUninstalled {gid : Nat} {cat : Catalog} (h : Uninst gid cat)
    (gid2 : Nat) : Uninst gid (updateUninstalledById cat gid2) := by
  by_cases he : gid = gid2
  · subst he
    exact updateUninstalled_findById_self cat gid
  · obtain ⟨r, hr, h1, h2⟩ := h
    exact ⟨r, by rw [updateUninstalled_findById_other cat gid2 gid he, hr], h1, h2⟩

theorem Uninst_step4ForId {gid : Nat} (snapshot : Catalog) (uid : String)
    (acc : Catalog × Nat) (h : Uninst gid acc.1) :
    Uninst gid (step4ForId snapshot uid acc).1 := by
  unfold step4ForId
  refine foldl_preserve _ (fun b => Uninst gid b.1) ?_ snapshot acc h
  intro b g hb
  by_cases hc : ((g.steamid.map natReprStr = some uid) && g.installed
      && (g.runner = "steam" || g.runner = "winesteam")) = true
  · simp only [hc, if_true]
    exact Uninst_updateUninstalled hb _
  · simp only [hc, if_false]
    exact hb

/-- Inside `step4ForId`, reaching a snapshot row that matches the id and the
installed/Steam-family filter establishes the uninstalled post-state for its
row id. -/
theorem Uninst_step4ForId_estab (snapshot : Catalog) (uid : String) (R : Game)
    (hmem : R ∈ snapshot) (hsid : R.steamid.map natReprStr = some uid)
    (hinst : R.installed = true) (hfam : R.runner = "steam" ∨ R.runner = "winesteam")
    (acc : Catalog × Nat) :
    Uninst R.id (step4ForId snapshot uid acc).1 := by
  unfold step4ForId
  refine foldl_reach _ (fun b => Uninst R.id b.1) R ?_ ?_ snapshot acc hmem
  · intro b
    have hc : ((R.steamid.map natReprStr = some uid) && R.installed
        && (R.runner = "steam" || R.runner = "winesteam")) = true := by
      simp [hsid, hinst]
      rcases hfam with h | h <;> simp [h]
    simp only [hc, if_true]
    exact updateUninstalled_findById_self _ _
  · intro b g hb
    by_cases hc : ((g.steamid.map natReprStr = some uid) && g.installed
        && (g.runner = "steam" || g.runner = "winesteam")) = true
    · simp only [hc, if_true]
      exact Uninst_updateUninstalled hb _
    · simp only [hc, if_false]
      exact hb

theorem Uninst_step4 (snapshot : Catalog) (ids seen : List String)
    (cat : Catalog) (muts : Nat) (R : Game) (uid : String)
    (hmem : R ∈ snapshot) (hsid : R.steamid.map natReprStr = some uid)
    (hinst : R.installed = true) (hfam : R.runner = "steam" ∨ R.runner = "winesteam")
    (huid : uid ∈ (dedupFirst ids).filter (fun i => ¬ seen.contains i)) :
    Uninst R.id (step4 snapshot ids seen cat muts).1 := by
  unfold step4
  refine foldl_reach _ (fun b => Uninst R.id b.1) uid ?_ ?_ _ (cat, muts) huid
  · intro b
    exact Uninst_step4ForId_estab snapshot uid R hmem hsid hinst hfam b
  · intro b y hb
    exact Uninst_step4ForId snapshot y b hb

/-! ## The seen set of a pass -/

theorem insertStr_contains (x : String) (l : List String) (s : String) :
    (insertStr x l).contains s = (l.contains s || x == s) := by
  rw [Bool.eq_iff_iff]
  simp only [insertStr, Bool.or_eq_true, List.elem_iff, beq_iff_eq]
  by_cases hx : x ∈ l
  · rw [if_pos hx]
    constructor
    · intro h
      exact Or.inl h
    · rintro (h | h)
      · exact h
      · subst h
        exact hx
  · rw [if_neg hx]
    simp only [List.mem_append, List.mem_singleton]
    constructor
    · rintro (h | h)
      · exact Or.inl h
      · exact Or.inr h.symm
    · rintro (h | h)
      · exact Or.inl h
      · exact Or.inr h.symm

theorem stepFile_parts {fs : SteamFS} {snapshot : Catalog} {ids : List String}
    {st st' : SyncSt} {e : Ev} (h : stepFile fs snapshot ids st e = .ok st') :
    ∃ cm, stepFileCat fs snapshot ids st.cat st.muts e = .ok cm
      ∧ st' = ⟨cm.1, insertStr (sidOf e) st.seen, cm.2⟩ := by
  unfold stepFile at h
  cases hc : stepFileCat fs snapshot ids st.cat st.muts e with
  | error err =>
      rw [hc] at h
      simp only [Bind.bind, Except.bind] at h
      exact Except.noConfusion h
  | ok cm =>
      rw [hc] at h
      simp only [Bind.bind, Except.bind, Except.ok.injEq] at h
      exact ⟨cm, rfl, h.symm⟩

theorem foldSteps_seen (fs : SteamFS) (snapshot : Catalog) (ids : List String) :
    ∀ (evs : List Ev) (st st' : SyncSt),
    foldSteps fs snapshot ids st evs = .ok st' →
    ∀ s, st'.seen.contains s = (st.seen.contains s || (evs.map sidOf).contains s) := by
  intro evs
  induction evs with
  | nil =>
      intro st st' h s
      simp only [foldSteps] at h
      cases h
      simp
  | cons e evs ih =>
      intro st st' h s
      simp only [foldSteps] at h
      cases hc : stepFile fs snapshot ids st e with
      | error err =>
          rw [hc] at h
          simp only [Bind.bind, Except.bind] at h
          exact Except.noConfusion h
      | ok st1 =>
          rw [hc] at h
          simp only [Bind.bind, Except.bind] at h
          obtain ⟨cm, _, hparts⟩ := stepFile_parts hc
          have := ih st1 st' h s
          rw [this, hparts]
          simp only [insertStr_contains, List.map_cons, List.contains_cons]
          by_cases hse : s = sidOf e
          · subst hse
            simp
          · have h1 : (s == sidOf e) = false := by simpa using hse
            have h2 : (sidOf e == s) = false := by simpa using fun hh => hse hh.symm
            rw [h1, h2]
            simp

theorem sync_parts {fs : SteamFS} {cat cat' : Catalog} {k : Nat}
    (h : sync_with_lutris fs cat = .ok (cat', k)) :
    ∃ st, foldSteps fs (steamGames cat) (idsOf (steamGames cat)) ⟨cat, [], 0⟩ (eventsOf fs)
        = .ok st
      ∧ (cat', k) = step4 (steamGames cat) (idsOf (steamGames cat)) st.seen st.cat st.muts := by
  simp only [sync_with_lutris] at h
  cases hc : foldSteps fs (steamGames cat) (idsOf (steamGames cat)) ⟨cat, [], 0⟩ (eventsOf fs) with
  | error err =>
      rw [hc] at h
      simp only [Bind.bind, Except.bind] at h
      exact Except.noConfusion h
  | ok st =>
      rw [hc] at h
      simp only [Bind.bind, Except.bind, Except.ok.injEq] at h
      exact ⟨st, rfl, h.symm⟩

theorem mem_idsOf {snapshot : Catalog} {g : Game} {n : Nat} (hg : g ∈ snapshot)
    (hn : g.steamid = some n) : natReprStr n ∈ idsOf snapshot := by
  unfold idsOf
  exact List.mem_filterMap.mpr ⟨g, hg, by rw [hn]; rfl⟩

theorem mem_dedupFirstAux :
    ∀ (l acc : List String) (x : String),
    x ∈ l → acc.contains x = false → x ∈ dedupFirstAux acc l := by
  intro l
  induction l with
  | nil => intro acc x h _; cases h
  | cons y rest ih =>
      intro acc x hmem hacc
      rcases List.mem_cons.mp hmem with h | h
      · subst h
        simp only [dedupFirstAux]
        rw [if_neg (by intro hh; rw [hacc] at hh; exact Bool.noConfusion hh)]
        exact List.mem_cons_self _ _
      · by_cases hy : acc.contains y = true
        · simp only [dedupFirstAux]
          rw [if_pos hy]
          exact ih _ _ h hacc
        · simp only [dedupFirstAux]
          rw [if_neg hy]
          by_cases hxy : x = y
          · subst hxy
            exact List.mem_cons_self _ _
          · refine List.mem_cons_of_mem _ (ih _ _ h ?_)
            have h1 : (x == y) = false := by simpa using hxy
            simp only [List.contains_cons, h1, hacc]
            rfl

theorem mem_dedupFirst {l : List String} {x : String} (h : x ∈ l) : x ∈ dedupFirst l :=
  mem_dedupFirstAux l [] x h rfl

/-- Shared effect lemma for the disappearance step: a Steam-sourced row that
was installed under a Steam-family runner and whose id string is the digit
run of no enumerated manifest filename ends the completed pass stored with
`runner = ""` and `installed = false`. -/
theorem sync_uninstall_effect {fs : SteamFS} {cat cat' : Catalog} {k : Nat}
    {R : Game} {n : Nat}
    (hok : sync_with_lutris fs cat = .ok (cat', k))
    (hmem : R ∈ steamGames cat) (hsid : R.steamid = some n)
    (hunseen : ((eventsOf fs).map sidOf).contains (natReprStr n) = false)
    (hinst : R.installed = true)
    (hfam : R.runner = "steam" ∨ R.runner = "winesteam") :
    Uninst R.id cat' := by
  obtain ⟨st, hfold, hres⟩ := sync_parts hok
  have hseen := foldSteps_seen _ _ _ _ _ _ hfold (natReprStr n)
  have huns : st.seen.contains (natReprStr n) = false := by
    rw [hseen]
    rw [show ((⟨cat, [], 0⟩ : SyncSt).seen.contains (natReprStr n)) = false from rfl,
      Bool.false_or]
    exact hunseen
  have hin : natReprStr n ∈ (dedupFirst (idsOf (steamGames cat))).filter
      (fun i => ¬ st.seen.contains i) := by
    rw [List.mem_filter]
    refine ⟨mem_dedupFirst (mem_idsOf hmem hsid), ?_⟩
    rw [huns]
    simp
  have heff := Uninst_step4 (steamGames cat) (idsOf (steamGames cat)) st.seen st.cat st.muts
    R (natReprStr n) hmem (by rw [hsid]; rfl) hinst hfam hin
  have hcat' : cat'
      = (step4 (steamGames cat) (idsOf (steamGames cat)) st.seen st.cat st.muts).1 :=
    congrArg Prod.fst hres
  rw [hcat']
  exact heff

/-! ## Claims C6 and C10 -/

/-- C6 counterexample: a catalog entry (id 1, steamId 9, installed, runner
`steam`) whose id is matched by no `appmanifest_<digits>.acf` filename — the
only file on disk is `appmanifest_9zacf` — yet after a full pass the entry
is still installed: the `get_appmanifests` regex `^appmanifest_\d+.acf$`
leaves its dot unescaped, so `appmanifest_9zacf` is enumerated and the id 9
counts as seen. -/
theorem C6_regex_dot_counterexample :
    literalManifestName "appmanifest_9zacf" = false
    ∧ matchesAppmanifestRe "appmanifest_9zacf" = true
    ∧ sync_with_lutris fsRegexDot catRegexDot = .ok (catRegexDot, 0)
    ∧ (findById catRegexDot 1).map Game.installed = some true := by
  decide

/-- C6 amended: after a completed sync pass, every catalog entry that was in
the Steam-sourced set before the pass (a row with a steam id), was marked
installed with runner `steam` or `winesteam`, and whose id string is the
digit run of no filename matched by the enumeration pattern
`appmanifest_<digits><any character>acf` in any enumerated library root, is
stored with `installed = false`. -/
theorem C6_sync_marks_disappeared_uninstalled {fs : SteamFS} {cat cat' : Catalog}
    {k : Nat} {R : Game} {n : Nat}
    (hok : sync_with_lutris fs cat = .ok (cat', k))
    (hmem : R ∈ steamGames cat) (hsid : R.steamid = some n)
    (hunseen : ((eventsOf fs).map sidOf).contains (natReprStr n) = false)
    (hinst : R.installed = true)
    (hfam : R.runner = "steam" ∨ R.runner = "winesteam") :
    ∃ r, findById cat' R.id = some r ∧ r.installed = false := by
  obtain ⟨r, hr, _, hi⟩ := sync_uninstall_effect hok hmem hsid hunseen hinst hfam
  exact ⟨r, hr, hi⟩

/-- C6 witness: an installed `steam` entry with steam id 9 and an empty
library root is marked uninstalled by one pass. -/
theorem C6_sync_marks_disappeared_uninstalled_witness :
    ∃ r, findById [⟨1, "G", "g", "", some 9, false, "cfg"⟩] 1 = some r
      ∧ r.installed = false := by
  have h := @C6_sync_marks_disappeared_uninstalled
    ⟨[⟨"/L", []⟩], [], []⟩
    [⟨1, "G", "g", "steam", some 9, true, "cfg"⟩]
    [⟨1, "G", "g", "", some 9, false, "cfg"⟩] 1
    ⟨1, "G", "g", "steam", some 9, true, "cfg"⟩ 9
    (by decide) (by decide) (by decide) (by decide) (by decide) (Or.inl rfl)
  exact h

/-- C10: `mark_as_uninstalled` mutates more than the installed flag.  For
every catalog entry processed by the disappearance step of a completed sync
pass (a Steam-sourced row, installed under a Steam-family runner, whose id
string is the digit run of no enumerated manifest filename), the upsert
stores `installed = false` AND `runner = ""`; in particular the stored row
no longer passes the Steam-family runner filter
(`installed && (runner = steam || runner = winesteam)`) used by the
uninstall-detection step of any later pass. -/
theorem C10_mark_as_uninstalled_clears_runner {fs : SteamFS} {cat cat' : Catalog}
    {k : Nat} {R : Game} {n : Nat}
    (hok : sync_with_lutris fs cat = .ok (cat', k))
    (hmem : R ∈ steamGames cat) (hsid : R.steamid = some n)
    (hunseen : ((eventsOf fs).map sidOf).contains (natReprStr n) = false)
    (hinst : R.installed = true)
    (hfam : R.runner = "steam" ∨ R.runner = "winesteam") :
    ∃ r, findById cat' R.id = some r ∧ r.runner = "" ∧ r.installed = false
      ∧ (r.installed && (r.runner = "steam" || r.runner = "winesteam")) = false := by
  obtain ⟨r, hr, hrun, hi⟩ := sync_uninstall_effect hok hmem hsid hunseen hinst hfam
  exact ⟨r, hr, hrun, hi, by rw [hi]; rfl⟩

/-- C10 witness: an installed `winesteam` entry with steam id 5 and empty
roots ends the pass with no runner and not installed. -/
theorem C10_mark_as_uninstalled_clears_runner_witness :
    ∃ r, findById [⟨2, "W", "w", "", some 5, false, "c"⟩] 2 = some r
      ∧ r.runner = "" ∧ r.installed = false
      ∧ (r.installed && (r.runner = "steam" || r.runner = "winesteam")) = false := by
  have h := @C10_mark_as_uninstalled_clears_runner
    ⟨[], [⟨"/W", []⟩], []⟩
    [⟨2, "W", "w", "winesteam", some 5, true, "c"⟩]
    [⟨2, "W", "w", "", some 5, false, "c"⟩] 1
    ⟨2, "W", "w", "winesteam", some 5, true, "c"⟩ 5
    (by decide) (by decide) (by decide) (by decide) (by decide) (Or.inr rfl)
  exact h

/-! ## Machinery for the failure-tolerance claim -/

theorem foldl_preserve_mem {α β : Type _} (f : β → α → β) (P : β → Prop) :
    ∀ (l : List α), (∀ b y, y ∈ l → P b → P (f b y)) → ∀ acc, P acc → P (l.foldl f acc) := by
  intro l
  induction l with
  | nil => intro _ acc h; exact h
  | cons y l ih =>
      intro hstep acc h
      exact ih (fun b z hz hb => hstep b z (List.mem_cons_of_mem y hz) hb) _
        (hstep acc y (List.mem_cons_self y l) h)

/-- An unreadable manifest is skipped: when constructing the `AppManifest`
raises (caught by the pass), the loop body leaves the catalog and mutation
count unchanged and only records the id as seen. -/
theorem stepFile_read_error_skips (fs : SteamFS) (snapshot : Catalog)
    (ids : List String) (st : SyncSt) (e : Ev)
    (hread : readManifestForSync fs e.rootPath e.file = .error ()) :
    stepFile fs snapshot ids st e = .ok ⟨st.cat, insertStr (sidOf e) st.seen, st.muts⟩ := by
  have hcat : stepFileCat fs snapshot ids st.cat st.muts e = .ok (st.cat, st.muts) := by
    unfold stepFileCat
    rw [hread]
    split
    · rfl
    · cases hfind : snapshot.find?
          (fun g => (g.steamid.map natReprStr = some (sidOf e)) && !g.installed) with
      | none => rfl
      | some g => rfl
  unfold stepFile
  rw [hcat]
  rfl

theorem InstalledAt_upsertGo (n : Nat) (nm sl rn cf : String) (newRow : Game) :
    ∀ (cat : Catalog) (gid : Nat), InstalledAt gid cat →
    InstalledAt gid (upsertGo n nm sl rn cf newRow cat) := by
  intro cat
  induction cat with
  | nil =>
      intro gid h
      obtain ⟨r, hr, _⟩ := h
      exact absurd hr (by simp [findById])
  | cons g rest ih =>
      intro gid h
      obtain ⟨r, hr, hi⟩ := h
      by_cases hid : g.id = gid
      · by_cases hst : g.steamid = some n
        · have hfind2 : findById (upsertGo n nm sl rn cf newRow (g :: rest)) gid
              = some { g with name := nm, slug := sl, runner := rn, steamid := some n, installed := true, configpath := cf } := by
            simp only [upsertGo, if_pos hst, findById, List.find?]
            rw [decide_eq_true hid]
          exact ⟨_, hfind2, rfl⟩
        · refine ⟨r, ?_, hi⟩
          simp only [upsertGo, if_neg hst, findById, List.find?]
          rw [decide_eq_true hid]
          simp only [findById, List.find?] at hr
          rw [decide_eq_true hid] at hr
          exact hr
      · simp only [findById, List.find?] at hr
        rw [decide_eq_false hid] at hr
        by_cases hst : g.steamid = some n
        · refine ⟨r, ?_, hi⟩
          simp only [upsertGo, if_pos hst, findById, List.find?]
          rw [decide_eq_false hid]
          exact hr
        · obtain ⟨r', hr', hi'⟩ := ih gid ⟨r, hr, hi⟩
          refine ⟨r', ?_, hi'⟩
          simp only [upsertGo, if_neg hst, findById, List.find?]
          rw [decide_eq_false hid]
          exact hr'

theorem InstalledAt_upsertInstalled {gid : Nat} {cat : Catalog} (h : InstalledAt gid cat)
    (n : Nat) (nm sl rn cf : String) :
    InstalledAt gid (upsertInstalled cat n nm sl rn cf) :=
  InstalledAt_upsertGo n nm sl rn cf _ cat gid h

/-- Any successful loop-body catalog effect is either no write or one
installed-upsert for the file's numeric id. -/
theorem mark_as_installed_ok_shape {cat : Catalog} {sid : List Char} {rn : String}
    {info : GameInfo} {c : Catalog}
    (h : mark_as_installed cat sid rn info = .ok c) :
    ∃ nm sl cf, c = upsertInstalled cat (digitsToNat sid) nm sl rn cf := by
  unfold mark_as_installed at h
  split at h
  · exact Except.noConfusion h
  · cases h
    exact ⟨_, _, _, rfl⟩

theorem stepFileCat_write_shape {fs : SteamFS} {snapshot : Catalog} {ids : List String}
    {cat : Catalog} {muts : Nat} {e : Ev} {cm : Catalog × Nat}
    (h : stepFileCat fs snapshot ids cat muts e = .ok cm) :
    cm.1 = cat ∨ ∃ nm sl rn cf, cm.1 = upsertInstalled cat (numOf e) nm sl rn cf := by
  unfold stepFileCat at h
  cases hread : readManifestForSync fs e.rootPath e.file with
  | error u =>
      rw [hread] at h
      split at h
      · cases h
        exact Or.inl rfl
      · cases hfind : snapshot.find?
            (fun g => (g.steamid.map natReprStr = some (sidOf e)) && !g.installed) with
        | none =>
            rw [hfind] at h
            cases h
            exact Or.inl rfl
        | some g =>
            rw [hfind] at h
            cases h
            exact Or.inl rfl
  | ok data =>
      rw [hread] at h
      dsimp only at h
      split at h
      · cases hinst : isInstalledExc data with
        | error err =>
            rw [hinst] at h
            simp only [Bind.bind, Except.bind] at h
            exact Except.noConfusion h
        | ok b =>
            rw [hinst] at h
            simp only [Bind.bind, Except.bind] at h
            cases b with
            | false =>
                rw [if_neg Bool.false_ne_true] at h
                cases h
                exact Or.inl rfl
            | true =>
                rw [if_pos rfl] at h
                cases hinfo : newGameInfo data with
                | error err =>
                    rw [hinfo] at h
                    simp only [Bind.bind, Except.bind] at h
                    exact Except.noConfusion h
                | ok info =>
                    rw [hinfo] at h
                    simp only [Bind.bind, Except.bind] at h
                    cases hmi : mark_as_installed cat (firstDigitRun e.file.toList)
                        "steam" info with
                    | error err =>
                        rw [hmi] at h
                        exact Except.noConfusion h
                    | ok cat2 =>
                        rw [hmi] at h
                        cases h
                        obtain ⟨nm, sl, cf, hc⟩ := mark_as_installed_ok_shape hmi
                        exact Or.inr ⟨nm, sl, _, cf, hc⟩
      · cases hfind : snapshot.find?
            (fun g => (g.steamid.map natReprStr = some (sidOf e)) && !g.installed) with
        | none =>
            rw [hfind] at h
            cases h
            exact Or.inl rfl
        | some g =>
            rw [hfind] at h
            cases hinst : isInstalledExc data with
            | error err =>
                rw [hinst] at h
                simp only [Bind.bind, Except.bind] at h
                exact Except.noConfusion h
            | ok b =>
                rw [hinst] at h
                simp only [Bind.bind, Except.bind] at h
                cases b with
                | false =>
                    rw [if_neg Bool.false_ne_true] at h
                    cases h
                    exact Or.inl rfl
                | true =>
                    rw [if_pos rfl] at h
                    cases hrn : getRunnerName fs (pathJoin e.rootPath e.file) with
                    | error err =>
                        rw [hrn] at h
                        simp only [Bind.bind, Except.bind] at h
                        exact Except.noConfusion h
                    | ok runner =>
                        rw [hrn] at h
                        simp only [Bind.bind, Except.bind] at h
                        cases hmi : mark_as_installed cat (firstDigitRun e.file.toList)
                            runner ⟨g.name, g.slug, none⟩ with
                        | error err =>
                            rw [hmi] at h
                            exact Except.noConfusion h
                        | ok cat2 =>
                            rw [hmi] at h
                            cases h
                            obtain ⟨nm, sl, cf, hc⟩ := mark_as_installed_ok_shape hmi
                            exact Or.inr ⟨nm, sl, _, cf, hc⟩

theorem foldSteps_cat_preserve (fs : SteamFS) (snapshot : Catalog) (ids : List String)
    (P : Catalog → Prop)
    (hstep : ∀ cat muts e cm, stepFileCat fs snapshot ids cat muts e = .ok cm →
      P cat → P cm.1) :
    ∀ (evs : List Ev) (st st' : SyncSt),
    foldSteps fs snapshot ids st evs = .ok st' → P st.cat → P st'.cat := by
  intro evs
  induction evs with
  | nil =>
      intro st st' h hP
      simp only [foldSteps] at h
      cases h
      exact hP
  | cons e evs ih =>
      intro st st' h hP
      simp only [foldSteps] at h
      cases hc : stepFile fs snapshot ids st e with
      | error err =>
          rw [hc] at h
          simp only [Bind.bind, Except.bind] at h
          exact Except.noConfusion h
      | ok st1 =>
          rw [hc] at h
          simp only [Bind.bind, Except.bind] at h
          obtain ⟨cm, hcm, hparts⟩ := stepFile_parts hc
          have hP1 : P st1.cat := by
            rw [hparts]
            exact hstep _ _ _ _ hcm hP
          exact ih st1 st' h hP1

theorem snapshot_sub {cat : Catalog} {g : Game} (h : g ∈ steamGames cat) : g ∈ cat :=
  (List.mem_filter.mp h).1

theorem nodup_id_inj {cat : Catalog} (h : (cat.map Game.id).Nodup) {a b : Game}
    (ha : a ∈ cat) (hb : b ∈ cat) (heq : a.id = b.id) : a = b :=
  List.inj_on_of_nodup_map h ha hb heq

/-! ## Claims C3 and C7 -/

/-- C3 counterexample: a VdfNode built only from string keys, string leaf
values and nested mappings, with no quote characters anywhere, whose
round-trip nevertheless fails: a newline inside the leaf value `a\nb` splits
the serialised entry across two physical lines, the first parses as the pair
`(k, a)` and the second is dropped as malformed, so `parse (serialize x)`
is not structurally equal to `x`. -/
theorem C3_roundtrip_newline_counterexample :
    vdf_parse (linesOf (to_vdf 0 (Vdf.strE (cs "k") ('a' :: '\n' :: ['b']) Vdf.nil))) Vdf.nil
      = Vdf.strE (cs "k") ['a'] Vdf.nil
    ∧ vdf_parse (linesOf (to_vdf 0 (Vdf.strE (cs "k") ('a' :: '\n' :: ['b']) Vdf.nil))) Vdf.nil
      ≠ Vdf.strE (cs "k") ('a' :: '\n' :: ['b']) Vdf.nil := by
  decide

/-- C3 amended: for every VdfNode built only from string keys, string leaf
values and nested mappings — keys unique at each level (the data model's
`VdfNode` invariant) and no quote character and no newline character inside
keys or values — parsing the serialised text reproduces a structurally equal
node: `vdf_parse` applied to the lines of the output of `to_vdf` yields the
original mapping. -/
theorem C3_vdf_parse_to_vdf_roundtrip (d : Vdf) (hg : goodVdf d = true) :
    vdf_parse (linesOf (to_vdf 0 d)) Vdf.nil = d := by
  have hlines : linesOf (to_vdf 0 d) = dictLines 0 d := by
    have h := linesOf_flatten_dictLines d 0 [] hg
    rw [List.append_nil] at h
    rw [to_vdf_eq_join]
    simpa [linesOf] using h
  rw [hlines]
  unfold vdf_parse
  have h2 := vdfParseF_dictLines d 0 Vdf.nil [] ((dictLines 0 d).length + 1) 1 hg
    (by simp) (by simp)
  rw [List.append_nil] at h2
  rw [h2]
  show pushAll Vdf.nil d = d
  exact pushAll_nil_of_good hg

/-- C3 witness: the round-trip theorem applied to the concrete default
manifest skeleton. -/
theorem C3_vdf_parse_to_vdf_roundtrip_witness :
    goodVdf (get_default_acf (cs "123") (cs "Some Game")) = true
    ∧ vdf_parse (linesOf (to_vdf 0 (get_default_acf (cs "123") (cs "Some Game")))) Vdf.nil
        = get_default_acf (cs "123") (cs "Some Game") :=
  ⟨by decide, C3_vdf_parse_to_vdf_roundtrip _ (by decide)⟩

theorem map_kvLine_eq_dictLines (ps : List (List Char × List Char)) :
    ps.map kvLine = dictLines 0 (flatVdf ps) := by
  induction ps with
  | nil => rfl
  | cons p r ih => simp [flatVdf, dictLines, kvLine, ih]

theorem flatVdf_append (a b : List (List Char × List Char)) :
    flatVdf (a ++ b) = vdfAppend (flatVdf a) (flatVdf b) := by
  induction a with
  | nil => rfl
  | cons p r ih => simp [flatVdf, vdfAppend, ih]

theorem flat_good_split (pre post : List (List Char × List Char))
    (h : goodVdf (flatVdf (pre ++ post)) = true) :
    goodVdf (flatVdf pre) = true ∧ goodVdf (flatVdf post) = true
    ∧ keysFresh (flatVdf pre) (flatVdf post) = true := by
  induction pre with
  | nil => exact ⟨rfl, h, keysFresh_nil _⟩
  | cons p r ih =>
      rw [show flatVdf ((p :: r) ++ post) = Vdf.strE p.1 p.2 (flatVdf (r ++ post)) from rfl] at h
      obtain ⟨h1, h2, h3, h4⟩ := goodVdf_strE h
      obtain ⟨g1, g2, g3⟩ := ih h4
      rw [flatVdf_append, keyMem_vdfAppend] at h3
      have hkm : keyMem (flatVdf r) p.1 = false ∧ keyMem (flatVdf post) p.1 = false := by
        constructor <;> [exact (Bool.or_eq_false_iff.mp h3).1; exact (Bool.or_eq_false_iff.mp h3).2]
      refine ⟨?_, g2, ?_⟩
      · show goodVdf (Vdf.strE p.1 p.2 (flatVdf r)) = true
        simp [goodVdf, Bool.and_eq_true, Bool.not_eq_true', h1, h2, hkm.1, g1]
      · show keysFresh (Vdf.strE p.1 p.2 (flatVdf r)) (flatVdf post) = true
        rw [show Vdf.strE p.1 p.2 (flatVdf r)
            = vdfAppend (Vdf.strE p.1 p.2 Vdf.nil) (flatVdf r) from rfl]
        exact keysFresh_vdfAppend (keysFresh_single_str hkm.2 _) g3

/-- C7: the parser tolerates malformed lines.  For every stream of
well-formed key-value lines (keys unique, key and value strings quote- and
newline-free) with one malformed line inserted anywhere — a line whose
quote-split yields neither the nested-start shape (3 segments) nor the
key-value shape (at least 4 segments) — parsing returns normally (the
`IndexError` of the key-value subscript is caught and logged), the offending
line is dropped, and the result holds exactly the key-value pairs of the
remaining lines. -/
theorem C7_malformed_line_tolerance (pre post : List (List Char × List Char))
    (b : List Char) (hg : goodVdf (flatVdf (pre ++ post)) = true) (hb : badLine b) :
    vdf_parse (pre.map kvLine ++ b :: post.map kvLine) Vdf.nil = flatVdf (pre ++ post) := by
  obtain ⟨g1, g2, g3⟩ := flat_good_split pre post hg
  unfold vdf_parse
  rw [map_kvLine_eq_dictLines, map_kvLine_eq_dictLines]
  have h1 := vdfParseF_dictLines (flatVdf pre) 0 Vdf.nil
      (b :: dictLines 0 (flatVdf post))
      ((dictLines 0 (flatVdf pre) ++ b :: dictLines 0 (flatVdf post)).length + 1)
      ((dictLines 0 (flatVdf post)).length + 1 + 1) g1
      (by simp) (by simp)
  rw [h1]
  simp only [vdfParseF]
  rw [if_neg ?hcb, if_neg ?h3b, if_neg ?h4b]
  case hcb =>
    rintro (h | h)
    · exact hb.1 h
    · exact hb.2.1 h
  case h3b =>
    intro h
    have := hb.2.2
    omega
  case h4b =>
    intro h
    have := hb.2.2
    omega
  have h2 := vdfParseF_dictLines (flatVdf post) 0 (pushAll Vdf.nil (flatVdf pre)) []
      ((dictLines 0 (flatVdf post)).length + 1) 1 g2 (by simp) (by simp)
  rw [List.append_nil] at h2
  rw [h2]
  show pushAll (pushAll Vdf.nil (flatVdf pre)) (flatVdf post) = flatVdf (pre ++ post)
  rw [pushAll_nil_of_good g1, pushAll_eq_append _ _ g2 g3]
  exact (flatVdf_append pre post).symm

/-- C7 witness: a concrete stream with one junk line between two well-formed
pairs. -/
theorem C7_malformed_line_tolerance_witness :
    badLine (cs "junk")
    ∧ vdf_parse ([(cs "a", cs "1")].map kvLine ++ cs "junk" :: [(cs "c", cs "2")].map kvLine)
        Vdf.nil = flatVdf ([(cs "a", cs "1")] ++ [(cs "c", cs "2")]) :=
  ⟨⟨by decide, by decide, by decide⟩,
    C7_malformed_line_tolerance _ _ _ (by decide) ⟨by decide, by decide, by decide⟩⟩

/-- C1 counterexample: the state-flags value `1026` does not decode to
`{"Uninstalled", "Fully Installed"}`.  Neither name is among the decoded
flags: the decoding maps set bit `i` to enumeration index `i + 1`, and the
set bits of `1026` are 1 and 10, giving indices 2 and 11, i.e.
`"Update Required"` and `"Update Started"`.  Consequently a fresh default
manifest (whose `StateFlags` is the literal `"1026"`) has
`is_installed() = false`, not `true`. -/
theorem C1_states_1026_counterexample :
    ("Uninstalled" ∉ appStates 1026 ∧ "Fully Installed" ∉ appStates 1026)
    ∧ appStates 1026 = ["Update Required", "Update Started"]
    ∧ isInstalledExc (some (get_default_acf (cs "123") (cs "Some Game"))) = .ok false := by
  decide

/-- C1 amended: decoding the state-flags value `1026` (bits 1 and 10 set)
via `AppManifest.states` yields exactly the flags at enumeration indices 2
and 11, `["Update Required", "Update Started"]`; in particular any manifest
whose `StateFlags` field is the fresh-manifest default `"1026"` decodes
without `"Fully Installed"` and satisfies `is_installed() = false`. -/
theorem C1_states_1026_decode :
    appStates 1026 = ["Update Required", "Update Started"]
    ∧ statesExc (some (get_default_acf (cs "123") (cs "My Game")))
        = .ok ["Update Required", "Update Started"]
    ∧ isInstalledExc (some (get_default_acf (cs "123") (cs "My Game"))) = .ok false := by
  decide

/-! ## Claim C2 -/

/-- C2: constructing `AppManifest` on a manifest path that does not exist
indeed succeeds and leaves the backing data unassigned, and
`get_appmanifest_from_appid` with an existing steamapps directory and a
missing manifest file returns absent without raising; but contrary to the
claim the derived properties of the data-less model do not resolve to
absent/`None` — each of `name`, `states`, `installdir`, `is_installed()`
raises `AttributeError`, because `__init__` never assigns
`self.appmanifest_data` when the file is missing. -/
theorem C2_missing_manifest_behaviour :
    appManifestInit ⟨["/apps"], []⟩ "/apps/appmanifest_123.acf"
      = .ok ⟨"/apps", cs "123", none⟩
    ∧ get_appmanifest_from_appid ⟨["/apps"], []⟩ "/apps" "123" = .ok none
    ∧ nameExc none = .error .attributeError
    ∧ statesExc none = .error .attributeError
    ∧ installdirExc none = .error .attributeError
    ∧ isInstalledExc none = .error .attributeError := by
  decide

/-! ## Claim C9 -/

/-- C9: the watch handler's event filter invokes the caller-supplied callback
with `(event_kind, path)` exactly for those MODIFY/CREATE/DELETE events whose
path ends with the suffix `.acf`; every other event is discarded silently
(`none`: the callback is not invoked). -/
theorem C9_watch_event_filter (event_type path : String) :
    processEvent event_type path
      = (if (cs ".acf").isSuffixOf path.toList then some (event_type, path) else none)
    ∧ processInModify path
      = (if (cs ".acf").isSuffixOf path.toList then some ("MODIFY", path) else none)
    ∧ processInCreate path
      = (if (cs ".acf").isSuffixOf path.toList then some ("CREATE", path) else none)
    ∧ processInDelete path
      = (if (cs ".acf").isSuffixOf path.toList then some ("DELETE", path) else none) :=
  ⟨rfl, rfl, rfl, rfl⟩

/-! ## Claim C8 -/

theorem findById_of_nodup {cat : Catalog} (hnd : (cat.map Game.id).Nodup) {R : Game}
    (hmem : R ∈ cat) : findById cat R.id = some R := by
  induction cat with
  | nil => cases hmem
  | cons g rest ih =>
      rcases List.mem_cons.mp hmem with h | h
      · subst h
        simp [findById, List.find?]
      · have hne : ¬ g.id = R.id := by
          intro he
          have : R.id ∈ rest.map Game.id := List.mem_map_of_mem Game.id h
          rw [← he] at this
          exact (List.nodup_cons.mp hnd).1 this
        simp only [findById, List.find?]
        rw [decide_eq_false hne]
        exact ih (List.nodup_cons.mp hnd).2 h

theorem InstalledAt_updateUninstalled_frame {gid gid2 : Nat} {cat : Catalog}
    (hne : gid ≠ gid2) (h : InstalledAt gid cat) :
    InstalledAt gid (updateUninstalledById cat gid2) := by
  obtain ⟨r, hr, hi⟩ := h
  exact ⟨r, by rw [updateUninstalled_findById_other cat gid2 gid hne, hr], hi⟩

theorem InstalledAt_step4ForId_frame (snapshot : Catalog) (uid : String) {gid : Nat}
    (hno : ∀ g ∈ snapshot, ((g.steamid.map natReprStr = some uid) && g.installed
      && (g.runner = "steam" || g.runner = "winesteam")) = true → g.id ≠ gid)
    (acc : Catalog × Nat) (h : InstalledAt gid acc.1) :
    InstalledAt gid (step4ForId snapshot uid acc).1 := by
  unfold step4ForId
  refine foldl_preserve_mem _ (fun b => InstalledAt gid b.1) snapshot ?_ acc h
  intro b g hg hb
  by_cases hc : ((g.steamid.map natReprStr = some uid) && g.installed
      && (g.runner = "steam" || g.runner = "winesteam")) = true
  · simp only [hc, if_true]
    exact InstalledAt_updateUninstalled_frame (fun he => hno g hg hc he.symm) hb
  · simp only [hc, if_false]
    exact hb

theorem InstalledAt_step4_frame (snapshot : Catalog) (ids seen : List String)
    (cat : Catalog) (muts : Nat) {gid : Nat}
    (hno : ∀ uid ∈ (dedupFirst ids).filter (fun i => ¬ seen.contains i),
      ∀ g ∈ snapshot, ((g.steamid.map natReprStr = some uid) && g.installed
        && (g.runner = "steam" || g.runner = "winesteam")) = true → g.id ≠ gid)
    (h : InstalledAt gid cat) :
    InstalledAt gid (step4 snapshot ids seen cat muts).1 := by
  unfold step4
  refine foldl_preserve_mem _ (fun b => InstalledAt gid b.1) _ ?_ (cat, muts) h
  intro b uid huid hb
  exact InstalledAt_step4ForId_frame snapshot uid (hno uid huid) b hb

/-- C8 counterexample: a single field-deficient manifest aborts the whole
pass.  `fsC8` lists a fully-installed manifest lacking the required `name`
field followed by a well-formed one; the pass stops with the uncaught
`TypeError` raised while deriving the new entry's slug from the absent name,
and the second manifest — which alone would register a new installed entry —
is never processed. -/
theorem C8_single_failure_aborts_counterexample :
    sync_with_lutris fsC8 [] = .error .typeError
    ∧ sync_with_lutris fsC8b []
      = .ok ([⟨1, "Good Game", "good-game", "steam", some 2, true, "good-game-config"⟩], 1) := by
  constructor
  · decide
  · decide

/-- C8 amended: only failures raised on open/read of the manifest are
skipped (the loop body leaves the catalog and mutation count unchanged and
records the filename's id as seen); with unique row ids, an installed row
whose Steam id string is the digit run of such a failing manifest's filename
is not spuriously marked uninstalled by step 4 of a completed pass.  A
manifest that opens but lacks required fields aborts the pass instead
(`C8_single_failure_aborts_counterexample`). -/
theorem C8_open_failure_skipped_and_seen
    (fs : SteamFS) (cat cat' : Catalog) (k : Nat) (R : Game) (n : Nat) (e : Ev)
    (hok : sync_with_lutris fs cat = .ok (cat', k))
    (hnd : (cat.map Game.id).Nodup)
    (hmem : R ∈ cat) (hsid : R.steamid = some n) (hinstR : R.installed = true)
    (he : e ∈ eventsOf fs)
    (hread : readManifestForSync fs e.rootPath e.file = .error ())
    (hcanon : sidOf e = natReprStr n) :
    (∀ st, stepFile fs (steamGames cat) (idsOf (steamGames cat)) st e
        = .ok ⟨st.cat, insertStr (sidOf e) st.seen, st.muts⟩)
    ∧ InstalledAt R.id cat' := by
  constructor
  · intro st
    exact stepFile_read_error_skips fs (steamGames cat) (idsOf (steamGames cat)) st e hread
  · obtain ⟨st1, hfold, hres⟩ := sync_parts hok
    have hstart : InstalledAt R.id cat := ⟨R, findById_of_nodup hnd hmem, hinstR⟩
    have hmid : InstalledAt R.id st1.cat := by
      refine foldSteps_cat_preserve fs (steamGames cat) (idsOf (steamGames cat))
        (InstalledAt R.id) ?_ (eventsOf fs) ⟨cat, [], 0⟩ st1 hfold hstart
      intro cat0 muts0 e0 cm hcm hP
      rcases stepFileCat_write_shape hcm with h | ⟨nm, sl, rn, cf, h⟩
      · rw [h]; exact hP
      · rw [h]; exact InstalledAt_upsertInstalled hP (numOf e0) nm sl rn cf
    have hcat' : cat' = (step4 (steamGames cat) (idsOf (steamGames cat)) st1.seen
        st1.cat st1.muts).1 := congrArg Prod.fst hres
    rw [hcat']
    refine InstalledAt_step4_frame _ _ _ _ _ ?_ hmid
    intro uid huid g hg hmatch heq
    have hgm : g ∈ cat := snapshot_sub hg
    have hgr : g = R := nodup_id_inj hnd hgm hmem heq
    have hms : g.steamid.map natReprStr = some uid := by
      simp only [Bool.and_eq_true, decide_eq_true_eq] at hmatch
      exact hmatch.1.1
    have huidn : uid = natReprStr n := by
      rw [hgr, hsid] at hms
      exact (Option.some.injEq _ _ ▸ hms).symm
    have hfil := List.mem_filter.mp huid
    have hunseen : st1.seen.contains uid = false := by
      have := hfil.2
      simp only [decide_eq_true_eq] at this
      exact Bool.not_eq_true _ ▸ (by simpa using this)
    have hseen : st1.seen.contains uid = true := by
      have hs := foldSteps_seen fs (steamGames cat) (idsOf (steamGames cat))
        (eventsOf fs) ⟨cat, [], 0⟩ st1 hfold uid
      rw [hs]
      have hm : ((eventsOf fs).map sidOf).contains uid = true := by
        refine List.elem_iff.mpr ?_
        rw [huidn, ← hcanon]
        exact List.mem_map_of_mem sidOf he
      rw [hm]
      simp
    rw [hunseen] at hseen
    exact Bool.noConfusion hseen

/-- C8 amended, witnessed at `fsC8w`: the single manifest of the library
raises on open; the pass completes leaving the catalog untouched, the loop
body skips the file while recording id `9` as seen, and the installed row
for Steam id 9 keeps `installed = true`. -/
theorem C8_open_failure_skipped_and_seen_witness :
    (∀ st, stepFile fsC8w (steamGames catC8w) (idsOf (steamGames catC8w)) st evC8w
        = .ok ⟨st.cat, insertStr (sidOf evC8w) st.seen, st.muts⟩)
    ∧ InstalledAt 1 catC8w := by
  have h := C8_open_failure_skipped_and_seen fsC8w catC8w catC8w 0
    ⟨1, "G", "g", "steam", some 9, true, "cfg"⟩ 9 evC8w
    (by decide) (by decide) (by decide) (by decide) (by decide) (by decide)
    (by decide) (by decide)
  exact h

/-! ## Claim C5 -/

theorem foldSteps_append (fs : SteamFS) (snapshot : Catalog) (ids : List String) :
    ∀ (l1 l2 : List Ev) (st : SyncSt),
    foldSteps fs snapshot ids st (l1 ++ l2)
      = foldSteps fs snapshot ids st l1 >>= fun st1 =>
          foldSteps fs snapshot ids st1 l2 := by
  intro l1
  induction l1 with
  | nil =>
      intro l2 st
      simp only [List.nil_append, foldSteps]
      rfl
  | cons e l1 ih =>
      intro l2 st
      simp only [List.cons_append, foldSteps]
      cases hc : stepFile fs snapshot ids st e with
      | error err =>
          simp only [Bind.bind, Except.bind]
      | ok st1 =>
          simp only [Bind.bind, Except.bind]
          exact ih l2 st1

theorem foldSteps_cat_preserve_mem (fs : SteamFS) (snapshot : Catalog)
    (ids : List String) (P : Catalog → Prop) :
    ∀ (evs : List Ev),
    (∀ cat muts e cm, e ∈ evs → stepFileCat fs snapshot ids cat muts e = .ok cm →
      P cat → P cm.1) →
    ∀ (st st' : SyncSt),
    foldSteps fs snapshot ids st evs = .ok st' → P st.cat → P st'.cat := by
  intro evs
  induction evs with
  | nil =>
      intro _ st st' h hP
      simp only [foldSteps] at h
      cases h
      exact hP
  | cons e evs ih =>
      intro hstep st st' h hP
      simp only [foldSteps] at h
      cases hc : stepFile fs snapshot ids st e with
      | error err =>
          rw [hc] at h
          simp only [Bind.bind, Except.bind] at h
          exact Except.noConfusion h
      | ok st1 =>
          rw [hc] at h
          simp only [Bind.bind, Except.bind] at h
          obtain ⟨cm, hcm, hparts⟩ := stepFile_parts hc
          have hP1 : P st1.cat := by
            rw [hparts]
            exact hstep _ _ _ _ (List.mem_cons_self e evs) hcm hP
          exact ih (fun c m e2 cm2 hm => hstep c m e2 cm2 (List.mem_cons_of_mem e hm))
            st1 st' h hP1

theorem noN_upsertGo {n m : Nat} (hne : m ≠ n) (nm sl rn cf : String) (newRow : Game)
    (hnew : newRow.steamid = some m) :
    ∀ c : Catalog, (∀ g ∈ c, g.steamid ≠ some n) →
    ∀ g ∈ upsertGo m nm sl rn cf newRow c, g.steamid ≠ some n := by
  intro c
  induction c with
  | nil =>
      intro _ g hg
      simp only [upsertGo, List.mem_singleton] at hg
      subst hg
      rw [hnew]
      intro h
      exact hne (Option.some.inj h)
  | cons g0 rest ih =>
      intro hall g hg
      simp only [upsertGo] at hg
      by_cases hst : g0.steamid = some m
      · rw [if_pos hst] at hg
        rcases List.mem_cons.mp hg with h | h
        · subst h
          intro hh
          exact hne (Option.some.inj hh)
        · exact hall g (List.mem_cons_of_mem _ h)
      · rw [if_neg hst] at hg
        rcases List.mem_cons.mp hg with h | h
        · subst h
          exact hall g (List.mem_cons_self _ _)
        · exact ih (fun g2 hg2 => hall g2 (List.mem_cons_of_mem _ hg2)) g h

theorem noN_upsertInstalled {n m : Nat} (hne : m ≠ n) (c : Catalog)
    (hall : ∀ g ∈ c, g.steamid ≠ some n) (nm sl rn cf : String) :
    ∀ g ∈ upsertInstalled c m nm sl rn cf, g.steamid ≠ some n :=
  noN_upsertGo hne nm sl rn cf _ rfl c hall

theorem upsertGo_append_of_noN {n : Nat} (nm sl rn cf : String) (newRow : Game) :
    ∀ c : Catalog, (∀ g ∈ c, g.steamid ≠ some n) →
    upsertGo n nm sl rn cf newRow c = c ++ [newRow] := by
  intro c
  induction c with
  | nil => intro _; rfl
  | cons g0 rest ih =>
      intro hall
      have hst : ¬ g0.steamid = some n := hall g0 (List.mem_cons_self _ _)
      simp only [upsertGo, if_neg hst, List.cons_append]
      rw [ih (fun g hg => hall g (List.mem_cons_of_mem _ hg))]

theorem filterN_nil_of_noN {n : Nat} (c : Catalog)
    (hall : ∀ g ∈ c, g.steamid ≠ some n) :
    c.filter (fun g => g.steamid = some n) = [] := by
  rw [List.filter_eq_nil_iff]
  intro g hg
  simpa using hall g hg

theorem filterN_upsertGo_other {n m : Nat} (hne : m ≠ n) (nm sl rn cf : String)
    (newRow : Game) (hnew : newRow.steamid = some m) :
    ∀ c : Catalog,
    (upsertGo m nm sl rn cf newRow c).filter (fun g => g.steamid = some n)
      = c.filter (fun g => g.steamid = some n) := by
  intro c
  induction c with
  | nil =>
      simp only [upsertGo]
      have h1 : (decide (newRow.steamid = some n)) = false := by
        rw [hnew]
        simp only [decide_eq_false_iff_not]
        intro hh
        exact hne (Option.some.inj hh)
      simp [List.filter_cons, h1]
  | cons g0 rest ih =>
      by_cases hst : g0.steamid = some m
      · simp only [upsertGo, if_pos hst]
        have h1 : (decide (({ g0 with name := nm, slug := sl, runner := rn, steamid := some m, installed := true, configpath := cf } : Game).steamid = some n)) = false := by
          simp only [decide_eq_false_iff_not]
          intro hh
          exact hne (Option.some.inj hh)
        have h2 : (decide (g0.steamid = some n)) = false := by
          rw [hst]
          simp only [decide_eq_false_iff_not]
          intro hh
          exact hne (Option.some.inj hh)
        simp only [List.filter_cons, h1, h2]
        rfl
      · simp only [upsertGo, if_neg hst, List.filter_cons, ih]

theorem filterN_upsertInstalled_other {n m : Nat} (hne : m ≠ n) (c : Catalog)
    (nm sl rn cf : String) :
    (upsertInstalled c m nm sl rn cf).filter (fun g => g.steamid = some n)
      = c.filter (fun g => g.steamid = some n) :=
  filterN_upsertGo_other hne nm sl rn cf _ rfl c

theorem filterN_updateUninstalled_nil {n : Nat} (gid : Nat) :
    ∀ c : Catalog, c.filter (fun g => g.steamid = some n) = [] →
    (updateUninstalledById c gid).filter (fun g => g.steamid = some n) = [] := by
  intro c
  induction c with
  | nil =>
      intro _
      simp [updateUninstalledById, List.filter_cons]
  | cons g0 rest ih =>
      intro h
      simp only [List.filter_cons] at h
      by_cases hd : g0.steamid = some n
      · rw [if_pos (by simpa using hd)] at h
        exact absurd h (List.cons_ne_nil _ _)
      · rw [if_neg (by simpa using hd)] at h
        simp only [updateUninstalledById]
        by_cases hid : g0.id = gid
        · rw [if_pos hid]
          simp only [List.filter_cons]
          rw [if_neg (by simpa using hd)]
          exact h
        · rw [if_neg hid]
          simp only [List.filter_cons]
          rw [if_neg (by simpa using hd)]
          exact ih h

theorem filterN_updateUninstalled {n : Nat} {r : Game} (gid : Nat) (hne : gid ≠ r.id) :
    ∀ c : Catalog, c.filter (fun g => g.steamid = some n) = [r] →
    (updateUninstalledById c gid).filter (fun g => g.steamid = some n) = [r] := by
  intro c
  induction c with
  | nil =>
      intro h
      exact absurd h.symm (List.cons_ne_nil _ _)
  | cons g0 rest ih =>
      intro h
      simp only [List.filter_cons] at h
      by_cases hd : g0.steamid = some n
      · rw [if_pos (by simpa using hd)] at h
        have hg0 : g0 = r := (List.cons.injEq _ _ _ _).mp h |>.1
        have hrest : rest.filter (fun g => g.steamid = some n) = [] :=
          ((List.cons.injEq _ _ _ _).mp h).2
        have hid : ¬ g0.id = gid := by
          rw [hg0]
          intro hh
          exact hne hh.symm
        simp only [updateUninstalledById, if_neg hid, List.filter_cons]
        rw [if_pos (by simpa using hd), hg0, filterN_updateUninstalled_nil gid rest hrest]
      · rw [if_neg (by simpa using hd)] at h
        simp only [updateUninstalledById]
        by_cases hid : g0.id = gid
        · rw [if_pos hid]
          simp only [List.filter_cons]
          rw [if_neg (by simpa using hd)]
          exact h
        · rw [if_neg hid]
          simp only [List.filter_cons]
          rw [if_neg (by simpa using hd)]
          exact ih h

theorem filterN_step4ForId {n : Nat} {r : Game} (snapshot : Catalog) (uid : String)
    (hsnap : ∀ g ∈ snapshot, g.id ≠ r.id) (acc : Catalog × Nat)
    (h : acc.1.filter (fun g => g.steamid = some n) = [r]) :
    (step4ForId snapshot uid acc).1.filter (fun g => g.steamid = some n) = [r] := by
  unfold step4ForId
  refine foldl_preserve_mem _
    (fun b => b.1.filter (fun g => g.steamid = some n) = [r]) snapshot ?_ acc h
  intro b g hg hb
  by_cases hc : ((g.steamid.map natReprStr = some uid) && g.installed
      && (g.runner = "steam" || g.runner = "winesteam")) = true
  · simp only [hc, if_true]
    exact filterN_updateUninstalled g.id (hsnap g hg) _ hb
  · simp only [hc, if_false]
    exact hb

theorem filterN_step4 {n : Nat} {r : Game} (snapshot : Catalog) (ids seen : List String)
    (cat : Catalog) (muts : Nat)
    (hsnap : ∀ g ∈ snapshot, g.id ≠ r.id)
    (h : cat.filter (fun g => g.steamid = some n) = [r]) :
    (step4 snapshot ids seen cat muts).1.filter (fun g => g.steamid = some n) = [r] := by
  unfold step4
  refine foldl_preserve _
    (fun b => b.1.filter (fun g => g.steamid = some n) = [r]) ?_ _ (cat, muts) h
  intro b uid hb
  exact filterN_step4ForId snapshot uid hsnap b hb

theorem le_foldr_max (i : Nat) : ∀ l : List Nat, i ∈ l → i ≤ l.foldr max 0 := by
  intro l
  induction l with
  | nil => intro h; cases h
  | cons a l ih =>
      intro h
      rcases List.mem_cons.mp h with h | h
      · subst h
        exact Nat.le_max_left _ _
      · exact Nat.le_trans (ih h) (Nat.le_max_right _ _)

theorem id_lt_freshId {c : Catalog} {g : Game} (h : g ∈ c) : g.id < freshId c := by
  unfold freshId
  exact Nat.lt_succ_of_le (le_foldr_max _ _ (List.mem_map_of_mem Game.id h))

theorem mem_map_id_upsertGo (m : Nat) (nm sl rn cf : String) (newRow : Game) :
    ∀ (c : Catalog) (i : Nat), i ∈ c.map Game.id →
    i ∈ (upsertGo m nm sl rn cf newRow c).map Game.id := by
  intro c
  induction c with
  | nil => intro i h; cases h
  | cons g0 rest ih =>
      intro i h
      rcases List.mem_cons.mp h with h | h
      · by_cases hst : g0.steamid = some m
        · simp only [upsertGo, if_pos hst, List.map_cons]
          exact h ▸ List.mem_cons_self _ _
        · simp only [upsertGo, if_neg hst, List.map_cons]
          exact h ▸ List.mem_cons_self _ _
      · by_cases hst : g0.steamid = some m
        · simp only [upsertGo, if_pos hst, List.map_cons]
          exact List.mem_cons_of_mem _ h
        · simp only [upsertGo, if_neg hst, List.map_cons]
          exact List.mem_cons_of_mem _ (ih i h)

theorem mem_map_id_upsertInstalled (c : Catalog) (m : Nat) (nm sl rn cf : String)
    (i : Nat) (h : i ∈ c.map Game.id) :
    i ∈ (upsertInstalled c m nm sl rn cf).map Game.id :=
  mem_map_id_upsertGo m nm sl rn cf _ c i h

/-- The new-install branch of the loop body, fully resolved: an id unknown
to the snapshot on a linux root with a readable, fully-installed manifest
and usable name and slug performs exactly one installed-upsert for the
filename's numeric id with runner `steam`. -/
theorem stepFileCat_new_install {fs : SteamFS} {snapshot : Catalog} {ids : List String}
    {cat : Catalog} {muts : Nat} {e : Ev} {data : Option Vdf} {info : GameInfo}
    (hc1 : ids.contains (sidOf e) = false) (hc2 : e.platform = Platform.linux)
    (hread : readManifestForSync fs e.rootPath e.file = .ok data)
    (hinst : isInstalledExc data = .ok true)
    (hinfo : newGameInfo data = .ok info)
    (hname : ¬ info.name = "") (hslug : ¬ info.slug = "") :
    stepFileCat fs snapshot ids cat muts e
      = .ok (upsertInstalled cat (numOf e) info.name info.slug "steam"
            (info.config_path.getD (make_game_config_id info.slug)),
          countWrite cat (upsertInstalled cat (numOf e) info.name info.slug "steam"
            (info.config_path.getD (make_game_config_id info.slug))) muts) := by
  unfold stepFileCat
  rw [if_pos ⟨by rw [hc1]; exact Bool.false_ne_true, hc2⟩, hread]
  dsimp only
  rw [hinst]
  simp only [Bind.bind, Except.bind]
  simp only [if_true]
  rw [hinfo]
  dsimp only
  unfold mark_as_installed
  rw [if_neg (by rintro (h | h); exact hname h; exact hslug h)]
  rfl

/-- C5: on a linux library root whose manifest for an id unknown to the
catalog decodes as installed, a completed pass leaves exactly one catalog
entry with that Steam id: an installed entry with runner `steam`, name and
slug from the manifest, and the configuration id the configuration store
derives from the slug.  The catalog upsert, `slugify` and
`make_game_config_id` are modelled from the spec (their sources are not in
the repository). -/
theorem C5_new_native_install
    (fs : SteamFS) (cat cat' : Catalog) (k : Nat) (n : Nat) (e0 : Ev)
    (pre post : List Ev) (data : Option Vdf) (info : GameInfo)
    (hok : sync_with_lutris fs cat = .ok (cat', k))
    (hsplit : eventsOf fs = pre ++ e0 :: post)
    (hother : ∀ e ∈ pre ++ post, numOf e ≠ n)
    (hplat : e0.platform = Platform.linux)
    (hnum : numOf e0 = n)
    (hnotin : (idsOf (steamGames cat)).contains (sidOf e0) = false)
    (hnone : ∀ g ∈ cat, g.steamid ≠ some n)
    (hread : readManifestForSync fs e0.rootPath e0.file = .ok data)
    (hinst : isInstalledExc data = .ok true)
    (hinfo : newGameInfo data = .ok info)
    (hname : ¬ info.name = "") (hslug : ¬ info.slug = "")
    (hcp : info.config_path = none) :
    ∃ r, cat'.filter (fun g => g.steamid = some n) = [r]
      ∧ r.name = info.name ∧ r.slug = info.slug ∧ r.runner = "steam"
      ∧ r.steamid = some n ∧ r.installed = true
      ∧ r.configpath = make_game_config_id info.slug := by
  obtain ⟨st, hfold, hres⟩ := sync_parts hok
  rw [hsplit, foldSteps_append] at hfold
  cases ha : foldSteps fs (steamGames cat) (idsOf (steamGames cat))
      ⟨cat, [], 0⟩ pre with
  | error err =>
      rw [ha] at hfold
      simp only [Bind.bind, Except.bind] at hfold
      exact Except.noConfusion hfold
  | ok sta =>
      rw [ha] at hfold
      simp only [Bind.bind, Except.bind, foldSteps] at hfold
      cases hb : stepFile fs (steamGames cat) (idsOf (steamGames cat)) sta e0 with
      | error err =>
          rw [hb] at hfold
          simp only [Bind.bind, Except.bind] at hfold
          exact Except.noConfusion hfold
      | ok stb =>
          rw [hb] at hfold
          simp only [Bind.bind, Except.bind] at hfold
          have hP : (∀ g ∈ sta.cat, g.steamid ≠ some n)
              ∧ (∀ i ∈ cat.map Game.id, i ∈ sta.cat.map Game.id) := by
            refine foldSteps_cat_preserve_mem fs _ _
              (fun c => (∀ g ∈ c, g.steamid ≠ some n)
                ∧ (∀ i ∈ cat.map Game.id, i ∈ c.map Game.id))
              pre ?_ _ _ ha ⟨hnone, fun i hi => hi⟩
            intro cat0 muts0 e cm hmem hcm hP0
            rcases stepFileCat_write_shape hcm with h | ⟨nm, sl, rn, cf, h⟩
            · rw [h]; exact hP0
            · rw [h]
              have hneq : numOf e ≠ n := hother e (List.mem_append_left _ hmem)
              exact ⟨noN_upsertInstalled hneq cat0 hP0.1 nm sl rn cf,
                fun i hi => mem_map_id_upsertInstalled cat0 _ nm sl rn cf i (hP0.2 i hi)⟩
          obtain ⟨cm, hcm, hpart⟩ := stepFile_parts hb
          rw [stepFileCat_new_install hnotin hplat hread hinst hinfo hname hslug] at hcm
          have hcme : cm = (upsertInstalled sta.cat (numOf e0) info.name info.slug "steam"
              (info.config_path.getD (make_game_config_id info.slug)),
            countWrite sta.cat (upsertInstalled sta.cat (numOf e0) info.name info.slug "steam"
              (info.config_path.getD (make_game_config_id info.slug))) sta.muts) :=
            ((Except.ok.injEq _ _).mp hcm).symm
          have hcfg : info.config_path.getD (make_game_config_id info.slug)
              = make_game_config_id info.slug := by rw [hcp]; rfl
          have happ : upsertInstalled sta.cat n info.name info.slug "steam"
                (make_game_config_id info.slug)
              = sta.cat ++ [⟨freshId sta.cat, info.name, info.slug, "steam", some n, true,
                  make_game_config_id info.slug⟩] :=
            upsertGo_append_of_noN info.name info.slug "steam"
              (make_game_config_id info.slug) _ sta.cat hP.1
          have hfilb : stb.cat.filter (fun g => g.steamid = some n)
              = [⟨freshId sta.cat, info.name, info.slug, "steam", some n, true,
                  make_game_config_id info.slug⟩] := by
            rw [hpart]
            show cm.1.filter (fun g => g.steamid = some n) = _
            rw [hcme]
            show (upsertInstalled sta.cat (numOf e0) info.name info.slug "steam"
              (info.config_path.getD (make_game_config_id info.slug))).filter
                (fun g => g.steamid = some n) = _
            rw [hcfg, hnum, happ, List.filter_append, filterN_nil_of_noN sta.cat hP.1]
            simp [List.filter_cons]
          have hfilst : st.cat.filter (fun g => g.steamid = some n)
              = [⟨freshId sta.cat, info.name, info.slug, "steam", some n, true,
                  make_game_config_id info.slug⟩] := by
            refine foldSteps_cat_preserve_mem fs _ _
              (fun c => c.filter (fun g => g.steamid = some n)
                = [⟨freshId sta.cat, info.name, info.slug, "steam", some n, true,
                    make_game_config_id info.slug⟩])
              post ?_ _ _ hfold hfilb
            intro cat0 muts0 e cm2 hmem hcm2 hP0
            rcases stepFileCat_write_shape hcm2 with h | ⟨nm, sl, rn, cf, h⟩
            · rw [h]; exact hP0
            · rw [h]
              have hneq : numOf e ≠ n := hother e (List.mem_append_right _ hmem)
              rw [filterN_upsertInstalled_other hneq cat0 nm sl rn cf]
              exact hP0
          have hsnapne : ∀ g ∈ steamGames cat,
              g.id ≠ (⟨freshId sta.cat, info.name, info.slug, "steam", some n, true,
                  make_game_config_id info.slug⟩ : Game).id := by
            intro g hg
            have hi : g.id ∈ sta.cat.map Game.id :=
              hP.2 g.id (List.mem_map_of_mem Game.id (snapshot_sub hg))
            obtain ⟨g2, hg2, hid2⟩ := List.mem_map.mp hi
            show g.id ≠ freshId sta.cat
            rw [← hid2]
            exact Nat.ne_of_lt (id_lt_freshId hg2)
          have hcat' : cat' = (step4 (steamGames cat) (idsOf (steamGames cat)) st.seen
              st.cat st.muts).1 := congrArg Prod.fst hres
          refine ⟨⟨freshId sta.cat, info.name, info.slug, "steam", some n, true,
              make_game_config_id info.slug⟩, ?_, rfl, rfl, rfl, rfl, rfl, rfl⟩
          rw [hcat']
          exact filterN_step4 _ _ _ _ _ hsnapne hfilst

/-- C5, witnessed at `fsC5`: syncing the empty catalog against one linux
root holding the fully-installed manifest `appmanifest_77.acf` (name
`Good Game`) leaves exactly one entry with Steam id 77 — installed, runner
`steam`, name `Good Game`, slug `good-game`, configuration id
`good-game-config`. -/
theorem C5_new_native_install_witness :
    ∃ r, ([⟨1, "Good Game", "good-game", "steam", some 77, true,
          "good-game-config"⟩] : Catalog).filter (fun g => g.steamid = some 77) = [r]
      ∧ r.name = "Good Game" ∧ r.slug = "good-game" ∧ r.runner = "steam"
      ∧ r.steamid = some 77 ∧ r.installed = true
      ∧ r.configpath = make_game_config_id "good-game" := by
  exact C5_new_native_install fsC5 []
    [⟨1, "Good Game", "good-game", "steam", some 77, true, "good-game-config"⟩] 1 77
    evC5 [] [] (some (vdf_parse (linesOf acfGoodGame) Vdf.nil))
    ⟨"Good Game", "good-game", none⟩
    (by decide) (by decide) (by decide) (by decide) (by decide) (by decide)
    (by decide) (by decide) (by decide) (by decide) (by decide) (by decide)
    (by decide)

/-! ## Claim C4 -/

theorem digitsToNat_append (xs : List Char) (c : Char) :
    digitsToNat (xs ++ [c]) = digitsToNat xs * 10 + (c.toNat - '0'.toNat) := by
  unfold digitsToNat
  rw [List.foldl_append]
  rfl

theorem charDigit_toNat (m : Nat) (h : m < 10) : (Char.ofNat (48 + m)).toNat = 48 + m := by
  have hm : m = 0 ∨ m = 1 ∨ m = 2 ∨ m = 3 ∨ m = 4 ∨ m = 5 ∨ m = 6 ∨ m = 7 ∨ m = 8
      ∨ m = 9 := by omega
  rcases hm with h | h | h | h | h | h | h | h | h | h <;> rw [h] <;> decide

theorem digitsToNat_natReprAux : ∀ fuel n, n < fuel → digitsToNat (natReprAux fuel n) = n := by
  intro fuel
  induction fuel with
  | zero => intro n h; exact absurd h (Nat.not_lt_zero n)
  | succ fuel ih =>
      intro n h
      by_cases h10 : n < 10
      · simp only [natReprAux, if_pos h10]
        show digitsToNat ([] ++ [Char.ofNat (48 + n)]) = n
        rw [digitsToNat_append, charDigit_toNat n h10]
        show 0 * 10 + (48 + n - '0'.toNat) = n
        have h0 : '0'.toNat = 48 := by decide
        omega
      · simp only [natReprAux, if_neg h10]
        have hdiv : n / 10 < n := Nat.div_lt_self (by omega) (by omega)
        rw [digitsToNat_append, ih (n / 10) (by omega),
          charDigit_toNat (n % 10) (Nat.mod_lt _ (by omega))]
        have h0 : '0'.toNat = 48 := by decide
        have hdm := Nat.div_add_mod n 10
        omega

theorem digitsToNat_natRepr (n : Nat) : digitsToNat (natRepr n) = n :=
  digitsToNat_natReprAux (n + 1) n (Nat.lt_succ_self n)

theorem natReprStr_inj {a b : Nat} (h : natReprStr a = natReprStr b) : a = b := by
  unfold natReprStr at h
  have hl : natRepr a = natRepr b := by
    have := congrArg String.toList h
    simpa using this
  have := congrArg digitsToNat hl
  rwa [digitsToNat_natRepr, digitsToNat_natRepr] at this

/-- Two rows carrying the same Steam id are the same row when the catalog's
Steam ids are duplicate-free. -/
theorem unique_sid {c : Catalog} (hnd : (c.filterMap Game.steamid).Nodup)
    {a b : Game} {n : Nat} (ha : a ∈ c) (hb : b ∈ c)
    (hna : a.steamid = some n) (hnb : b.steamid = some n) : a = b := by
  induction c with
  | nil => cases ha
  | cons g rest ih =>
      have hnd' : (rest.filterMap Game.steamid).Nodup := by
        rcases hg : g.steamid with _ | m
        · rw [List.filterMap_cons_none hg] at hnd
          exact hnd
        · rw [List.filterMap_cons_some hg] at hnd
          exact (List.nodup_cons.mp hnd).2
      rcases List.mem_cons.mp ha with h1 | h1 <;> rcases List.mem_cons.mp hb with h2 | h2
      · rw [h1, h2]
      · subst h1
        exfalso
        have hmem : n ∈ rest.filterMap Game.steamid :=
          List.mem_filterMap.mpr ⟨b, h2, hnb⟩
        rw [List.filterMap_cons_some hna] at hnd
        exact (List.nodup_cons.mp hnd).1 hmem
      · subst h2
        exfalso
        have hmem : n ∈ rest.filterMap Game.steamid :=
          List.mem_filterMap.mpr ⟨a, h1, hna⟩
        rw [List.filterMap_cons_some hnb] at hnd
        exact (List.nodup_cons.mp hnd).1 hmem
      · exact ih hnd' h1 h2

theorem sid_surv_upsertGo (m : Nat) (nm sl rn cf : String) (newRow : Game) :
    ∀ c : Catalog, ∀ r ∈ c, ∃ r2 ∈ upsertGo m nm sl rn cf newRow c,
      r2.steamid = r.steamid ∧ r2.id = r.id := by
  intro c
  induction c with
  | nil => intro r h; cases h
  | cons g0 rest ih =>
      intro r hr
      by_cases hst : g0.steamid = some m
      · simp only [upsertGo, if_pos hst]
        rcases List.mem_cons.mp hr with h | h
        · subst h
          exact ⟨_, List.mem_cons_self _ _, by rw [hst], rfl⟩
        · exact ⟨r, List.mem_cons_of_mem _ h, rfl, rfl⟩
      · simp only [upsertGo, if_neg hst]
        rcases List.mem_cons.mp hr with h | h
        · subst h
          exact ⟨r, List.mem_cons_self _ _, rfl, rfl⟩
        · obtain ⟨r2, hr2, he⟩ := ih r h
          exact ⟨r2, List.mem_cons_of_mem _ hr2, he⟩

theorem sid_surv_upd (gid : Nat) :
    ∀ c : Catalog, ∀ r ∈ c, ∃ r2 ∈ updateUninstalledById c gid,
      r2.steamid = r.steamid ∧ r2.id = r.id := by
  intro c
  induction c with
  | nil => intro r h; cases h
  | cons g0 rest ih =>
      intro r hr
      by_cases hb : g0.id = gid
      · simp only [updateUninstalledById, if_pos hb]
        rcases List.mem_cons.mp hr with h | h
        · subst h
          exact ⟨_, List.mem_cons_self _ _, rfl, rfl⟩
        · exact ⟨r, List.mem_cons_of_mem _ h, rfl, rfl⟩
      · simp only [updateUninstalledById, if_neg hb]
        rcases List.mem_cons.mp hr with h | h
        · subst h
          exact ⟨r, List.mem_cons_self _ _, rfl, rfl⟩
        · obtain ⟨r2, hr2, he⟩ := ih r h
          exact ⟨r2, List.mem_cons_of_mem _ hr2, he⟩

theorem mem_upsertGo_strong (m : Nat) (nm sl rn cf : String) (newRow : Game) :
    ∀ c : Catalog, ∀ g ∈ upsertGo m nm sl rn cf newRow c,
      g ∈ c ∨ (∃ g2 ∈ c, g.id = g2.id ∧ g.steamid = g2.steamid
        ∧ g.steamid = some m ∧ g.installed = true) ∨ g = newRow := by
  intro c
  induction c with
  | nil =>
      intro g hg
      simp only [upsertGo, List.mem_singleton] at hg
      exact Or.inr (Or.inr hg)
  | cons g0 rest ih =>
      intro g hg
      by_cases hst : g0.steamid = some m
      · simp only [upsertGo, if_pos hst] at hg
        rcases List.mem_cons.mp hg with h | h
        · subst h
          exact Or.inr (Or.inl ⟨g0, List.mem_cons_self _ _, rfl, by rw [hst], rfl, rfl⟩)
        · exact Or.inl (List.mem_cons_of_mem _ h)
      · simp only [upsertGo, if_neg hst] at hg
        rcases List.mem_cons.mp hg with h | h
        · subst h
          exact Or.inl (List.mem_cons_self _ _)
        · rcases ih g h with h2 | h2 | h2
          · exact Or.inl (List.mem_cons_of_mem _ h2)
          · obtain ⟨g2, hg2, he⟩ := h2
            exact Or.inr (Or.inl ⟨g2, List.mem_cons_of_mem _ hg2, he⟩)
          · exact Or.inr (Or.inr h2)

theorem mem_upsertGo_of_ne (m : Nat) (nm sl rn cf : String) (newRow : Game) :
    ∀ c : Catalog, ∀ r ∈ c, r.steamid ≠ some m →
    r ∈ upsertGo m nm sl rn cf newRow c := by
  intro c
  induction c with
  | nil => intro r h; cases h
  | cons g0 rest ih =>
      intro r hr hne
      by_cases hst : g0.steamid = some m
      · simp only [upsertGo, if_pos hst]
        rcases List.mem_cons.mp hr with h | h
        · exact absurd (h ▸ hst) hne
        · exact List.mem_cons_of_mem _ h
      · simp only [upsertGo, if_neg hst]
        rcases List.mem_cons.mp hr with h | h
        · exact h ▸ List.mem_cons_self _ _
        · exact List.mem_cons_of_mem _ (ih r h hne)

theorem mem_upd_of_id_ne (gid : Nat) :
    ∀ c : Catalog, ∀ r ∈ c, r.id ≠ gid → r ∈ updateUninstalledById c gid := by
  intro c
  induction c with
  | nil => intro r h; cases h
  | cons g0 rest ih =>
      intro r hr hne
      by_cases hb : g0.id = gid
      · simp only [updateUninstalledById, if_pos hb]
        rcases List.mem_cons.mp hr with h | h
        · exact absurd (h ▸ hb) hne
        · exact List.mem_cons_of_mem _ h
      · simp only [updateUninstalledById, if_neg hb]
        rcases List.mem_cons.mp hr with h | h
        · exact h ▸ List.mem_cons_self _ _
        · exact List.mem_cons_of_mem _ (ih r h hne)

theorem mem_upd (gid : Nat) :
    ∀ c : Catalog, ∀ g ∈ updateUninstalledById c gid,
      g ∈ c ∨ (∃ g2 ∈ c, g.id = g2.id ∧ g.steamid = g2.steamid
        ∧ g2.id = gid ∧ g.installed = false)
      ∨ g = (⟨gid, "", "", "", none, false, ""⟩ : Game) := by
  intro c
  induction c with
  | nil =>
      intro g hg
      simp only [updateUninstalledById, List.mem_singleton] at hg
      exact Or.inr (Or.inr hg)
  | cons g0 rest ih =>
      intro g hg
      by_cases hb : g0.id = gid
      · simp only [updateUninstalledById, if_pos hb] at hg
        rcases List.mem_cons.mp hg with h | h
        · subst h
          exact Or.inr (Or.inl ⟨g0, List.mem_cons_self _ _, rfl, rfl, hb, rfl⟩)
        · exact Or.inl (List.mem_cons_of_mem _ h)
      · simp only [updateUninstalledById, if_neg hb] at hg
        rcases List.mem_cons.mp hg with h | h
        · subst h
          exact Or.inl (List.mem_cons_self _ _)
        · rcases ih g h with h2 | h2 | h2
          · exact Or.inl (List.mem_cons_of_mem _ h2)
          · obtain ⟨g2, hg2, he⟩ := h2
            exact Or.inr (Or.inl ⟨g2, List.mem_cons_of_mem _ hg2, he⟩)
          · exact Or.inr (Or.inr h2)

theorem freshId_not_mem (c : Catalog) : freshId c ∉ c.map Game.id := by
  intro h
  obtain ⟨g, hg, he⟩ := List.mem_map.mp h
  exact absurd (he ▸ id_lt_freshId hg) (Nat.lt_irrefl _)

theorem mem_of_mem_dedupFirstAux :
    ∀ (l acc : List String) (x : String), x ∈ dedupFirstAux acc l → x ∈ l := by
  intro l
  induction l with
  | nil => intro acc x h; cases h
  | cons y rest ih =>
      intro acc x h
      simp only [dedupFirstAux] at h
      by_cases hy : acc.contains y = true
      · rw [if_pos hy] at h
        exact List.mem_cons_of_mem _ (ih _ x h)
      · rw [if_neg hy] at h
        rcases List.mem_cons.mp h with h2 | h2
        · exact h2 ▸ List.mem_cons_self _ _
        · exact List.mem_cons_of_mem _ (ih _ x h2)

theorem mem_of_mem_dedupFirst {l : List String} {x : String}
    (h : x ∈ dedupFirst l) : x ∈ l :=
  mem_of_mem_dedupFirstAux l [] x h

theorem upsertGo_shape (m : Nat) (nm sl rn cf : String) (newRow : Game) :
    ∀ c : Catalog,
    ((upsertGo m nm sl rn cf newRow c).map Game.id = c.map Game.id
      ∧ (upsertGo m nm sl rn cf newRow c).filterMap Game.steamid
        = c.filterMap Game.steamid)
    ∨ ((∀ g ∈ c, g.steamid ≠ some m)
      ∧ upsertGo m nm sl rn cf newRow c = c ++ [newRow]) := by
  intro c
  induction c with
  | nil => exact Or.inr ⟨fun g h => absurd h (List.not_mem_nil g), rfl⟩
  | cons g0 rest ih =>
      by_cases hst : g0.steamid = some m
      · refine Or.inl ⟨?_, ?_⟩
        · simp only [upsertGo, if_pos hst, List.map_cons]
        · simp only [upsertGo, if_pos hst]
          rw [List.filterMap_cons_some (show Game.steamid
              { g0 with name := nm, slug := sl, runner := rn, steamid := some m, installed := true, configpath := cf } = some m from rfl),
            List.filterMap_cons_some hst]
      · rcases ih with ⟨h1, h2⟩ | ⟨hno, happ⟩
        · refine Or.inl ⟨?_, ?_⟩
          · simp only [upsertGo, if_neg hst, List.map_cons, h1]
          · simp only [upsertGo, if_neg hst]
            rcases hg0 : g0.steamid with _ | m0
            · rw [List.filterMap_cons_none hg0, List.filterMap_cons_none hg0, h2]
            · rw [List.filterMap_cons_some hg0, List.filterMap_cons_some hg0, h2]
        · refine Or.inr ⟨?_, ?_⟩
          · intro g hg
            rcases List.mem_cons.mp hg with h | h
            · exact h ▸ hst
            · exact hno g h
          · simp only [upsertGo, if_neg hst, happ, List.cons_append]

theorem upd_map_id_of_mem (gid : Nat) :
    ∀ c : Catalog, gid ∈ c.map Game.id →
    (updateUninstalledById c gid).map Game.id = c.map Game.id := by
  intro c
  induction c with
  | nil => intro h; cases h
  | cons g0 rest ih =>
      intro h
      by_cases hb : g0.id = gid
      · simp only [updateUninstalledById, if_pos hb, List.map_cons]
      · simp only [List.map_cons] at h
        rcases List.mem_cons.mp h with h2 | h2
        · exact absurd h2.symm hb
        · simp only [updateUninstalledById, if_neg hb, List.map_cons, ih h2]

theorem upd_filterMap_sid (gid : Nat) :
    ∀ c : Catalog, (updateUninstalledById c gid).filterMap Game.steamid
      = c.filterMap Game.steamid := by
  intro c
  induction c with
  | nil => rfl
  | cons g0 rest ih =>
      by_cases hb : g0.id = gid
      · simp only [updateUninstalledById, if_pos hb]
        rfl
      · simp only [updateUninstalledById, if_neg hb, List.filterMap_cons, ih]

theorem mem_upd_of_mem (gid : Nat) :
    ∀ c : Catalog, gid ∈ c.map Game.id → ∀ g ∈ updateUninstalledById c gid,
      g ∈ c ∨ (∃ g2 ∈ c, g.id = g2.id ∧ g.steamid = g2.steamid
        ∧ g2.id = gid ∧ g.installed = false) := by
  intro c
  induction c with
  | nil => intro h; cases h
  | cons g0 rest ih =>
      intro hmem g hg
      by_cases hb : g0.id = gid
      · simp only [updateUninstalledById, if_pos hb] at hg
        rcases List.mem_cons.mp hg with h | h
        · subst h
          exact Or.inr ⟨g0, List.mem_cons_self _ _, rfl, rfl, hb, rfl⟩
        · exact Or.inl (List.mem_cons_of_mem _ h)
      · simp only [updateUninstalledById, if_neg hb] at hg
        have hmem2 : gid ∈ rest.map Game.id := by
          simp only [List.map_cons] at hmem
          rcases List.mem_cons.mp hmem with h2 | h2
          · exact absurd h2.symm hb
          · exact h2
        rcases List.mem_cons.mp hg with h | h
        · exact Or.inl (h ▸ List.mem_cons_self _ _)
        · rcases ih hmem2 g h with h2 | h2
          · exact Or.inl (List.mem_cons_of_mem _ h2)
          · obtain ⟨g2, hg2, he⟩ := h2
            exact Or.inr ⟨g2, List.mem_cons_of_mem _ hg2, he⟩

theorem SyncInv_upsertInstalled {cat : Catalog} {ids1 sevs : List String} {c : Catalog}
    (hI : SyncInv cat ids1 sevs c) {m : Nat}
    (hm : sevs.contains (natReprStr m) = true) (nm sl rn cf : String) :
    SyncInv cat ids1 sevs (upsertInstalled c m nm sl rn cf) := by
  obtain ⟨I1, I2, I3, I4, I5, I6⟩ := hI
  unfold upsertInstalled
  rcases upsertGo_shape m nm sl rn cf ⟨freshId c, nm, sl, rn, some m, true, cf⟩ c
    with ⟨hmap, hfm⟩ | ⟨hno, happ⟩
  · refine ⟨hfm ▸ I1, hmap ▸ I2, fun i hi => hmap ▸ I3 i hi, ?_, ?_, ?_⟩
    · intro r hr r0 hr0 hid
      rcases mem_upsertGo_strong m nm sl rn cf _ c r hr with h | h | h
      · exact I4 r h r0 hr0 hid
      · obtain ⟨g2, hg2, hid2, hsid2, _, _⟩ := h
        rw [hsid2]
        exact I4 g2 hg2 r0 hr0 (hid2 ▸ hid)
      · exfalso
        have : r0.id ∈ c.map Game.id := I3 r0.id (List.mem_map_of_mem Game.id hr0)
        rw [← hid, h] at this
        exact freshId_not_mem c this
    · intro r hr m2 hm2 hcon
      rcases mem_upsertGo_strong m nm sl rn cf _ c r hr with h | h | h
      · exact I5 r h m2 hm2 hcon
      · obtain ⟨_, _, _, _, _, hi⟩ := h
        exact hi
      · rw [h]
    · intro r hr hnid
      rcases mem_upsertGo_strong m nm sl rn cf _ c r hr with h | h | h
      · exact I6 r h hnid
      · obtain ⟨g2, hg2, hid2, hsid2, _, _⟩ := h
        obtain ⟨m2, hm2, hs2⟩ := I6 g2 hg2 (hid2 ▸ hnid)
        exact ⟨m2, hsid2 ▸ hm2, hs2⟩
      · exact ⟨m, h ▸ rfl, hm⟩
  · rw [happ]
    have hfm : (c ++ [(⟨freshId c, nm, sl, rn, some m, true, cf⟩ : Game)]).filterMap
        Game.steamid = c.filterMap Game.steamid ++ [m] := by
      rw [List.filterMap_append]
      rfl
    have hmap : (c ++ [(⟨freshId c, nm, sl, rn, some m, true, cf⟩ : Game)]).map
        Game.id = c.map Game.id ++ [freshId c] := by
      rw [List.map_append]
      rfl
    refine ⟨?_, ?_, ?_, ?_, ?_, ?_⟩
    · rw [hfm, List.nodup_append]
      refine ⟨I1, List.nodup_singleton m, ?_⟩
      intro x hx hx2
      rw [List.mem_singleton] at hx2
      subst hx2
      obtain ⟨g, hg, hgm⟩ := List.mem_filterMap.mp hx
      exact hno g hg hgm
    · rw [hmap, List.nodup_append]
      refine ⟨I2, List.nodup_singleton _, ?_⟩
      intro x hx hx2
      rw [List.mem_singleton] at hx2
      subst hx2
      exact freshId_not_mem c hx
    · intro i hi
      rw [hmap]
      exact List.mem_append_left _ (I3 i hi)
    · intro r hr r0 hr0 hid
      rcases List.mem_append.mp hr with h | h
      · exact I4 r h r0 hr0 hid
      · rw [List.mem_singleton] at h
        exfalso
        have : r0.id ∈ c.map Game.id := I3 r0.id (List.mem_map_of_mem Game.id hr0)
        rw [← hid, h] at this
        exact freshId_not_mem c this
    · intro r hr m2 hm2 hcon
      rcases List.mem_append.mp hr with h | h
      · exact I5 r h m2 hm2 hcon
      · rw [List.mem_singleton] at h
        rw [h]
    · intro r hr hnid
      rcases List.mem_append.mp hr with h | h
      · exact I6 r h hnid
      · rw [List.mem_singleton] at h
        exact ⟨m, h ▸ rfl, hm⟩

theorem SyncInv_upd {cat : Catalog} {ids1 sevs : List String} {c : Catalog}
    (hI : SyncInv cat ids1 sevs c) {gid : Nat}
    (hgid : gid ∈ c.map Game.id)
    (hseen : ∀ g2 ∈ c, g2.id = gid →
      ∃ m, g2.steamid = some m ∧ ids1.contains (natReprStr m) = true) :
    SyncInv cat ids1 sevs (updateUninstalledById c gid) := by
  obtain ⟨I1, I2, I3, I4, I5, I6⟩ := hI
  refine ⟨upd_filterMap_sid gid c ▸ I1, upd_map_id_of_mem gid c hgid ▸ I2,
    fun i hi => upd_map_id_of_mem gid c hgid ▸ I3 i hi, ?_, ?_, ?_⟩
  · intro r hr r0 hr0 hid
    rcases mem_upd_of_mem gid c hgid r hr with h | h
    · exact I4 r h r0 hr0 hid
    · obtain ⟨g2, hg2, hid2, hsid2, _, _⟩ := h
      rw [hsid2]
      exact I4 g2 hg2 r0 hr0 (hid2 ▸ hid)
  · intro r hr m2 hm2 hcon
    rcases mem_upd_of_mem gid c hgid r hr with h | h
    · exact I5 r h m2 hm2 hcon
    · exfalso
      obtain ⟨g2, hg2, _, hsid2, hg2id, _⟩ := h
      obtain ⟨m3, hm3, hc3⟩ := hseen g2 hg2 hg2id
      rw [hsid2] at hm2
      rw [hm2] at hm3
      have hm23 : m2 = m3 := Option.some.inj hm3
      rw [← hm23, hcon] at hc3
      exact Bool.noConfusion hc3
  · intro r hr hnid
    rcases mem_upd_of_mem gid c hgid r hr with h | h
    · exact I6 r h hnid
    · obtain ⟨g2, hg2, hid2, hsid2, _, _⟩ := h
      obtain ⟨m2, hm2, hs2⟩ := I6 g2 hg2 (hid2 ▸ hnid)
      exact ⟨m2, hsid2 ▸ hm2, hs2⟩

theorem step4_preserve (snapshot : Catalog) (ids seen : List String) (P : Catalog → Prop)
    (hstep : ∀ c uid g, uid ∈ (dedupFirst ids).filter (fun i => ¬ seen.contains i) →
      g ∈ snapshot →
      ((g.steamid.map natReprStr = some uid) && g.installed
        && (g.runner = "steam" || g.runner = "winesteam")) = true →
      P c → P (updateUninstalledById c g.id)) :
    ∀ (cat : Catalog) (muts : Nat), P cat → P (step4 snapshot ids seen cat muts).1 := by
  intro cat muts hP
  unfold step4
  refine foldl_preserve_mem _ (fun b => P b.1) _ ?_ (cat, muts) hP
  intro b uid huid hb
  unfold step4ForId
  refine foldl_preserve_mem _ (fun b2 => P b2.1) _ ?_ b hb
  intro b2 g hg hb2
  by_cases hc : ((g.steamid.map natReprStr = some uid) && g.installed
      && (g.runner = "steam" || g.runner = "winesteam")) = true
  · simp only [hc, if_true]
    exact hstep b2.1 uid g huid hg hc hb2
  · simp only [hc, if_false]
    exact hb2

theorem AllInst_upsertGo (n m : Nat) (nm sl rn cf : String) (newRow : Game)
    (hnew : newRow.installed = true) (c : Catalog)
    (h : ∀ g ∈ c, g.steamid = some n → g.installed = true) :
    ∀ g ∈ upsertGo m nm sl rn cf newRow c, g.steamid = some n → g.installed = true := by
  intro g hg hgn
  rcases mem_upsertGo_strong m nm sl rn cf newRow c g hg with h1 | h1 | h1
  · exact h g h1 hgn
  · obtain ⟨_, _, _, _, _, hi⟩ := h1
    exact hi
  · rw [h1]
    exact hnew

theorem AllInst_upsert_self (n : Nat) (nm sl rn cf : String) (newRow : Game)
    (hnewi : newRow.installed = true) :
    ∀ c : Catalog, (c.filterMap Game.steamid).Nodup →
    ∀ g ∈ upsertGo n nm sl rn cf newRow c, g.steamid = some n → g.installed = true := by
  intro c
  induction c with
  | nil =>
      intro _ g hg _
      simp only [upsertGo, List.mem_singleton] at hg
      rw [hg]
      exact hnewi
  | cons g0 rest ih =>
      intro hnd g hg hn
      by_cases hst : g0.steamid = some n
      · simp only [upsertGo, if_pos hst] at hg
        rcases List.mem_cons.mp hg with h | h
        · rw [h]
        · exfalso
          rw [List.filterMap_cons_some hst] at hnd
          exact (List.nodup_cons.mp hnd).1 (List.mem_filterMap.mpr ⟨g, h, hn⟩)
      · simp only [upsertGo, if_neg hst] at hg
        rcases List.mem_cons.mp hg with h | h
        · exact absurd (h ▸ hn) hst
        · have hnd' : (rest.filterMap Game.steamid).Nodup := by
            rcases hg0 : g0.steamid with _ | m0
            · rw [List.filterMap_cons_none hg0] at hnd
              exact hnd
            · rw [List.filterMap_cons_some hg0] at hnd
              exact (List.nodup_cons.mp hnd).2
          exact ih hnd' g h hn

theorem AllInst_upd_frame (n gid : Nat) (c : Catalog)
    (hfr : ∀ g2 ∈ c, g2.id = gid → g2.steamid ≠ some n)
    (h : ∀ g ∈ c, g.steamid = some n → g.installed = true) :
    ∀ g ∈ updateUninstalledById c gid, g.steamid = some n → g.installed = true := by
  intro g hg hn
  rcases mem_upd gid c g hg with h1 | h1 | h1
  · exact h g h1 hn
  · obtain ⟨g2, hg2, _, hsid, hgid, _⟩ := h1
    exact absurd (by rw [← hsid]; exact hn) (hfr g2 hg2 hgid)
  · rw [h1] at hn
    exact Option.noConfusion hn

theorem stepFileCat_read_error {fs : SteamFS} {e : Ev}
    (hread : readManifestForSync fs e.rootPath e.file = .error ())
    (snapshot : Catalog) (ids : List String) (cat : Catalog) (muts : Nat) :
    stepFileCat fs snapshot ids cat muts e = .ok (cat, muts) := by
  unfold stepFileCat
  rw [hread]
  split
  · rfl
  · cases hfind : snapshot.find?
        (fun g => (g.steamid.map natReprStr = some (sidOf e)) && !g.installed) with
    | none => rfl
    | some g => rfl

theorem stepFileCat_else_none {fs : SteamFS} {snapshot : Catalog} {ids : List String}
    {e : Ev}
    (hcond : ¬ (¬ ids.contains (sidOf e) = true ∧ e.platform = Platform.linux))
    (hfind : snapshot.find?
        (fun g => (g.steamid.map natReprStr = some (sidOf e)) && !g.installed) = none)
    (cat : Catalog) (muts : Nat) :
    stepFileCat fs snapshot ids cat muts e = .ok (cat, muts) := by
  unfold stepFileCat
  rw [if_neg hcond, hfind]

theorem stepFileCat_else_instfalse {fs : SteamFS} {snapshot : Catalog}
    {ids : List String} {e : Ev} {g : Game} {data : Option Vdf}
    (hcond : ¬ (¬ ids.contains (sidOf e) = true ∧ e.platform = Platform.linux))
    (hfind : snapshot.find?
        (fun g => (g.steamid.map natReprStr = some (sidOf e)) && !g.installed) = some g)
    (hread : readManifestForSync fs e.rootPath e.file = .ok data)
    (hinst : isInstalledExc data = .ok false)
    (cat : Catalog) (muts : Nat) :
    stepFileCat fs snapshot ids cat muts e = .ok (cat, muts) := by
  unfold stepFileCat
  rw [if_neg hcond, hfind, hread]
  dsimp only
  rw [hinst]
  simp only [Bind.bind, Except.bind]
  rw [if_neg Bool.false_ne_true]

theorem stepFileCat_install_instfalse {fs : SteamFS} {snapshot : Catalog}
    {ids : List String} {e : Ev} {data : Option Vdf}
    (hc1 : ids.contains (sidOf e) = false) (hc2 : e.platform = Platform.linux)
    (hread : readManifestForSync fs e.rootPath e.file = .ok data)
    (hinst : isInstalledExc data = .ok false)
    (cat : Catalog) (muts : Nat) :
    stepFileCat fs snapshot ids cat muts e = .ok (cat, muts) := by
  unfold stepFileCat
  rw [if_pos ⟨by rw [hc1]; exact Bool.false_ne_true, hc2⟩, hread]
  dsimp only
  rw [hinst]
  simp only [Bind.bind, Except.bind]
  rw [if_neg Bool.false_ne_true]

theorem stepFileCat_install_inv {fs : SteamFS} {snapshot : Catalog} {ids : List String}
    {cat : Catalog} {muts : Nat} {e : Ev} {data : Option Vdf} {cm : Catalog × Nat}
    (hc1 : ids.contains (sidOf e) = false) (hc2 : e.platform = Platform.linux)
    (hread : readManifestForSync fs e.rootPath e.file = .ok data)
    (h : stepFileCat fs snapshot ids cat muts e = .ok cm) :
    ∃ b, isInstalledExc data = .ok b
      ∧ (b = true → ∃ info, newGameInfo data = .ok info
        ∧ cm.1 = upsertInstalled cat (numOf e) info.name info.slug "steam"
            (info.config_path.getD (make_game_config_id info.slug))) := by
  unfold stepFileCat at h
  rw [if_pos ⟨by rw [hc1]; exact Bool.false_ne_true, hc2⟩, hread] at h
  dsimp only at h
  cases hinst : isInstalledExc data with
  | error err =>
      rw [hinst] at h
      simp only [Bind.bind, Except.bind] at h
      exact Except.noConfusion h
  | ok b =>
      rw [hinst] at h
      simp only [Bind.bind, Except.bind] at h
      refine ⟨b, rfl, ?_⟩
      intro hb
      subst hb
      rw [if_pos rfl] at h
      cases hinfo : newGameInfo data with
      | error err =>
          rw [hinfo] at h
          simp only [Bind.bind, Except.bind] at h
          exact Except.noConfusion h
      | ok info =>
          rw [hinfo] at h
          simp only [Bind.bind, Except.bind] at h
          cases hmi : mark_as_installed cat (firstDigitRun e.file.toList)
              "steam" info with
          | error err =>
              rw [hmi] at h
              exact Except.noConfusion h
          | ok cat2 =>
              rw [hmi] at h
              cases h
              refine ⟨info, rfl, ?_⟩
              unfold mark_as_installed at hmi
              split at hmi
              · exact Except.noConfusion hmi
              · cases hmi
                rfl

theorem stepFileCat_else_inv {fs : SteamFS} {snapshot : Catalog} {ids : List String}
    {cat : Catalog} {muts : Nat} {e : Ev} {g : Game} {data : Option Vdf}
    {cm : Catalog × Nat}
    (hcond : ¬ (¬ ids.contains (sidOf e) = true ∧ e.platform = Platform.linux))
    (hfind : snapshot.find?
        (fun g => (g.steamid.map natReprStr = some (sidOf e)) && !g.installed) = some g)
    (hread : readManifestForSync fs e.rootPath e.file = .ok data)
    (h : stepFileCat fs snapshot ids cat muts e = .ok cm) :
    ∃ b, isInstalledExc data = .ok b
      ∧ (b = true → ∃ rn, cm.1 = upsertInstalled cat (numOf e) g.name g.slug rn
          (make_game_config_id g.slug)) := by
  unfold stepFileCat at h
  rw [if_neg hcond, hfind, hread] at h
  dsimp only at h
  cases hinst : isInstalledExc data with
  | error err =>
      rw [hinst] at h
      simp only [Bind.bind, Except.bind] at h
      exact Except.noConfusion h
  | ok b =>
      rw [hinst] at h
      simp only [Bind.bind, Except.bind] at h
      refine ⟨b, rfl, ?_⟩
      intro hb
      subst hb
      rw [if_pos rfl] at h
      cases hrn : getRunnerName fs (pathJoin e.rootPath e.file) with
      | error err =>
          rw [hrn] at h
          simp only [Bind.bind, Except.bind] at h
          exact Except.noConfusion h
      | ok rn =>
          rw [hrn] at h
          simp only [Bind.bind, Except.bind] at h
          cases hmi : mark_as_installed cat (firstDigitRun e.file.toList) rn
              ⟨g.name, g.slug, none⟩ with
          | error err =>
              rw [hmi] at h
              exact Except.noConfusion h
          | ok cat2 =>
              rw [hmi] at h
              cases h
              refine ⟨rn, ?_⟩
              unfold mark_as_installed at hmi
              split at hmi
              · exact Except.noConfusion hmi
              · cases hmi
                rfl

theorem foldSteps_split_at (fs : SteamFS) (snapshot : Catalog) (ids : List String)
    {evs : List Ev} {e : Ev} (he : e ∈ evs) {st st' : SyncSt}
    (h : foldSteps fs snapshot ids st evs = .ok st') :
    ∃ pre post sta stb, evs = pre ++ e :: post
      ∧ foldSteps fs snapshot ids st pre = .ok sta
      ∧ stepFile fs snapshot ids sta e = .ok stb
      ∧ foldSteps fs snapshot ids stb post = .ok st' := by
  obtain ⟨pre, post, hsplit⟩ := List.append_of_mem he
  subst hsplit
  rw [foldSteps_append] at h
  cases ha : foldSteps fs snapshot ids st pre with
  | error err =>
      rw [ha] at h
      simp only [Bind.bind, Except.bind] at h
      exact Except.noConfusion h
  | ok sta =>
      rw [ha] at h
      simp only [Bind.bind, Except.bind, foldSteps] at h
      cases hb : stepFile fs snapshot ids sta e with
      | error err =>
          rw [hb] at h
          simp only [Bind.bind, Except.bind] at h
          exact Except.noConfusion h
      | ok stb =>
          rw [hb] at h
          simp only [Bind.bind, Except.bind] at h
          exact ⟨pre, post, sta, stb, rfl, ha, hb, h⟩

theorem foldSteps_noop (fs : SteamFS) (snapshot : Catalog) (ids : List String)
    (cat1 : Catalog) :
    ∀ evs : List Ev,
    (∀ e ∈ evs, ∀ muts, stepFileCat fs snapshot ids cat1 muts e = .ok (cat1, muts)) →
    ∀ (seen : List String) (m : Nat), ∃ seen2,
      foldSteps fs snapshot ids ⟨cat1, seen, m⟩ evs = .ok ⟨cat1, seen2, m⟩ := by
  intro evs
  induction evs with
  | nil => exact fun _ seen m => ⟨seen, rfl⟩
  | cons e evs ih =>
      intro hstep seen m
      have hcat : stepFileCat fs snapshot ids cat1 m e = .ok (cat1, m) :=
        hstep e (List.mem_cons_self _ _) m
      have hsf : stepFile fs snapshot ids ⟨cat1, seen, m⟩ e
          = .ok ⟨cat1, insertStr (sidOf e) seen, m⟩ := by
        unfold stepFile
        rw [hcat]
        rfl
      obtain ⟨seen2, hrest⟩ := ih (fun e2 h2 => hstep e2 (List.mem_cons_of_mem _ h2))
        (insertStr (sidOf e) seen) m
      refine ⟨seen2, ?_⟩
      simp only [foldSteps]
      rw [hsf]
      simp only [Bind.bind, Except.bind]
      exact hrest

theorem step4_noop (snapshot : Catalog) (ids seen : List String)
    (cat : Catalog) (muts : Nat)
    (hall : ∀ uid ∈ (dedupFirst ids).filter (fun i => ¬ seen.contains i),
      ∀ g ∈ snapshot,
      ((g.steamid.map natReprStr = some uid) && g.installed
        && (g.runner = "steam" || g.runner = "winesteam")) = false) :
    step4 snapshot ids seen cat muts = (cat, muts) := by
  unfold step4
  refine foldl_preserve_mem _ (fun b => b = (cat, muts)) _ ?_ (cat, muts) rfl
  intro b uid huid hb
  subst hb
  unfold step4ForId
  refine foldl_preserve_mem _ (fun b2 => b2 = (cat, muts)) _ ?_ (cat, muts) rfl
  intro b2 g hg hb2
  subst hb2
  rw [hall uid huid g hg]
  rfl

theorem SyncInv_stepFileCat {fs : SteamFS} {cat : Catalog} {c : Catalog} {muts : Nat}
    {e : Ev} {cm : Catalog × Nat}
    (hcanon : ∀ e2 ∈ eventsOf fs, sidOf e2 = natReprStr (numOf e2))
    (he : e ∈ eventsOf fs)
    (h : stepFileCat fs (steamGames cat) (idsOf (steamGames cat)) c muts e = .ok cm)
    (hI : SyncInv cat (idsOf (steamGames cat)) ((eventsOf fs).map sidOf) c) :
    SyncInv cat (idsOf (steamGames cat)) ((eventsOf fs).map sidOf) cm.1 := by
  rcases stepFileCat_write_shape h with h2 | ⟨nm, sl, rn, cf, h2⟩
  · rw [h2]
    exact hI
  · rw [h2]
    refine SyncInv_upsertInstalled hI ?_ nm sl rn cf
    refine List.elem_iff.mpr ?_
    rw [← hcanon e he]
    exact List.mem_map_of_mem sidOf he

theorem SyncInv_foldSteps {fs : SteamFS} {cat : Catalog}
    (hcanon : ∀ e2 ∈ eventsOf fs, sidOf e2 = natReprStr (numOf e2))
    {evs2 : List Ev} (hsub : ∀ e2 ∈ evs2, e2 ∈ eventsOf fs) {st st' : SyncSt}
    (h : foldSteps fs (steamGames cat) (idsOf (steamGames cat)) st evs2 = .ok st')
    (hI : SyncInv cat (idsOf (steamGames cat)) ((eventsOf fs).map sidOf) st.cat) :
    SyncInv cat (idsOf (steamGames cat)) ((eventsOf fs).map sidOf) st'.cat := by
  refine foldSteps_cat_preserve_mem fs _ _
    (SyncInv cat (idsOf (steamGames cat)) ((eventsOf fs).map sidOf)) evs2 ?_ st st' h hI
  intro c m e cm hmem hcm hI2
  exact SyncInv_stepFileCat hcanon (hsub e hmem) hcm hI2

theorem SyncInv_step4_pres {fs : SteamFS} {cat : Catalog} (seen : List String)
    {c : Catalog} (muts : Nat)
    (hI : SyncInv cat (idsOf (steamGames cat)) ((eventsOf fs).map sidOf) c) :
    SyncInv cat (idsOf (steamGames cat)) ((eventsOf fs).map sidOf)
      (step4 (steamGames cat) (idsOf (steamGames cat)) seen c muts).1 := by
  refine step4_preserve _ _ _
    (SyncInv cat (idsOf (steamGames cat)) ((eventsOf fs).map sidOf)) ?_ c muts hI
  intro c2 uid g4 huid hg4 hmatch hI2
  have hgid : g4.id ∈ c2.map Game.id :=
    hI2.2.2.1 g4.id (List.mem_map_of_mem Game.id (snapshot_sub hg4))
  refine SyncInv_upd hI2 hgid ?_
  intro g2 hg2 hg2id
  simp only [Bool.and_eq_true, decide_eq_true_eq] at hmatch
  obtain ⟨⟨hmap, _⟩, _⟩ := hmatch
  rcases hg4s : g4.steamid with _ | m4
  · rw [hg4s] at hmap
    exact absurd hmap (by simp)
  · rw [hg4s] at hmap
    have hmap2 : natReprStr m4 = uid := Option.some.inj hmap
    have huid1 : uid ∈ idsOf (steamGames cat) :=
      mem_of_mem_dedupFirst (List.mem_filter.mp huid).1
    refine ⟨m4, ?_, ?_⟩
    · rw [hI2.2.2.2.1 g2 hg2 g4 (snapshot_sub hg4) hg2id]
      exact hg4s
    · rw [hmap2]
      exact List.elem_iff.mpr huid1

theorem AllInst_step4_pres {fs : SteamFS} {cat : Catalog} {seen : List String}
    {c : Catalog} {muts : Nat} {n : Nat}
    (hnseen : seen.contains (natReprStr n) = true)
    (hI : SyncInv cat (idsOf (steamGames cat)) ((eventsOf fs).map sidOf) c)
    (hA : ∀ g ∈ c, g.steamid = some n → g.installed = true) :
    ∀ g ∈ (step4 (steamGames cat) (idsOf (steamGames cat)) seen c muts).1,
      g.steamid = some n → g.installed = true := by
  have := step4_preserve (steamGames cat) (idsOf (steamGames cat)) seen
    (fun c2 => SyncInv cat (idsOf (steamGames cat)) ((eventsOf fs).map sidOf) c2
      ∧ ∀ g ∈ c2, g.steamid = some n → g.installed = true) ?_ c muts ⟨hI, hA⟩
  · exact this.2
  · intro c2 uid g4 huid hg4 hmatch hP
    obtain ⟨hI2, hA2⟩ := hP
    have hgid : g4.id ∈ c2.map Game.id :=
      hI2.2.2.1 g4.id (List.mem_map_of_mem Game.id (snapshot_sub hg4))
    simp only [Bool.and_eq_true, decide_eq_true_eq] at hmatch
    obtain ⟨⟨hmap, _⟩, _⟩ := hmatch
    rcases hg4s : g4.steamid with _ | m4
    · rw [hg4s] at hmap
      exact absurd hmap (by simp)
    rw [hg4s] at hmap
    have hmap2 : natReprStr m4 = uid := Option.some.inj hmap
    have huid1 : uid ∈ idsOf (steamGames cat) :=
      mem_of_mem_dedupFirst (List.mem_filter.mp huid).1
    have huid2 : seen.contains uid = false := by
      have := (List.mem_filter.mp huid).2
      simp only [decide_eq_true_eq] at this
      cases hx : seen.contains uid with
      | false => rfl
      | true => exact absurd hx this
    constructor
    · refine SyncInv_upd hI2 hgid ?_
      intro g2 hg2 hg2id
      refine ⟨m4, ?_, ?_⟩
      · rw [hI2.2.2.2.1 g2 hg2 g4 (snapshot_sub hg4) hg2id]
        exact hg4s
      · rw [hmap2]
        exact List.elem_iff.mpr huid1
    · refine AllInst_upd_frame n g4.id c2 ?_ hA2
      intro g2 hg2 hg2id hg2n
      have hsid2 : g2.steamid = g4.steamid :=
        hI2.2.2.2.1 g2 hg2 g4 (snapshot_sub hg4) hg2id
      rw [hsid2, hg4s] at hg2n
      have hm4n : m4 = n := Option.some.inj hg2n
      rw [hm4n] at hmap2
      rw [hmap2] at hnseen
      rw [hnseen] at huid2
      exact Bool.noConfusion huid2

theorem AllInst_propagate {fs : SteamFS} {cat : Catalog} {post : List Ev}
    {stb st1 : SyncSt} {cat1 : Catalog} {k : Nat} {n : Nat}
    (hcanon : ∀ e2 ∈ eventsOf fs, sidOf e2 = natReprStr (numOf e2))
    (hsub : ∀ e2 ∈ post, e2 ∈ eventsOf fs)
    (hpost : foldSteps fs (steamGames cat) (idsOf (steamGames cat)) stb post = .ok st1)
    (hres : (cat1, k) = step4 (steamGames cat) (idsOf (steamGames cat)) st1.seen
        st1.cat st1.muts)
    (hnseen : st1.seen.contains (natReprStr n) = true)
    (hIb : SyncInv cat (idsOf (steamGames cat)) ((eventsOf fs).map sidOf) stb.cat)
    (hAb : ∀ g ∈ stb.cat, g.steamid = some n → g.installed = true) :
    ∀ g ∈ cat1, g.steamid = some n → g.installed = true := by
  have hmid : SyncInv cat (idsOf (steamGames cat)) ((eventsOf fs).map sidOf) st1.cat
      ∧ ∀ g ∈ st1.cat, g.steamid = some n → g.installed = true := by
    refine foldSteps_cat_preserve_mem fs _ _
      (fun c => SyncInv cat (idsOf (steamGames cat)) ((eventsOf fs).map sidOf) c
        ∧ ∀ g ∈ c, g.steamid = some n → g.installed = true)
      post ?_ stb st1 hpost ⟨hIb, hAb⟩
    intro c m e cm hmem hcm hP
    refine ⟨SyncInv_stepFileCat hcanon (hsub e hmem) hcm hP.1, ?_⟩
    rcases stepFileCat_write_shape hcm with h2 | ⟨nm, sl, rn, cf, h2⟩
    · rw [h2]
      exact hP.2
    · rw [h2]
      exact AllInst_upsertGo n (numOf e) nm sl rn cf _ rfl c hP.2
  have hc1 : cat1 = (step4 (steamGames cat) (idsOf (steamGames cat)) st1.seen
      st1.cat st1.muts).1 := congrArg Prod.fst hres
  rw [hc1]
  exact AllInst_step4_pres hnseen hmid.1 hmid.2

theorem exSid_upsertGo (n : Nat) (nm sl rn cf : String) (newRow : Game)
    (hnew : newRow.steamid = some n) :
    ∀ c : Catalog, ∃ r ∈ upsertGo n nm sl rn cf newRow c, r.steamid = some n := by
  intro c
  induction c with
  | nil => exact ⟨newRow, List.mem_singleton.mpr rfl, hnew⟩
  | cons g0 rest ih =>
      by_cases hst : g0.steamid = some n
      · simp only [upsertGo, if_pos hst]
        exact ⟨_, List.mem_cons_self _ _, rfl⟩
      · simp only [upsertGo, if_neg hst]
        obtain ⟨r, hr, hrn⟩ := ih
        exact ⟨r, List.mem_cons_of_mem _ hr, hrn⟩

theorem exSid_propagate {fs : SteamFS} {cat : Catalog} {post : List Ev}
    {stb st1 : SyncSt} {cat1 : Catalog} {k : Nat} {n : Nat}
    (hpost : foldSteps fs (steamGames cat) (idsOf (steamGames cat)) stb post = .ok st1)
    (hres : (cat1, k) = step4 (steamGames cat) (idsOf (steamGames cat)) st1.seen
        st1.cat st1.muts)
    (hstart : ∃ r ∈ stb.cat, r.steamid = some n) :
    ∃ r ∈ cat1, r.steamid = some n := by
  have hmid : ∃ r ∈ st1.cat, r.steamid = some n := by
    refine foldSteps_cat_preserve fs _ _ (fun c => ∃ r ∈ c, r.steamid = some n) ?_
      post stb st1 hpost hstart
    intro c m e cm hcm hP
    rcases stepFileCat_write_shape hcm with h2 | ⟨nm, sl, rn, cf, h2⟩
    · rw [h2]
      exact hP
    · rw [h2]
      obtain ⟨r, hr, hrn⟩ := hP
      obtain ⟨r2, hr2, he2, _⟩ := sid_surv_upsertGo (numOf e) nm sl rn cf _ c r hr
      exact ⟨r2, hr2, he2 ▸ hrn⟩
  have hc1 : cat1 = (step4 (steamGames cat) (idsOf (steamGames cat)) st1.seen
      st1.cat st1.muts).1 := congrArg Prod.fst hres
  rw [hc1]
  refine step4_preserve _ _ _ (fun c => ∃ r ∈ c, r.steamid = some n) ?_
    st1.cat st1.muts hmid
  intro c uid g4 _ _ _ hP
  obtain ⟨r, hr, hrn⟩ := hP
  obtain ⟨r2, hr2, he2, _⟩ := sid_surv_upd g4.id c r hr
  exact ⟨r2, hr2, he2 ▸ hrn⟩

theorem row_frozen {fs : SteamFS} {cat : Catalog} {st1 : SyncSt} {cat1 : Catalog}
    {k : Nat} {r0 : Game} {m : Nat}
    (hid : (cat.map Game.id).Nodup)
    (hcanon : ∀ e2 ∈ eventsOf fs, sidOf e2 = natReprStr (numOf e2))
    (hfold1 : foldSteps fs (steamGames cat) (idsOf (steamGames cat)) ⟨cat, [], 0⟩
        (eventsOf fs) = .ok st1)
    (hres1 : (cat1, k) = step4 (steamGames cat) (idsOf (steamGames cat)) st1.seen
        st1.cat st1.muts)
    (hr0 : r0 ∈ cat) (hr0s : r0.steamid = some m)
    (hunseen : ((eventsOf fs).map sidOf).contains (natReprStr m) = false)
    (hnomatch : ∀ uid, ((r0.steamid.map natReprStr = some uid) && r0.installed
      && (r0.runner = "steam" || r0.runner = "winesteam")) = false) :
    r0 ∈ cat1 := by
  have hmid : r0 ∈ st1.cat := by
    refine foldSteps_cat_preserve_mem fs _ _ (fun c => r0 ∈ c) (eventsOf fs) ?_
      _ _ hfold1 hr0
    intro c mu e cm hmem hcm hP
    rcases stepFileCat_write_shape hcm with h2 | ⟨nm, sl, rn, cf, h2⟩
    · rw [h2]
      exact hP
    · rw [h2]
      refine mem_upsertGo_of_ne (numOf e) nm sl rn cf _ c r0 hP ?_
      rw [hr0s]
      intro hh
      have hmn : m = numOf e := Option.some.inj hh
      rw [hmn, ← hcanon e hmem] at hunseen
      have hm2 : sidOf e ∈ (eventsOf fs).map sidOf := List.mem_map_of_mem sidOf hmem
      have hc : ((eventsOf fs).map sidOf).contains (sidOf e) = true :=
        List.elem_iff.mpr hm2
      rw [hc] at hunseen
      exact Bool.noConfusion hunseen
  have hc1 : cat1 = (step4 (steamGames cat) (idsOf (steamGames cat)) st1.seen
      st1.cat st1.muts).1 := congrArg Prod.fst hres1
  rw [hc1]
  refine step4_preserve _ _ _ (fun c => r0 ∈ c) ?_ st1.cat st1.muts hmid
  intro c uid g4 _ hg4 hmatch hP
  refine mem_upd_of_id_ne g4.id c r0 hP ?_
  intro hideq
  have hg4r0 : g4 = r0 := nodup_id_inj hid (snapshot_sub hg4) hr0 hideq.symm
  rw [hg4r0] at hmatch
  rw [hnomatch uid] at hmatch
  exact Bool.noConfusion hmatch

theorem exSid_upsertInstalled (c : Catalog) (n : Nat) (nm sl rn cf : String) :
    ∃ r ∈ upsertInstalled c n nm sl rn cf, r.steamid = some n :=
  exSid_upsertGo n nm sl rn cf _ rfl c

/-- With duplicate-free row and Steam ids, canonically named manifest files
and a completed first pass, re-running the loop body of the pass on the
first pass's result leaves the catalog and the mutation count unchanged. -/
theorem run2_step_noop
    (fs : SteamFS) (cat cat1 : Catalog) (k : Nat) (st1 : SyncSt)
    (hid : (cat.map Game.id).Nodup)
    (hsid : (cat.filterMap Game.steamid).Nodup)
    (hcanon : ∀ e2 ∈ eventsOf fs, sidOf e2 = natReprStr (numOf e2))
    (hfold1 : foldSteps fs (steamGames cat) (idsOf (steamGames cat)) ⟨cat, [], 0⟩
        (eventsOf fs) = .ok st1)
    (hres1 : (cat1, k) = step4 (steamGames cat) (idsOf (steamGames cat)) st1.seen
        st1.cat st1.muts)
    (hinv0 : SyncInv cat (idsOf (steamGames cat)) ((eventsOf fs).map sidOf) cat)
    (hinv1 : SyncInv cat (idsOf (steamGames cat)) ((eventsOf fs).map sidOf) cat1)
    (hsurv : ∀ r ∈ cat, ∃ r2 ∈ cat1, r2.steamid = r.steamid ∧ r2.id = r.id)
    (e : Ev) (he : e ∈ eventsOf fs) (muts : Nat) :
    stepFileCat fs (steamGames cat1) (idsOf (steamGames cat1)) cat1 muts e
      = .ok (cat1, muts) := by
  have hseen1 : ∀ s, st1.seen.contains s = ((eventsOf fs).map sidOf).contains s := by
    intro s
    have h := foldSteps_seen fs (steamGames cat) (idsOf (steamGames cat))
      (eventsOf fs) ⟨cat, [], 0⟩ st1 hfold1 s
    rw [h]
    rfl
  have hcend : sidOf e = natReprStr (numOf e) := hcanon e he
  have hnseen_evs : ((eventsOf fs).map sidOf).contains (natReprStr (numOf e)) = true := by
    refine List.elem_iff.mpr ?_
    rw [← hcend]
    exact List.mem_map_of_mem sidOf he
  have hnseen1 : st1.seen.contains (natReprStr (numOf e)) = true := by
    rw [hseen1]
    exact hnseen_evs
  cases hread : readManifestForSync fs e.rootPath e.file with
  | error u =>
      cases u
      exact stepFileCat_read_error hread _ _ cat1 muts
  | ok data =>
      by_cases hcond2 : (¬ (idsOf (steamGames cat1)).contains (sidOf e) = true
          ∧ e.platform = Platform.linux)
      · have hc2f : (idsOf (steamGames cat1)).contains (sidOf e) = false := by
          cases hx : (idsOf (steamGames cat1)).contains (sidOf e) with
          | false => rfl
          | true => exact absurd hx hcond2.1
        have hc1f : (idsOf (steamGames cat)).contains (sidOf e) = false := by
          cases hx : (idsOf (steamGames cat)).contains (sidOf e) with
          | false => rfl
          | true =>
              exfalso
              have hmem1 : sidOf e ∈ idsOf (steamGames cat) := List.elem_iff.mp hx
              obtain ⟨g0, hg0, hg0m⟩ := List.mem_filterMap.mp hmem1
              rcases hg0s : g0.steamid with _ | m0
              · rw [hg0s] at hg0m
                exact absurd hg0m (by simp)
              rw [hg0s] at hg0m
              have hm0 : natReprStr m0 = sidOf e := Option.some.inj hg0m
              obtain ⟨r2, hr2, hr2s, _⟩ := hsurv g0 (snapshot_sub hg0)
              have hr2mem : r2 ∈ steamGames cat1 :=
                List.mem_filter.mpr ⟨hr2, by rw [hr2s, hg0s]; rfl⟩
              have hmm : natReprStr m0 ∈ idsOf (steamGames cat1) :=
                mem_idsOf hr2mem (by rw [hr2s, hg0s])
              rw [hm0] at hmm
              have hc : (idsOf (steamGames cat1)).contains (sidOf e) = true :=
                List.elem_iff.mpr hmm
              rw [hc] at hc2f
              exact Bool.noConfusion hc2f
        obtain ⟨pre, post, sta, stb, hsplitev, hpre, hstepe, hpost⟩ :=
          foldSteps_split_at fs _ _ he hfold1
        obtain ⟨cm, hcm, hstb⟩ := stepFile_parts hstepe
        obtain ⟨b, hb, hbtrue⟩ := stepFileCat_install_inv hc1f hcond2.2 hread hcm
        cases b with
        | false =>
            exact stepFileCat_install_instfalse hc2f hcond2.2 hread hb cat1 muts
        | true =>
            exfalso
            obtain ⟨info, hinfo, hcm1⟩ := hbtrue rfl
            have hex : ∃ r ∈ stb.cat, r.steamid = some (numOf e) := by
              rw [hstb]
              show ∃ r ∈ cm.1, r.steamid = some (numOf e)
              rw [hcm1]
              exact exSid_upsertInstalled sta.cat (numOf e) _ _ _ _
            have hex1 : ∃ r ∈ cat1, r.steamid = some (numOf e) :=
              exSid_propagate hpost hres1 hex
            obtain ⟨r, hr, hrn⟩ := hex1
            have hrmem : r ∈ steamGames cat1 :=
              List.mem_filter.mpr ⟨hr, by rw [hrn]; rfl⟩
            have hmm : natReprStr (numOf e) ∈ idsOf (steamGames cat1) :=
              mem_idsOf hrmem hrn
            rw [← hcend] at hmm
            have hc : (idsOf (steamGames cat1)).contains (sidOf e) = true :=
              List.elem_iff.mpr hmm
            rw [hc] at hc2f
            exact Bool.noConfusion hc2f
      · cases hfind2 : (steamGames cat1).find?
            (fun g => (g.steamid.map natReprStr = some (sidOf e)) && !g.installed) with
        | none => exact stepFileCat_else_none hcond2 hfind2 cat1 muts
        | some g2 =>
            have hg2mem : g2 ∈ steamGames cat1 := List.mem_of_find?_eq_some hfind2
            have hg2p := List.find?_some hfind2
            simp only [Bool.and_eq_true, decide_eq_true_eq, Bool.not_eq_true'] at hg2p
            obtain ⟨hg2map, hg2inst⟩ := hg2p
            rcases hg2s : g2.steamid with _ | m2
            · rw [hg2s] at hg2map
              exact absurd hg2map (by simp)
            rw [hg2s] at hg2map
            have hm2e : natReprStr m2 = sidOf e := Option.some.inj hg2map
            have hm2n : m2 = numOf e := natReprStr_inj (by rw [hm2e, hcend])
            by_cases hc1 : (idsOf (steamGames cat)).contains (sidOf e) = true
            · have hmem1 : sidOf e ∈ idsOf (steamGames cat) := List.elem_iff.mp hc1
              obtain ⟨g0, hg0, hg0m⟩ := List.mem_filterMap.mp hmem1
              rcases hg0s : g0.steamid with _ | m0
              · rw [hg0s] at hg0m
                exact absurd hg0m (by simp)
              rw [hg0s] at hg0m
              have hm0 : natReprStr m0 = sidOf e := Option.some.inj hg0m
              have hm0n : m0 = numOf e := natReprStr_inj (by rw [hm0, hcend])
              by_cases hg0i : g0.installed = true
              · exfalso
                have hA0 : ∀ g ∈ cat, g.steamid = some (numOf e) →
                    g.installed = true := by
                  intro g hg hgn
                  have hgg0 : g = g0 := unique_sid hsid hg (snapshot_sub hg0) hgn
                    (by rw [hg0s, hm0n])
                  rw [hgg0]
                  exact hg0i
                have hA1 := AllInst_propagate hcanon (fun e2 h2 => h2) hfold1 hres1
                  hnseen1 hinv0 hA0
                have hg2i := hA1 g2 (snapshot_sub hg2mem) (by rw [hg2s, hm2n])
                rw [hg2i] at hg2inst
                exact Bool.noConfusion hg2inst
              · have hfind1some : ((steamGames cat).find?
                    (fun g => (g.steamid.map natReprStr = some (sidOf e))
                      && !g.installed)).isSome := by
                  rw [List.find?_isSome]
                  refine ⟨g0, hg0, ?_⟩
                  have hg0if : g0.installed = false := by
                    cases hx : g0.installed with
                    | false => rfl
                    | true => exact absurd hx hg0i
                  simp [hg0s, hm0, hg0if]
                obtain ⟨g1, hfind1⟩ := Option.isSome_iff_exists.mp hfind1some
                obtain ⟨pre, post, sta, stb, hsplitev, hpre, hstepe, hpost⟩ :=
                  foldSteps_split_at fs _ _ he hfold1
                obtain ⟨cm, hcm, hstb⟩ := stepFile_parts hstepe
                have hcond1 : ¬ (¬ (idsOf (steamGames cat)).contains (sidOf e) = true
                    ∧ e.platform = Platform.linux) := fun hco => hco.1 hc1
                obtain ⟨b, hb, hbtrue⟩ := stepFileCat_else_inv hcond1 hfind1 hread hcm
                cases b with
                | false =>
                    exact stepFileCat_else_instfalse hcond2 hfind2 hread hb cat1 muts
                | true =>
                    exfalso
                    obtain ⟨rn, hcm1⟩ := hbtrue rfl
                    have hIsta : SyncInv cat (idsOf (steamGames cat))
                        ((eventsOf fs).map sidOf) sta.cat := by
                      refine SyncInv_foldSteps hcanon ?_ hpre hinv0
                      intro e2 h2
                      rw [hsplitev]
                      exact List.mem_append_left _ h2
                    have hAb : ∀ g ∈ stb.cat, g.steamid = some (numOf e) →
                        g.installed = true := by
                      rw [hstb]
                      show ∀ g ∈ cm.1, g.steamid = some (numOf e) → g.installed = true
                      rw [hcm1]
                      exact AllInst_upsert_self (numOf e) g1.name g1.slug rn
                        (make_game_config_id g1.slug) _ rfl sta.cat hIsta.1
                    have hIstb : SyncInv cat (idsOf (steamGames cat))
                        ((eventsOf fs).map sidOf) stb.cat := by
                      rw [hstb]
                      exact SyncInv_stepFileCat hcanon he hcm hIsta
                    have hA1 := AllInst_propagate hcanon
                      (fun e2 h2 => by
                        rw [hsplitev]
                        exact List.mem_append_right _ (List.mem_cons_of_mem _ h2))
                      hpost hres1 hnseen1 hIstb hAb
                    have hg2i := hA1 g2 (snapshot_sub hg2mem) (by rw [hg2s, hm2n])
                    rw [hg2i] at hg2inst
                    exact Bool.noConfusion hg2inst
            · exfalso
              have hc1f : (idsOf (steamGames cat)).contains (sidOf e) = false := by
                cases hx : (idsOf (steamGames cat)).contains (sidOf e) with
                | false => rfl
                | true => exact absurd hx hc1
              have hg2i := hinv1.2.2.2.2.1 g2 (snapshot_sub hg2mem) m2 hg2s
                (by rw [hm2e]; exact hc1f)
              rw [hg2i] at hg2inst
              exact Bool.noConfusion hg2inst

/-- C4 counterexample: with the leading-zero manifest filename
`appmanifest_007.acf` the pass is not idempotent.  The filename's digit run
`007` never equals the catalog's id string `7`, so every pass treats the id
as unknown (installing) and as unavailable (uninstalling): the first run
flips the installed row to uninstalled in 2 writes, and the second run —
with no filesystem change — performs 1 further write and produces a
different catalog again. -/
theorem C4_idempotence_counterexample :
    sync_with_lutris fsC4 catC4 = .ok (catC4a, 2)
    ∧ sync_with_lutris fsC4 catC4a = .ok (catC4b, 1)
    ∧ catC4b ≠ catC4a := by
  refine ⟨by decide, by decide, by decide⟩

/-- C4 amended: under the data model's uniqueness of catalog row ids and of
Steam ids (one entry per steamId, §5 findBySteamId / fetch-by-id), and for
filesystems whose manifest filenames spell each Steam id canonically (the
digit run equals `str(int)` of the id — excluded otherwise by
`C4_idempotence_counterexample`), a completed pass is idempotent: running it
again performs zero catalog mutations and returns the same catalog. -/
theorem C4_sync_idempotent
    (fs : SteamFS) (cat cat1 : Catalog) (k : Nat)
    (hok : sync_with_lutris fs cat = .ok (cat1, k))
    (hid : (cat.map Game.id).Nodup)
    (hsid : (cat.filterMap Game.steamid).Nodup)
    (hcanon : ∀ e2 ∈ eventsOf fs, sidOf e2 = natReprStr (numOf e2)) :
    sync_with_lutris fs cat1 = .ok (cat1, 0) := by
  obtain ⟨st1, hfold1, hres1⟩ := sync_parts hok
  have hinv0 : SyncInv cat (idsOf (steamGames cat)) ((eventsOf fs).map sidOf) cat := by
    refine ⟨hsid, hid, fun i hi => hi, ?_, ?_, ?_⟩
    · intro r hr r0 hr0 hidr
      rw [nodup_id_inj hid hr hr0 hidr]
    · intro r hr m hm hcon
      exfalso
      have hrs : r ∈ steamGames cat := List.mem_filter.mpr ⟨hr, by rw [hm]; rfl⟩
      have hmm : natReprStr m ∈ idsOf (steamGames cat) := mem_idsOf hrs hm
      have hc : (idsOf (steamGames cat)).contains (natReprStr m) = true :=
        List.elem_iff.mpr hmm
      rw [hc] at hcon
      exact Bool.noConfusion hcon
    · intro r hr hnid
      exact absurd (List.mem_map_of_mem Game.id hr) hnid
  have hinvst1 : SyncInv cat (idsOf (steamGames cat)) ((eventsOf fs).map sidOf)
      st1.cat := SyncInv_foldSteps hcanon (fun _ h => h) hfold1 hinv0
  have hc1eq : cat1 = (step4 (steamGames cat) (idsOf (steamGames cat)) st1.seen
      st1.cat st1.muts).1 := congrArg Prod.fst hres1
  have hinv1 : SyncInv cat (idsOf (steamGames cat)) ((eventsOf fs).map sidOf) cat1 := by
    rw [hc1eq]
    exact SyncInv_step4_pres st1.seen st1.muts hinvst1
  have hsurv : ∀ r ∈ cat, ∃ r2 ∈ cat1, r2.steamid = r.steamid ∧ r2.id = r.id := by
    have hmid : ∀ r ∈ cat, ∃ r2 ∈ st1.cat, r2.steamid = r.steamid ∧ r2.id = r.id := by
      refine foldSteps_cat_preserve fs _ _
        (fun c => ∀ r ∈ cat, ∃ r2 ∈ c, r2.steamid = r.steamid ∧ r2.id = r.id) ?_
        (eventsOf fs) _ _ hfold1 ?_
      · intro c m e cm hcm hP r hr
        rcases stepFileCat_write_shape hcm with h2 | ⟨nm, sl, rn, cf, h2⟩
        · rw [h2]
          exact hP r hr
        · rw [h2]
          obtain ⟨r2, hr2, hs2, hid2⟩ := hP r hr
          obtain ⟨r3, hr3, hs3, hid3⟩ := sid_surv_upsertGo (numOf e) nm sl rn cf _ c r2 hr2
          exact ⟨r3, hr3, by rw [hs3, hs2], by rw [hid3, hid2]⟩
      · intro r hr
        exact ⟨r, hr, rfl, rfl⟩
    rw [hc1eq]
    refine step4_preserve _ _ _
      (fun c => ∀ r ∈ cat, ∃ r2 ∈ c, r2.steamid = r.steamid ∧ r2.id = r.id) ?_
      st1.cat st1.muts hmid
    intro c uid g4 _ _ _ hP r hr
    obtain ⟨r2, hr2, hs2, hid2⟩ := hP r hr
    obtain ⟨r3, hr3, hs3, hid3⟩ := sid_surv_upd g4.id c r2 hr2
    exact ⟨r3, hr3, by rw [hs3, hs2], by rw [hid3, hid2]⟩
  obtain ⟨seen2, hfold2⟩ := foldSteps_noop fs (steamGames cat1)
    (idsOf (steamGames cat1)) cat1 (eventsOf fs)
    (fun e he muts => run2_step_noop fs cat cat1 k st1 hid hsid hcanon hfold1 hres1
      hinv0 hinv1 hsurv e he muts) [] 0
  have hseen2 : ∀ s, seen2.contains s = ((eventsOf fs).map sidOf).contains s := by
    intro s
    have h := foldSteps_seen fs (steamGames cat1) (idsOf (steamGames cat1))
      (eventsOf fs) ⟨cat1, [], 0⟩ ⟨cat1, seen2, 0⟩ hfold2 s
    rw [h]
    rfl
  have hseen1 : ∀ s, st1.seen.contains s = ((eventsOf fs).map sidOf).contains s := by
    intro s
    have h := foldSteps_seen fs (steamGames cat) (idsOf (steamGames cat))
      (eventsOf fs) ⟨cat, [], 0⟩ st1 hfold1 s
    rw [h]
    rfl
  have hstep4 : step4 (steamGames cat1) (idsOf (steamGames cat1)) seen2 cat1 0
      = (cat1, 0) := by
    refine step4_noop _ _ _ _ _ ?_
    intro uid huid g hg
    cases hB : ((g.steamid.map natReprStr = some uid) && g.installed
        && (g.runner = "steam" || g.runner = "winesteam")) with
    | false => rfl
    | true =>
        exfalso
        have hB' := hB
        simp only [Bool.and_eq_true, decide_eq_true_eq, Bool.or_eq_true] at hB'
        obtain ⟨⟨hmap, hinst⟩, hfam⟩ := hB'
        have huid2 : seen2.contains uid = false := by
          have hf := (List.mem_filter.mp huid).2
          simp only [decide_eq_true_eq] at hf
          cases hx : seen2.contains uid with
          | false => rfl
          | true => exact absurd hx hf
        have hunseen : ((eventsOf fs).map sidOf).contains uid = false := by
          rw [← hseen2 uid]
          exact huid2
        rcases hgs : g.steamid with _ | mg
        · rw [hgs] at hmap
          exact absurd hmap (by simp)
        rw [hgs] at hmap
        have hmge : natReprStr mg = uid := Option.some.inj hmap
        have hg1 : g ∈ cat1 := snapshot_sub hg
        by_cases hgin : g.id ∈ cat.map Game.id
        · obtain ⟨r0, hr0, hr0id⟩ := List.mem_map.mp hgin
          have hsid_eq : g.steamid = r0.steamid :=
            hinv1.2.2.2.1 g hg1 r0 hr0 hr0id.symm
          have hr0s : r0.steamid = some mg := by
            rw [← hsid_eq, hgs]
          have hr0snap : r0 ∈ steamGames cat :=
            List.mem_filter.mpr ⟨hr0, by rw [hr0s]; rfl⟩
          have huid_ids1 : uid ∈ idsOf (steamGames cat) := by
            have hm := mem_idsOf hr0snap hr0s
            rw [hmge] at hm
            exact hm
          have huid_f1 : uid ∈ (dedupFirst (idsOf (steamGames cat))).filter
              (fun i => ¬ st1.seen.contains i) := by
            refine List.mem_filter.mpr ⟨mem_dedupFirst huid_ids1, ?_⟩
            simp only [decide_eq_true_eq]
            rw [hseen1 uid, hunseen]
            simp
          by_cases hr0m : ((r0.steamid.map natReprStr = some uid) && r0.installed
              && (r0.runner = "steam" || r0.runner = "winesteam")) = true
          · have hr0m' := hr0m
            simp only [Bool.and_eq_true, decide_eq_true_eq, Bool.or_eq_true] at hr0m'
            have hU : Uninst r0.id (step4 (steamGames cat) (idsOf (steamGames cat))
                st1.seen st1.cat st1.muts).1 :=
              Uninst_step4 _ _ st1.seen st1.cat st1.muts r0 uid hr0snap
                hr0m'.1.1 hr0m'.1.2 hr0m'.2 huid_f1
            rw [← hc1eq] at hU
            obtain ⟨r', hr', _, hr'i⟩ := hU
            have hfg : findById cat1 g.id = some g := findById_of_nodup hinv1.2.1 hg1
            rw [hr0id] at hr'
            rw [hfg] at hr'
            have hgr' : g = r' := Option.some.inj hr'
            rw [← hgr'] at hr'i
            rw [hinst] at hr'i
            exact Bool.noConfusion hr'i
          · have hnomatch : ∀ uid2, ((r0.steamid.map natReprStr = some uid2)
                && r0.installed
                && (r0.runner = "steam" || r0.runner = "winesteam")) = false := by
              intro uid2
              by_cases h2 : Option.map natReprStr r0.steamid = some uid2
              · have huid2eq : uid2 = uid := by
                  rw [hr0s] at h2
                  have h3 : natReprStr mg = uid2 := Option.some.inj h2
                  rw [← h3]
                  exact hmge
                rw [huid2eq]
                cases hx : ((r0.steamid.map natReprStr = some uid) && r0.installed
                    && (r0.runner = "steam" || r0.runner = "winesteam")) with
                | false => rfl
                | true => exact absurd hx hr0m
              · have hd : (decide (Option.map natReprStr r0.steamid = some uid2))
                    = false := decide_eq_false h2
                rw [hd]
                rfl
            have hfroz : r0 ∈ cat1 :=
              row_frozen hid hcanon hfold1 hres1 hr0 hr0s
                (by rw [hmge]; exact hunseen) hnomatch
            have hgr0 : g = r0 := nodup_id_inj hinv1.2.1 hg1 hfroz hr0id.symm
            apply hr0m
            rw [← hgr0, hgs]
            have hd : (decide (Option.map natReprStr (some mg) = some uid)) = true := by
              simp [hmge]
            rw [hd, hinst]
            rcases hfam with h | h <;> simp [h]
        · obtain ⟨m6, hm6, hs6⟩ := hinv1.2.2.2.2.2 g hg1 hgin
          rw [hgs] at hm6
          have hmm6 : mg = m6 := Option.some.inj hm6
          rw [← hmm6, hmge] at hs6
          rw [hunseen] at hs6
          exact Bool.noConfusion hs6
  show (foldSteps fs (steamGames cat1) (idsOf (steamGames cat1)) ⟨cat1, [], 0⟩
      (eventsOf fs) >>= fun st => .ok (step4 (steamGames cat1)
        (idsOf (steamGames cat1)) st.seen st.cat st.muts)) = .ok (cat1, 0)
  rw [hfold2]
  simp only [Bind.bind, Except.bind]
  rw [hstep4]

/-- C4 amended, witnessed at `fsC5`: after the first pass installs
`Good Game` (Steam id 77, canonical filename) into the empty catalog, a
second pass over the unchanged filesystem returns the same catalog with
zero mutations. -/
theorem C4_sync_idempotent_witness :
    sync_with_lutris fsC5
        [⟨1, "Good Game", "good-game", "steam", some 77, true, "good-game-config"⟩]
      = .ok ([⟨1, "Good Game", "good-game", "steam", some 77, true,
          "good-game-config"⟩], 0) :=
  C4_sync_idempotent fsC5 []
    [⟨1, "Good Game", "good-game", "steam", some 77, true, "good-game-config"⟩] 1
    (by decide) (by decide) (by decide) (by decide)

end Steam
